import Mathlib

/-!
# Elo calculator of the contribution leaderboard

A shallow embedding of `.github/scripts/elo-calculator.js` (and of the label table of
`.github/scripts/config.js`) together with the properties of its rating arithmetic, of the
store it updates and persists, and of the table it renders.

Conventions of the embedding.

* Counts taken from a pull request (additions, deletions, changed files, review comments,
  approvals, change requests, linked issues, commits) are natural numbers.
* JavaScript numbers that are computed from them with `+ - * /` and compared are exact
  rationals (`ℚ`); in `expectedScore` and everything built on it `Math.pow` is the real power
  function and the values live in `ℝ`: these are the exact values of the formulas, which the
  program approximates in IEEE-754 doubles.
* The double arithmetic itself is `toDouble`, the rounding to 53 significant bits that follows
  every operation, and `expectedScoreDouble` is `expectedScore` as the program computes it.
* The object `contributors` is the list of its own properties; what a property read inherits
  from `Object.prototype` is part of `updateLeaderboardRun`.
* A `Date` is its time value in milliseconds, `none` standing for the invalid date, whose time
  value is `NaN`; every comparison with `NaN` is false.
* Strings are Lean strings; `toLowerCase` lower-cases the ASCII letters.
-/

namespace EloCalculator

/-! ## Data model -/

/-- A label of a pull request as `calculateTaskDifficulty` receives it: either a plain string or
a label object of the hosting API, whose `name` property may be absent. -/
inductive Label where
  | str (s : String)
  | obj (name : Option String)
  deriving DecidableEq, Repr

/-- The record `prData` handed to the calculator. `created_at` and `merged_at` hold the time
value (milliseconds since the epoch) of `new Date(prData.created_at)` and
`new Date(prData.merged_at)`; `none` is the invalid date obtained from an absent field
(`undefined`) or from a string that is not a timestamp. A field that is `null` is not an
invalid date: `new Date(null)` is the epoch, `some 0`; see `RawDate`. -/
structure PRData where
  author : String
  number : Nat
  title : String
  labels : List Label
  additions : Nat
  deletions : Nat
  changed_files : Nat
  review_comments : Nat
  approved_reviews : Nat
  changes_requested : Nat
  linked_issues : Nat
  commits : Nat
  created_at : Option Int
  merged_at : Option Int
  deriving DecidableEq, Repr

/-! ## Constants -/

/-- Rating of a contributor that has no record yet. -/
def STARTING_ELO : Nat := 1200

/-- The label table of `elo-calculator.js`, in the order `Object.entries` enumerates it. -/
def TASK_DIFFICULTY : List (String × Nat) :=
  [("bug", 1000), ("enhancement", 1200), ("feature", 1300), ("refactor", 1300),
   ("documentation", 1100), ("critical", 1500), ("architecture", 1500),
   ("technical-debt", 1250), ("hotfix", 1400)]

/-- The label table `TASK_DIFFICULTY` of the centralized configuration `config.js`. The
calculator never reads it. -/
def CONFIG_TASK_DIFFICULTY : List (String × Nat) :=
  [("bug", 1000), ("enhancement", 1200), ("feature", 1300), ("refactor", 1300),
   ("documentation", 1100), ("critical", 1500), ("architecture", 1500),
   ("technical-debt", 1250), ("hotfix", 1400), ("test", 1050), ("ci-cd", 1200),
   ("security", 1450), ("performance", 1350), ("ui-ux", 1250)]

/-! ## Rating math -/

/-- K-factor of a contributor with `contributionCount` merged pull requests. -/
def getKFactor (contributionCount : Nat) : Nat :=
  if contributionCount < 10 then 32
  else if contributionCount < 50 then 24
  else 16

/-- Expected score `1 / (1 + Math.pow(10, (opponentRating - playerRating) / 400))` as the exact
real number of which the source computes a double-precision approximation; the double
computation itself is `expectedScoreDouble`. -/
noncomputable def expectedScore (playerRating opponentRating : ℝ) : ℝ :=
  1 / (1 + (10 : ℝ) ^ ((opponentRating - playerRating) / 400))

/-- Rounding of a rational to the nearest integer, a tie going to the even integer. -/
def roundHalfEven (x : ℚ) : Int :=
  if x - (⌊x⌋ : ℚ) < 1 / 2 then ⌊x⌋
  else if 1 / 2 < x - (⌊x⌋ : ℚ) then ⌊x⌋ + 1
  else if ⌊x⌋ % 2 = 0 then ⌊x⌋
  else ⌊x⌋ + 1

/-- The double (IEEE-754 binary64) nearest to a rational, ties to even: the rational is rounded
to 53 significant bits. The exponent is not bounded here: the value is the one of binary64 when
it is zero or a normal number, from `2 ^ (-1022)` up to the largest double; overflow to
`Infinity` and the subnormal numbers are left out. -/
def toDouble (q : ℚ) : ℚ :=
  if q = 0 then 0
  else if 0 < q then
    (roundHalfEven (q / 2 ^ (Int.log 2 q - 52)) : ℚ) * 2 ^ (Int.log 2 q - 52)
  else
    -((roundHalfEven (-q / 2 ^ (Int.log 2 (-q) - 52)) : ℚ) * 2 ^ (Int.log 2 (-q) - 52))

/-- The call `Math.pow(10, x)` on a double `x` that is an integer between -307 and 307: the
double nearest to the exact power, which is a normal number. For any other `x` the model gives
no value: the language leaves the last bits of the result to the engine, and beyond 307 the
power, or the quotient that `expectedScore` takes next, leaves the normal numbers. -/
def pow10Double (x : ℚ) : Option ℚ :=
  if x.den = 1 ∧ x.num.natAbs ≤ 307 then some (toDouble ((10 : ℚ) ^ x.num)) else none

/-- The function `expectedScore` as the source computes it, in doubles: every operation is
followed by the rounding of its exact result. It has a value when the exponent it computes is
an integer between -307 and 307, as it is for ratings that differ by a multiple of 400 of at
most 122800. -/
def expectedScoreDouble (playerRating opponentRating : ℚ) : Option ℚ :=
  (pow10Double (toDouble (toDouble (opponentRating - playerRating) / 400))).map
    (fun power => toDouble (1 / toDouble (1 + power)))

/-- The method `toLowerCase` of a string. The model maps the ASCII letters `A`-`Z` to `a`-`z`
and leaves every other character alone. JavaScript also lower-cases letters outside ASCII; the
only ASCII characters it can produce from them are `k` (from the Kelvin sign) and an `i` that is
followed by a combining dot, and no key of the label tables contains `k` or ends in `i`, so
the keys found in a lower-cased label are the same. -/
def toLowerCase (s : String) : String :=
  String.mk (s.data.map Char.toLower)

/-- Search of `key` in a list of characters: `key` starts at the head, or occurs further on. -/
def includesFrom (key : List Char) : List Char → Bool
  | [] => key.isPrefixOf []
  | c :: cs => key.isPrefixOf (c :: cs) || includesFrom key cs

/-- The method `includes` of a string: `key` occurs in `s` as a run of consecutive characters. -/
def includes (s key : String) : Bool :=
  includesFrom key.data s.data

/-- The callback of `prData.labels.map` in `calculateTaskDifficulty`: a string is lower-cased, a
label object with a truthy (non-empty) `name` gives that name lower-cased, anything else the
empty string. -/
def labelName : Label → String
  | Label.str s => toLowerCase s
  | Label.obj (some name) => if name ≠ "" then toLowerCase name else ""
  | Label.obj none => ""

/-- Body of the inner loop of `calculateTaskDifficulty`: `acc` is the pair
`(baseRating, foundLabel)`, `entry` the pair `[key, rating]`. -/
def matchStep (label : String) (acc : Nat × Bool) (entry : String × Nat) : Nat × Bool :=
  if label == entry.1 || includes label entry.1 then (max acc.1 entry.2, true) else acc

/-- The two nested loops of `calculateTaskDifficulty` over the lower-cased labels and the
entries of the table, started from `baseRating = 0`, `foundLabel = false`. -/
def scanLabels (table : List (String × Nat)) (labels : List String) : Nat × Bool :=
  labels.foldl (fun acc label => table.foldl (matchStep label) acc) (0, false)

/-- The function `calculateTaskDifficulty` with the label table made a parameter. -/
def calculateTaskDifficultyWith (table : List (String × Nat)) (prData : PRData) : Nat :=
  let labels := prData.labels.map labelName
  let scanned := scanLabels table labels
  let baseRating := if !scanned.2 then 1200 else scanned.1
  let totalChanges := prData.additions + prData.deletions
  let baseRating :=
    if totalChanges > 1000 then baseRating + 100
    else if totalChanges > 500 then baseRating + 50
    else baseRating
  let baseRating :=
    if prData.changed_files > 20 then baseRating + 50
    else if prData.changed_files > 10 then baseRating + 25
    else baseRating
  let baseRating :=
    if prData.review_comments > 10 then baseRating + 30
    else baseRating
  baseRating

/-- Task difficulty of a pull request, computed with the table of `elo-calculator.js`. -/
def calculateTaskDifficulty (prData : PRData) : Nat :=
  calculateTaskDifficultyWith TASK_DIFFICULTY prData

/-- Quality multiplier of a pull request. -/
def calculateQualityMultiplier (prData : PRData) : ℚ :=
  let multiplier : ℚ := 1.0
  let multiplier :=
    if prData.approved_reviews > 0 ∧ prData.changes_requested = 0 then multiplier + 0.15
    else multiplier
  let multiplier :=
    if prData.approved_reviews ≥ 2 then multiplier + 0.1 else multiplier
  let multiplier :=
    if prData.changes_requested > 0 then multiplier - 0.1 * (prData.changes_requested : ℚ)
    else multiplier
  let multiplier :=
    if prData.linked_issues > 0 then multiplier + 0.05 * (prData.linked_issues : ℚ)
    else multiplier
  let multiplier :=
    if prData.commits ≤ 3 then multiplier + 0.05
    else if prData.commits > 10 then multiplier - 0.05
    else multiplier
  let multiplier :=
    if prData.review_comments > 0 ∧ prData.additions > 0 then
      let commentRatio : ℚ := (prData.review_comments : ℚ) / ((prData.additions : ℚ) / 100)
      if commentRatio > 0.5 ∧ commentRatio < 3 then multiplier + 0.05 else multiplier
    else multiplier
  max 0.5 (min 1.5 multiplier)

/-- A timestamp field of `prData` as the event carries it: absent, `null`, or a string, given
with the time value it parses to (`none` when the string is not a timestamp). -/
inductive RawDate where
  | undefined
  | null
  | text (time : Option Int)
  deriving DecidableEq, Repr

/-- The time value of `new Date(raw)`: `NaN` (`none`) for `undefined` and for a string that
is not a timestamp, 0 for `null`. -/
def RawDate.timeValue : RawDate → Option Int
  | RawDate.undefined => none
  | RawDate.null => some 0
  | RawDate.text time => time

/-- The number `hoursToMerge = (mergedAt - createdAt) / (1000 * 60 * 60)`; `none` is `NaN`,
the result as soon as one of the two dates is invalid. -/
def hoursToMerge (prData : PRData) : Option ℚ :=
  match prData.merged_at, prData.created_at with
  | some mergedAt, some createdAt => some (((mergedAt - createdAt : Int) : ℚ) / (1000 * 60 * 60))
  | _, _ => none

/-- The comparison `x < y` of a number that may be `NaN` with a constant. -/
def numLt (x : Option ℚ) (y : ℚ) : Bool :=
  match x with
  | some v => decide (v < y)
  | none => false

/-- The comparison `x > y` of a number that may be `NaN` with a constant. -/
def numGt (x : Option ℚ) (y : ℚ) : Bool :=
  match x with
  | some v => decide (v > y)
  | none => false

/-- Time bonus of a pull request. -/
def calculateTimeBonus (prData : PRData) : ℚ :=
  let hours := hoursToMerge prData
  if numLt hours 2 then 0.9
  else if numLt hours 24 then 1.1
  else if numLt hours 72 then 1.05
  else if numGt hours 168 then 0.95
  else 1.0

/-- The value `finalEloChange` that `updateLeaderboard` computes for a contributor whose record
holds the rating `elo` and the count `prs`:
`Math.round(kFactor * (1 - expected) * qualityMultiplier * timeBonus)`. `Math.round` and `round`
both send a number to the floor of the number plus one half. The product rounded here is the
exact one; the program rounds its double approximation, which gives the neighbouring integer
when the exact product is a half-integer or within the rounding error of one (for a record
with rating 1300 and 10 pull requests and a product of exactly 13.5, the program computes
13.499999999999996 and returns 13 where the exact rounding is 14). -/
noncomputable def finalEloChange (elo : ℝ) (prs : Nat) (prData : PRData) : ℤ :=
  let taskDifficulty := calculateTaskDifficulty prData
  let expected := expectedScore elo (taskDifficulty : ℝ)
  let actual : ℝ := 1
  let kFactor := getKFactor prs
  let qualityMultiplier := calculateQualityMultiplier prData
  let timeBonus := calculateTimeBonus prData
  let baseEloChange := (kFactor : ℝ) * (actual - expected)
  round (baseEloChange * (qualityMultiplier : ℝ) * (timeBonus : ℝ))

/-! ## Test records of `test-elo-calculator.js` -/

/-- A record with no label and every count zero, created and merged at the epoch. -/
def emptyPR : PRData :=
  { author := "", number := 0, title := "", labels := [], additions := 0, deletions := 0,
    changed_files := 0, review_comments := 0, approved_reviews := 0, changes_requested := 0,
    linked_issues := 0, commits := 0, created_at := some 0, merged_at := some 0 }

/-- The record `simpleBug` of the tests. -/
def simpleBug : PRData :=
  { emptyPR with labels := [Label.str "bug"], additions := 50, deletions := 30,
                 changed_files := 2, review_comments := 3 }

/-- The record `complexFeature` of the tests. -/
def complexFeature : PRData :=
  { emptyPR with labels := [Label.str "feature", Label.str "architecture"], additions := 1200,
                 deletions := 400, changed_files := 25, review_comments := 15 }

/-- The record `documentation` of the tests. -/
def documentation : PRData :=
  { emptyPR with labels := [Label.str "documentation"], additions := 100, deletions := 20,
                 changed_files := 3, review_comments := 2 }

/-- The record `highQuality` of the tests. -/
def highQuality : PRData :=
  { emptyPR with approved_reviews := 2, changes_requested := 0, linked_issues := 2, commits := 3,
                 review_comments := 5, additions := 200 }

/-- A record of `ada` with the label critical, 1001 added lines, two approvals, four linked
issues and three commits, merged twelve hours after its creation. -/
def criticalPR : PRData :=
  { emptyPR with author := "ada", labels := [Label.str "critical"], additions := 1001,
                 approved_reviews := 2, linked_issues := 4, commits := 3,
                 created_at := some 0, merged_at := some (12 * 60 * 60 * 1000) }

/-- A record merged `ms` milliseconds after its creation at the epoch. -/
def mergedAfter (ms : Int) : PRData :=
  { emptyPR with created_at := some 0, merged_at := some ms }

/-! ## Leaderboard store

The store is the object `leaderboard`. Its `contributors` object is the list of its own
properties in the order JavaScript enumerates them; the keys of an object are distinct. An
author whose name is a property every object inherits (such as `constructor`) is handled by
`updateLeaderboardRun`. A date string is represented by its time value. -/

/-- An entry of `recentPRs`. -/
structure RecentPR where
  number : Nat
  title : String
  eloChange : Int
  difficulty : Nat
  mergedAt : Option Int
  url : String
  deriving DecidableEq, Repr

/-- The record of a contributor. `recentPRs` is `none` when the property is absent, which the
code allows for. -/
structure Contributor where
  elo : ℚ
  prs : Nat
  totalDifficulty : Nat
  recentPRs : Option (List RecentPR)
  deriving DecidableEq, Repr

/-- The persisted store. -/
structure Leaderboard where
  contributors : List (String × Contributor)
  lastUpdated : Int
  totalPRs : Nat
  deriving DecidableEq, Repr

/-- What `updateLeaderboard` reads of the workflow `context`: `context.repo.owner` and
`context.repo.repo`. -/
structure Context where
  owner : String
  repo : String
  deriving DecidableEq, Repr

/-- The own property of the object `contributors` under the key `author`: the record stored
under the key, if any. The property read `contributors[author]` also finds what every object
inherits; `readsInherited` tells when it does. -/
def getContributor : List (String × Contributor) → String → Option Contributor
  | [], _ => none
  | (name, data) :: rest, author =>
    if name = author then some data else getContributor rest author

/-- The property write `contributors[author] = data`: the value of an existing key is replaced
where it stands, a new key is added after the others. (JavaScript enumerates a key that is
written like a non-negative integer before the other keys; the place of a key matters only to
the order of the rows of equal rating.) -/
def setContributor :
    List (String × Contributor) → String → Contributor → List (String × Contributor)
  | [], author, data => [(author, data)]
  | (name, old) :: rest, author, data =>
    if name = author then (name, data) :: rest
    else (name, old) :: setContributor rest author data

/-- The record a contributor starts from. -/
def newContributor : Contributor :=
  { elo := (STARTING_ELO : ℚ), prs := 0, totalDifficulty := 0, recentPRs := some [] }

/-- The statement `if (!leaderboard.contributors[author]) leaderboard.contributors[author] =
{...}` of `updateLeaderboard`. -/
def initContributor (contributors : List (String × Contributor)) (author : String) :
    List (String × Contributor) :=
  match getContributor contributors author with
  | some _ => contributors
  | none => setContributor contributors author newContributor

/-- The object that `updateLeaderboard` puts at the front of `recentPRs`. -/
def historyEntry (context : Context) (prData : PRData) (finalEloChange : Int)
    (taskDifficulty : Nat) : RecentPR :=
  { number := prData.number
    title := prData.title
    eloChange := finalEloChange
    difficulty := taskDifficulty
    mergedAt := prData.merged_at
    url := "https://github.com/" ++ context.owner ++ "/" ++ context.repo ++ "/pull/" ++
      toString prData.number }

/-- The mutation of the record `contributor` by `updateLeaderboard`: the three `+=`, then
`unshift` on `recentPRs` (an absent list first becomes `[]`) and `slice(0, 10)`. -/
def recordMerge (context : Context) (prData : PRData) (finalEloChange : Int)
    (taskDifficulty : Nat) (contributor : Contributor) : Contributor :=
  { elo := contributor.elo + (finalEloChange : ℚ)
    prs := contributor.prs + 1
    totalDifficulty := contributor.totalDifficulty + taskDifficulty
    recentPRs := some ((historyEntry context prData finalEloChange taskDifficulty ::
      contributor.recentPRs.getD []).take 10) }

/-- The rank that `updateLeaderboard` reports:
`Object.values(contributors).filter(c => c.elo > contributor.elo).length + 1`. -/
def rankOf (contributors : List (String × Contributor)) (elo : ℚ) : Nat :=
  (contributors.filter (fun entry => decide (entry.2.elo > elo))).length + 1

/-- What one run of `updateLeaderboard` produces: the store as it is saved, the rating change
and the rank that the comment on the pull request reports. -/
structure UpdateResult where
  leaderboard : Leaderboard
  finalEloChange : Int
  rank : Nat

/-- The function `updateLeaderboard` from the loaded store `leaderboard` on, for an author
whose record is an own property of the store or whose name no object inherits; `now` is the
time at which `saveLeaderboard` stamps `lastUpdated`. The text of the comment and its posting
are not modelled. `updateLeaderboardRun` is the function for every author. -/
noncomputable def updateLeaderboard (context : Context) (now : Int) (leaderboard : Leaderboard)
    (prData : PRData) : UpdateResult :=
  let author := prData.author
  let contributors := initContributor leaderboard.contributors author
  let contributor := (getContributor contributors author).getD newContributor
  let taskDifficulty := calculateTaskDifficulty prData
  let change := finalEloChange (contributor.elo : ℝ) contributor.prs prData
  let updated := recordMerge context prData change taskDifficulty contributor
  let contributors := setContributor contributors author updated
  let saved : Leaderboard :=
    { contributors := contributors, lastUpdated := now, totalPRs := leaderboard.totalPRs + 1 }
  { leaderboard := saved, finalEloChange := change, rank := rankOf contributors updated.elo }

/-- The store that `loadLeaderboard` creates when there is no file to read. -/
def freshLeaderboard (now : Int) : Leaderboard :=
  { contributors := [], lastUpdated := now, totalPRs := 0 }

/-- One merged pull request reaching the workflow: its context, the time of the run and the
record of the pull request. -/
structure MergeEvent where
  context : Context
  now : Int
  prData : PRData

/-- The store after the events have been processed one after the other. -/
noncomputable def processEvents (leaderboard : Leaderboard) (events : List MergeEvent) :
    Leaderboard :=
  events.foldl
    (fun store event => (updateLeaderboard event.context event.now store event.prData).leaderboard)
    leaderboard

/-- The rating changes that processing the events one after the other applies, in order. -/
noncomputable def appliedChanges : Leaderboard → List MergeEvent → List Int
  | _, [] => []
  | leaderboard, event :: rest =>
    (updateLeaderboard event.context event.now leaderboard event.prData).finalEloChange ::
      appliedChanges
        (updateLeaderboard event.context event.now leaderboard event.prData).leaderboard rest

/-! ## Authors named like an inherited property -/

/-- The names of the properties that every object inherits from `Object.prototype`. -/
def INHERITED_PROPERTIES : List String :=
  ["constructor", "hasOwnProperty", "isPrototypeOf", "propertyIsEnumerable", "toLocaleString",
   "toString", "valueOf", "__defineGetter__", "__defineSetter__", "__lookupGetter__",
   "__lookupSetter__", "__proto__"]

/-- The read `leaderboard.contributors[author]` finds an inherited value: the store has no own
property under the name and every object inherits one. The value is a function or an object,
hence truthy. -/
def readsInherited (contributors : List (String × Contributor)) (author : String) : Bool :=
  (getContributor contributors author).isNone && INHERITED_PROPERTIES.contains author

/-- What one run of `updateLeaderboard` produces for any author: the store as it is saved, the
rating change (`none` is `NaN`) and the rank reported. -/
structure RunResult where
  leaderboard : Leaderboard
  finalEloChange : Option Int
  rank : Nat

/-- The function `updateLeaderboard` from the loaded store on, for every author. When the read
`contributors[author]` finds an inherited value, the test `!leaderboard.contributors[author]`
is false and no record is created; `contributor` is the inherited value, whose `elo` and `prs`
are `undefined`, so the expected score and the rating change are `NaN`; the three `+=` and the
history are written on the inherited value, which is no part of what `JSON.stringify` writes;
`totalPRs` grows by one, and every comparison `c.elo > NaN` of the rank is false. Otherwise the
run is `updateLeaderboard`. -/
noncomputable def updateLeaderboardRun (context : Context) (now : Int)
    (leaderboard : Leaderboard) (prData : PRData) : RunResult :=
  if readsInherited leaderboard.contributors prData.author then
    { leaderboard :=
        { contributors := leaderboard.contributors, lastUpdated := now,
          totalPRs := leaderboard.totalPRs + 1 }
      finalEloChange := none
      rank := (leaderboard.contributors.filter (fun _ => false)).length + 1 }
  else
    { leaderboard := (updateLeaderboard context now leaderboard prData).leaderboard
      finalEloChange := some (updateLeaderboard context now leaderboard prData).finalEloChange
      rank := (updateLeaderboard context now leaderboard prData).rank }

/-- The store after the events have been run one after the other, whatever their authors. -/
noncomputable def processEventsRun (leaderboard : Leaderboard) (events : List MergeEvent) :
    Leaderboard :=
  events.foldl
    (fun store event =>
      (updateLeaderboardRun event.context event.now store event.prData).leaderboard)
    leaderboard

/-! ## Rendering of the table -/

/-- The array `titles` of `generateMarkdownLeaderboard`. -/
def RANK_TITLES : List String :=
  ["👑 Grand Master", "⭐ Master", "💎 Diamond", "🥇 Gold", "🥈 Silver", "🥉 Bronze",
   "📈 Rising Star", "🌱 Contributor"]

/-- The function `Math.round` on an exact number: the floor of the number plus one half. -/
def mathRound (x : ℚ) : Int :=
  ⌊x + 1 / 2⌋

/-- The order that the comparator `([, a], [, b]) => b.elo - a.elo` asks for: `a` may stand
before `b` when the rating of `a` is at least that of `b`. -/
def eloOrder (a b : String × Contributor) : Prop :=
  b.2.elo ≤ a.2.elo

instance eloOrderDecidable : DecidableRel eloOrder :=
  fun a b => inferInstanceAs (Decidable (b.2.elo ≤ a.2.elo))

instance eloOrderTotal : IsTotal (String × Contributor) eloOrder :=
  ⟨fun a b => le_total b.2.elo a.2.elo⟩

instance eloOrderTrans : IsTrans (String × Contributor) eloOrder :=
  ⟨fun _ _ _ hab hbc => le_trans hbc hab⟩

/-- The call `Object.entries(leaderboard.contributors).sort(...)`. The sort of an array is
stable, and a stable sort has one possible result, which insertion from the right computes. -/
def sortByElo (contributors : List (String × Contributor)) : List (String × Contributor) :=
  contributors.insertionSort eloOrder

/-- The cells of one line of the table. `avgDifficulty` is `none` when the division by `prs`
gives no finite number, that is when `prs` is 0. -/
structure Row where
  rank : Nat
  username : String
  elo : Int
  prs : Nat
  avgDifficulty : Option Int
  title : String
  deriving DecidableEq, Repr

/-- The body of the `forEach` callback of `generateMarkdownLeaderboard` at `index`. -/
def tableRow (index : Nat) (entry : String × Contributor) : Row :=
  { rank := index + 1
    username := entry.1
    elo := mathRound entry.2.elo
    prs := entry.2.prs
    avgDifficulty :=
      if entry.2.prs = 0 then none
      else some (mathRound ((entry.2.totalDifficulty : ℚ) / (entry.2.prs : ℚ)))
    title := RANK_TITLES.getD (min index (RANK_TITLES.length - 1)) "" }

/-- The loop `sorted.forEach(([username, data], index) => ...)` from `index` on. -/
def tableRowsFrom : Nat → List (String × Contributor) → List Row
  | _, [] => []
  | index, entry :: rest => tableRow index entry :: tableRowsFrom (index + 1) rest

/-- The lines of the table that `generateMarkdownLeaderboard` writes, in order. -/
def tableRows (leaderboard : Leaderboard) : List Row :=
  tableRowsFrom 0 (sortByElo leaderboard.contributors)

/-! ## Persistence

`saveLeaderboard` writes `JSON.stringify(leaderboard, null, 2)` to `leaderboard.json` and
`loadLeaderboard` hands back `JSON.parse` of that file. The text is represented by the JSON
value it denotes: objects list their properties in order, a property whose value is
`undefined` is not written, and a string that holds a timestamp is its time value. -/

/-- A JSON value. -/
inductive JsonValue where
  | null
  | num (value : ℚ)
  | str (value : String)
  | date (time : Int)
  | arr (items : List JsonValue)
  | obj (props : List (String × JsonValue))

/-- The property `key` of a value, when the value is an object that has it. -/
def JsonValue.prop (key : String) : JsonValue → Option JsonValue
  | JsonValue.obj props => props.lookup key
  | _ => none

/-- A value read as a rational number. -/
def JsonValue.asNum : JsonValue → Option ℚ
  | JsonValue.num value => some value
  | _ => none

/-- A value read as an integer. -/
def JsonValue.asInt : JsonValue → Option Int
  | JsonValue.num value => if value.den = 1 then some value.num else none
  | _ => none

/-- A value read as a natural number. -/
def JsonValue.asNat : JsonValue → Option Nat
  | JsonValue.num value =>
    if value.den = 1 ∧ 0 ≤ value.num then some value.num.toNat else none
  | _ => none

/-- A value read as a string. -/
def JsonValue.asStr : JsonValue → Option String
  | JsonValue.str value => some value
  | _ => none

/-- A value read as the time value of a timestamp. -/
def JsonValue.asDate : JsonValue → Option Int
  | JsonValue.date time => some time
  | _ => none

/-- The list of the values, when none of them is missing. -/
def allSome {α : Type} : List (Option α) → Option (List α)
  | [] => some []
  | none :: _ => none
  | some a :: rest => (allSome rest).map (fun others => a :: others)

/-- An entry of `recentPRs` as `JSON.stringify` writes it; a `mergedAt` that is no timestamp
is not part of what the model keeps. -/
def recentPRToJson (pr : RecentPR) : JsonValue :=
  JsonValue.obj
    ([("number", JsonValue.num (pr.number : ℚ)), ("title", JsonValue.str pr.title),
      ("eloChange", JsonValue.num (pr.eloChange : ℚ)),
      ("difficulty", JsonValue.num (pr.difficulty : ℚ))] ++
     (match pr.mergedAt with
      | some time => [("mergedAt", JsonValue.date time)]
      | none => []) ++
     [("url", JsonValue.str pr.url)])

/-- A parsed value read as an entry of `recentPRs`. -/
def recentPROfJson (value : JsonValue) : Option RecentPR :=
  match (value.prop "number").bind JsonValue.asNat, (value.prop "title").bind JsonValue.asStr,
    (value.prop "eloChange").bind JsonValue.asInt,
    (value.prop "difficulty").bind JsonValue.asNat,
    (value.prop "url").bind JsonValue.asStr with
  | some number, some title, some eloChange, some difficulty, some url =>
    some { number := number, title := title, eloChange := eloChange, difficulty := difficulty,
           mergedAt := (value.prop "mergedAt").bind JsonValue.asDate, url := url }
  | _, _, _, _, _ => none

/-- The record of a contributor as `JSON.stringify` writes it. -/
def contributorToJson (data : Contributor) : JsonValue :=
  JsonValue.obj
    ([("elo", JsonValue.num data.elo), ("prs", JsonValue.num (data.prs : ℚ)),
      ("totalDifficulty", JsonValue.num (data.totalDifficulty : ℚ))] ++
     (match data.recentPRs with
      | some prs => [("recentPRs", JsonValue.arr (prs.map recentPRToJson))]
      | none => []))

/-- A parsed value read as the record of a contributor. -/
def contributorOfJson (value : JsonValue) : Option Contributor :=
  match (value.prop "elo").bind JsonValue.asNum, (value.prop "prs").bind JsonValue.asNat,
    (value.prop "totalDifficulty").bind JsonValue.asNat with
  | some elo, some prs, some totalDifficulty =>
    match value.prop "recentPRs" with
    | none =>
      some { elo := elo, prs := prs, totalDifficulty := totalDifficulty, recentPRs := none }
    | some (JsonValue.arr items) =>
      (allSome (items.map recentPROfJson)).map (fun entries =>
        { elo := elo, prs := prs, totalDifficulty := totalDifficulty,
          recentPRs := some entries })
    | some _ => none
  | _, _, _ => none

/-- The store as `JSON.stringify` writes it. -/
def leaderboardToJson (leaderboard : Leaderboard) : JsonValue :=
  JsonValue.obj
    [("contributors",
      JsonValue.obj (leaderboard.contributors.map
        (fun entry => (entry.1, contributorToJson entry.2)))),
     ("lastUpdated", JsonValue.date leaderboard.lastUpdated),
     ("totalPRs", JsonValue.num (leaderboard.totalPRs : ℚ))]

/-- A parsed value read as a store. -/
def leaderboardOfJson (value : JsonValue) : Option Leaderboard :=
  match value.prop "contributors", (value.prop "lastUpdated").bind JsonValue.asDate,
    (value.prop "totalPRs").bind JsonValue.asNat with
  | some (JsonValue.obj props), some lastUpdated, some totalPRs =>
    (allSome (props.map
      (fun prop => (contributorOfJson prop.2).map (fun data => (prop.1, data))))).map
      (fun contributors =>
        { contributors := contributors, lastUpdated := lastUpdated, totalPRs := totalPRs })
  | _, _, _ => none

/-- The file `leaderboard.json`: absent, holding a text that `JSON.parse` rejects, or holding
the text of a JSON value. -/
inductive StoredFile where
  | missing
  | malformed
  | json (value : JsonValue)

/-- The two files of the working directory: `leaderboard.json`, and the lines of the table of
`leaderboard.md` when that file has been written. -/
structure Files where
  leaderboardJson : StoredFile
  leaderboardMd : Option (List Row)

/-- The function `loadLeaderboard`, run at the time `now`: the parsed content of
`leaderboard.json` when the file exists and parses, a fresh store otherwise. The result is
`none` when the file holds a value that is not shaped as a store, which JavaScript returns as
it is. -/
def loadLeaderboard (files : Files) (now : Int) : Option Leaderboard :=
  match files.leaderboardJson with
  | StoredFile.json value => leaderboardOfJson value
  | StoredFile.malformed => some (freshLeaderboard now)
  | StoredFile.missing => some (freshLeaderboard now)

/-- The function `saveLeaderboard`, run at the time `now`: it stamps `lastUpdated`, writes the
store to `leaderboard.json` and the table to `leaderboard.md`. -/
def saveLeaderboard (files : Files) (leaderboard : Leaderboard) (now : Int) : Files :=
  { files with
    leaderboardJson :=
      StoredFile.json (leaderboardToJson { leaderboard with lastUpdated := now })
    leaderboardMd := some (tableRows { leaderboard with lastUpdated := now }) }

/-- Specification side of an update: the record of `author` before the event, or the default
record (rating 1200, no pull request, no difficulty, empty history) when the store has none. -/
def recordBefore (leaderboard : Leaderboard) (author : String) : Contributor :=
  (getContributor leaderboard.contributors author).getD
    { elo := 1200, prs := 0, totalDifficulty := 0, recentPRs := some [] }

/-- Specification side of the history bound: no contributor of the store has more than ten
entries in `recentPRs`. -/
def historyBounded (leaderboard : Leaderboard) : Prop :=
  ∀ (name : String) (data : Contributor),
    getContributor leaderboard.contributors name = some data →
      (data.recentPRs.getD []).length ≤ 10

/-- Specification side of the global counter: the sum of `prs` over all contributors. -/
def sumPrs (contributors : List (String × Contributor)) : Nat :=
  (contributors.map (fun entry => entry.2.prs)).sum

/-- A merge event of `author` with no label and every count zero, run at time 0 in the
repository `octo/repo`. -/
def eventOf (author : String) : MergeEvent :=
  { context := { owner := "octo", repo := "repo" }, now := 0,
    prData := { emptyPR with author := author } }

/-- Specification side of the rating bound: every rating of the store is an integer that is at
least 1200. -/
def ratingsFromStart (leaderboard : Leaderboard) : Prop :=
  ∀ (name : String) (data : Contributor),
    getContributor leaderboard.contributors name = some data →
      ∃ n : Int, data.elo = (n : ℚ) ∧ 1200 ≤ n

/-- Specification side of the safety of the average: every record of the store counts at
least one pull request. -/
def prsPositive (leaderboard : Leaderboard) : Prop :=
  ∀ entry ∈ leaderboard.contributors, 1 ≤ entry.2.prs

/-- A store that holds one record, of `bob`, with two pull requests. -/
def storeOfBob : Leaderboard :=
  { contributors :=
      [("bob", { elo := 1250, prs := 2, totalDifficulty := 2300, recentPRs := some [] })],
    lastUpdated := 0, totalPRs := 2 }

/-- Ten entries of history, numbered 10 down to 1, the most recent first. -/
def tenEntries : List RecentPR :=
  (List.range 10).map (fun i =>
    { number := 10 - i, title := "", eloChange := 10, difficulty := 1200, mergedAt := some 0,
      url := "" })

/-- A store that holds one record, of `ada`, with ten pull requests and a full history. -/
def storeOfAda : Leaderboard :=
  { contributors :=
      [("ada", { elo := 1300, prs := 10, totalDifficulty := 12000,
                 recentPRs := some tenEntries })],
    lastUpdated := 0, totalPRs := 10 }

/-- The eleventh pull request of `ada`, number 11. -/
def eleventhOfAda : MergeEvent :=
  { context := { owner := "octo", repo := "repo" }, now := 0,
    prData := { emptyPR with author := "ada", number := 11, title := "eleventh" } }

/-- No name that every object inherits is a key of the store. -/
def noInheritedKey (leaderboard : Leaderboard) : Prop :=
  ∀ name ∈ INHERITED_PROPERTIES, getContributor leaderboard.contributors name = none

/-- The events whose author has a name that no object inherits. -/
def regularEvents (events : List MergeEvent) : List MergeEvent :=
  events.filter (fun event => !INHERITED_PROPERTIES.contains event.prData.author)

/-- Specification side of the label scan: `key` is a substring of one of the lower-cased
`labels`, that is, the characters of `key` occur consecutively in it. -/
def keyOccurs (labels : List String) (key : String) : Prop :=
  ∃ label ∈ labels, key.data <:+: label.data

/-! ## Properties -/

/-- The power in the denominator of `expectedScore` is positive. -/
theorem pow_term_pos (x : ℝ) : 0 < (10 : ℝ) ^ x :=
  Real.rpow_pos_of_pos (by norm_num) x

/-- The exact expected scores of a pair of ratings, one way and the other, sum to one. -/
theorem expectedScore_add_swap (a b : ℝ) : expectedScore a b + expectedScore b a = 1 := by
  unfold expectedScore
  have hneg : (a - b) / 400 = -((b - a) / 400) := by ring
  have ht : 0 < (10 : ℝ) ^ ((b - a) / 400) := pow_term_pos _
  rw [hneg, Real.rpow_neg (by norm_num : (0 : ℝ) ≤ 10)]
  field_simp
  ring

/-- C3: for every rating `r`, `expectedScore r r = 0.5`; in particular
`expectedScore 1200 1200 = 0.5`. -/
theorem expectedScore_self :
    (∀ r : ℝ, expectedScore r r = 0.5) ∧ expectedScore 1200 1200 = 0.5 := by
  have h : ∀ r : ℝ, expectedScore r r = 0.5 := by
    intro r
    unfold expectedScore
    rw [sub_self, zero_div, Real.rpow_zero]
    norm_num
  exact ⟨h, h 1200⟩

/-- C5: `getKFactor n` is 32 below 10, 24 from 10 up to 49 and 16 from 50 on; the counts 9, 10,
49 and 50 give 32, 24, 24 and 16. -/
theorem getKFactor_tiers :
    (∀ n : Nat, getKFactor n = if n < 10 then 32 else if 10 ≤ n ∧ n < 50 then 24 else 16) ∧
    (∀ n : Nat, n < 10 → getKFactor n = 32) ∧
    (∀ n : Nat, 10 ≤ n → n < 50 → getKFactor n = 24) ∧
    (∀ n : Nat, 50 ≤ n → getKFactor n = 16) ∧
    getKFactor 9 = 32 ∧ getKFactor 10 = 24 ∧ getKFactor 49 = 24 ∧ getKFactor 50 = 16 := by
  refine ⟨?_, ?_, ?_, ?_, by decide, by decide, by decide, by decide⟩
  · intro n
    unfold getKFactor
    split_ifs <;> first | rfl | omega
  · intro n h
    simp [getKFactor, h]
  · intro n h1 h2
    have : ¬ n < 10 := by omega
    simp [getKFactor, this, h2]
  · intro n h
    have h1 : ¬ n < 10 := by omega
    have h2 : ¬ n < 50 := by omega
    simp [getKFactor, h1, h2]

/-- The expected score is one over one plus a positive number. -/
theorem expectedScore_lt_of_exponent_lt (a b a' b' : ℝ) (h : a' - b' < a - b) :
    expectedScore a' b' < expectedScore a b := by
  unfold expectedScore
  have hexp : (b - a) / 400 < (b' - a') / 400 := by linarith
  have hpow : (10 : ℝ) ^ ((b - a) / 400) < (10 : ℝ) ^ ((b' - a') / 400) :=
    Real.rpow_lt_rpow_of_exponent_lt (by norm_num) hexp
  have h1 : 0 < (10 : ℝ) ^ ((b - a) / 400) := pow_term_pos _
  exact one_div_lt_one_div_of_lt (by linarith) (by linarith)

/-- The power `10 ^ (1/2)` lies between `7/3` and `4`. -/
theorem sqrt_ten_bounds : (7 / 3 : ℝ) ≤ (10 : ℝ) ^ ((1 : ℝ) / 2) ∧ (10 : ℝ) ^ ((1 : ℝ) / 2) ≤ 4 := by
  have hpos : 0 < (10 : ℝ) ^ ((1 : ℝ) / 2) := pow_term_pos _
  have hsq : (10 : ℝ) ^ ((1 : ℝ) / 2) * (10 : ℝ) ^ ((1 : ℝ) / 2) = 10 := by
    rw [← Real.rpow_add (by norm_num : (0 : ℝ) < 10)]
    norm_num
  constructor <;> nlinarith

/-- The power `10 ^ (-(1/2))` lies between `1/4` and `3/7`. -/
theorem inv_sqrt_ten_bounds :
    (1 / 4 : ℝ) ≤ (10 : ℝ) ^ (-((1 : ℝ) / 2)) ∧ (10 : ℝ) ^ (-((1 : ℝ) / 2)) ≤ 3 / 7 := by
  have hpos : 0 < (10 : ℝ) ^ (-((1 : ℝ) / 2)) := pow_term_pos _
  have hsq : (10 : ℝ) ^ (-((1 : ℝ) / 2)) * (10 : ℝ) ^ (-((1 : ℝ) / 2)) = 1 / 10 := by
    rw [← Real.rpow_add (by norm_num : (0 : ℝ) < 10)]
    have : -((1 : ℝ) / 2) + -((1 : ℝ) / 2) = -1 := by norm_num
    rw [this, Real.rpow_neg_one]
    norm_num
  constructor <;> nlinarith

/-- C1: whatever the counts of a pull request, however large, the quality multiplier lies
between 0.5 and 1.5. -/
theorem calculateQualityMultiplier_bounds (prData : PRData) :
    0.5 ≤ calculateQualityMultiplier prData ∧ calculateQualityMultiplier prData ≤ 1.5 := by
  unfold calculateQualityMultiplier
  exact ⟨le_max_left _ _, max_le (by norm_num) (min_le_left _ _)⟩

/-- The exact expected score is strictly increasing in the rating difference; it is above 0.5
for a higher rating and below 0.5 for a lower one; `expectedScore 1400 1200` lies in `[0.7, 0.8]`
and `expectedScore 1000 1200` in `[0.2, 0.3]`. -/
theorem expectedScore_strictMono_diff :
    (∀ a b a' b' : ℝ, a - b > a' - b' → expectedScore a b > expectedScore a' b') ∧
    (∀ a b : ℝ, a > b → expectedScore a b > 0.5) ∧
    (∀ a b : ℝ, a < b → expectedScore a b < 0.5) ∧
    (0.7 ≤ expectedScore 1400 1200 ∧ expectedScore 1400 1200 ≤ 0.8) ∧
    (0.2 ≤ expectedScore 1000 1200 ∧ expectedScore 1000 1200 ≤ 0.3) := by
  have hself : ∀ r : ℝ, expectedScore r r = 0.5 := by
    intro r
    unfold expectedScore
    rw [sub_self, zero_div, Real.rpow_zero]
    norm_num
  refine ⟨?_, ?_, ?_, ?_, ?_⟩
  · intro a b a' b' h
    exact expectedScore_lt_of_exponent_lt a b a' b' h
  · intro a b h
    have := expectedScore_lt_of_exponent_lt a b b b (by linarith)
    rwa [hself b] at this
  · intro a b h
    have := expectedScore_lt_of_exponent_lt b b a b (by linarith)
    rwa [hself b] at this
  · have hexp : ((1200 : ℝ) - 1400) / 400 = -((1 : ℝ) / 2) := by norm_num
    obtain ⟨hlo, hhi⟩ := inv_sqrt_ten_bounds
    unfold expectedScore
    rw [hexp]
    constructor
    · rw [le_div_iff₀ (by linarith)]
      linarith
    · rw [div_le_iff₀ (by linarith)]
      linarith
  · have hexp : ((1200 : ℝ) - 1000) / 400 = (1 : ℝ) / 2 := by norm_num
    obtain ⟨hlo, hhi⟩ := sqrt_ten_bounds
    unfold expectedScore
    rw [hexp]
    constructor
    · rw [le_div_iff₀ (by linarith)]
      linarith
    · rw [div_le_iff₀ (by linarith)]
      linarith

/-- With two valid dates the time bonus is the chain of comparisons of the source on the exact
hour count. -/
theorem calculateTimeBonus_of_valid (prData : PRData) (createdAt mergedAt : Int)
    (hc : prData.created_at = some createdAt) (hm : prData.merged_at = some mergedAt) :
    calculateTimeBonus prData =
      if ((mergedAt - createdAt : Int) : ℚ) / 3600000 < 2 then 0.9
      else if ((mergedAt - createdAt : Int) : ℚ) / 3600000 < 24 then 1.1
      else if ((mergedAt - createdAt : Int) : ℚ) / 3600000 < 72 then 1.05
      else if ((mergedAt - createdAt : Int) : ℚ) / 3600000 > 168 then 0.95
      else 1.0 := by
  have hh : hoursToMerge prData = some (((mergedAt - createdAt : Int) : ℚ) / 3600000) := by
    simp only [hoursToMerge, hc, hm]
    norm_num
  simp only [calculateTimeBonus, hh, numLt, numGt, decide_eq_true_eq]

/-- With an invalid date the hour count is `NaN`, every comparison fails and the time bonus is
the final `return 1.0`. -/
theorem calculateTimeBonus_of_invalid (prData : PRData)
    (h : prData.created_at = none ∨ prData.merged_at = none) :
    calculateTimeBonus prData = 1 := by
  have hh : hoursToMerge prData = none := by
    unfold hoursToMerge
    rcases h with h | h
    · rw [h]
      cases prData.merged_at <;> rfl
    · rw [h]
  simp only [calculateTimeBonus, hh, numLt, numGt]
  norm_num

/-- C9: for valid timestamps, with `h` the hours from creation to merge, the time bonus is 0.9
for `h < 2`, 1.1 for `2 ≤ h < 24`, 1.05 for `24 ≤ h < 72`, 1.0 for `72 ≤ h ≤ 168` and 0.95 for
`h > 168`; merges after 12 hours, 48 hours, 10 days, 1 hour and 100 hours give 1.1, 1.05, 0.95,
0.9 and 1.0. -/
theorem calculateTimeBonus_steps :
    (∀ (prData : PRData) (createdAt mergedAt : Int) (h : ℚ),
      prData.created_at = some createdAt → prData.merged_at = some mergedAt →
      h = ((mergedAt - createdAt : Int) : ℚ) / (1000 * 60 * 60) →
        (h < 2 → calculateTimeBonus prData = 0.9) ∧
        (2 ≤ h → h < 24 → calculateTimeBonus prData = 1.1) ∧
        (24 ≤ h → h < 72 → calculateTimeBonus prData = 1.05) ∧
        (72 ≤ h → h ≤ 168 → calculateTimeBonus prData = 1.0) ∧
        (168 < h → calculateTimeBonus prData = 0.95)) ∧
    calculateTimeBonus (mergedAfter (12 * 60 * 60 * 1000)) = 1.1 ∧
    calculateTimeBonus (mergedAfter (48 * 60 * 60 * 1000)) = 1.05 ∧
    calculateTimeBonus (mergedAfter (10 * 24 * 60 * 60 * 1000)) = 0.95 ∧
    calculateTimeBonus (mergedAfter (1 * 60 * 60 * 1000)) = 0.9 ∧
    calculateTimeBonus (mergedAfter (100 * 60 * 60 * 1000)) = 1.0 := by
  refine ⟨?_, ?_, ?_, ?_, ?_, ?_⟩
  · intro prData createdAt mergedAt h hc hm hh
    have hh' : ((mergedAt - createdAt : Int) : ℚ) / 3600000 = h := by
      rw [hh]
      norm_num
    rw [calculateTimeBonus_of_valid prData createdAt mergedAt hc hm, hh']
    refine ⟨?_, ?_, ?_, ?_, ?_⟩
    · intro h1
      rw [if_pos h1]
    · intro h1 h2
      rw [if_neg (not_lt.mpr h1), if_pos h2]
    · intro h1 h2
      rw [if_neg (by linarith), if_neg (not_lt.mpr h1), if_pos h2]
    · intro h1 h2
      rw [if_neg (by linarith), if_neg (by linarith), if_neg (not_lt.mpr h1),
        if_neg (not_lt.mpr h2)]
    · intro h1
      rw [if_neg (by linarith), if_neg (by linarith), if_neg (by linarith), if_pos h1]
  all_goals
    rw [calculateTimeBonus_of_valid _ 0 _ rfl rfl]
    norm_num

/-- Witness of C9: a record created at the epoch and merged 43 200 000 ms later has an hour
count of 12, between 2 and 24, and the bonus 1.1. -/
theorem calculateTimeBonus_steps_witness :
    calculateTimeBonus (mergedAfter 43200000) = 1.1 :=
  (calculateTimeBonus_steps.1 (mergedAfter 43200000) 0 43200000 12 rfl rfl (by norm_num)).2.1
    (by norm_num) (by norm_num)

/-- C10, as the claim states it, fails: a record whose `created_at` is missing gets no error
but an hour count `NaN` and the multiplier 1.0. -/
theorem calculateTimeBonus_missing_created_at :
    ({ emptyPR with created_at := none } : PRData).created_at = none ∧
    hoursToMerge { emptyPR with created_at := none } = none ∧
    calculateTimeBonus { emptyPR with created_at := none } = 1.0 := by
  refine ⟨rfl, rfl, ?_⟩
  rw [calculateTimeBonus_of_invalid _ (Or.inl rfl)]
  norm_num

/-! ### The label scan -/

/-- The search `includesFrom` finds `key` exactly when `key` is a run of consecutive
characters of the list. -/
theorem includesFrom_iff (key s : List Char) : includesFrom key s = true ↔ key <:+: s := by
  induction s with
  | nil =>
    rw [includesFrom, List.isPrefixOf_iff_prefix, List.prefix_nil, List.infix_nil]
  | cons c cs ih =>
    rw [includesFrom, Bool.or_eq_true, List.isPrefixOf_iff_prefix, ih, List.infix_cons_iff]

/-- The test of the inner loop, `label === key || label.includes(key)`, holds exactly when
`key` is a substring of `label`. -/
theorem match_test_iff (label key : String) :
    (label == key || includes label key) = true ↔ key.data <:+: label.data := by
  rw [Bool.or_eq_true, includes, includesFrom_iff]
  constructor
  · rintro (h | h)
    · have : label = key := by simpa using h
      rw [this]
    · exact h
  · intro h
    exact Or.inr h

/-- State of the pair `(baseRating, foundLabel)` after the inner loop has run over `table` for
one label. -/
theorem foldl_matchStep_spec (label : String) (table : List (String × Nat)) (acc : Nat × Bool) :
    ((table.foldl (matchStep label) acc).2 = true ↔
        acc.2 = true ∨ ∃ e ∈ table, e.1.data <:+: label.data) ∧
    acc.1 ≤ (table.foldl (matchStep label) acc).1 ∧
    (∀ e ∈ table, e.1.data <:+: label.data → e.2 ≤ (table.foldl (matchStep label) acc).1) ∧
    ((table.foldl (matchStep label) acc).1 = acc.1 ∨
        ∃ e ∈ table, e.1.data <:+: label.data ∧ e.2 = (table.foldl (matchStep label) acc).1) := by
  induction table generalizing acc with
  | nil => simp
  | cons e rest ih =>
    rw [List.foldl_cons]
    obtain ⟨h1, h2, h3, h4⟩ := ih (matchStep label acc e)
    by_cases hm : e.1.data <:+: label.data
    · have hstep : matchStep label acc e = (max acc.1 e.2, true) := by
        rw [matchStep, if_pos ((match_test_iff label e.1).mpr hm)]
      rw [hstep] at h1 h2 h3 h4 ⊢
      refine ⟨?_, ?_, ?_, ?_⟩
      · constructor
        · intro _
          exact Or.inr ⟨e, List.mem_cons_self _ _, hm⟩
        · intro _
          exact h1.mpr (Or.inl rfl)
      · exact le_trans (le_max_left _ _) h2
      · intro x hx hxm
        rcases List.mem_cons.mp hx with rfl | hx
        · exact le_trans (le_max_right _ _) h2
        · exact h3 x hx hxm
      · rcases h4 with h4 | ⟨x, hx, hxm, hxe⟩
        · rcases le_total acc.1 e.2 with hle | hle
          · right
            refine ⟨e, List.mem_cons_self _ _, hm, ?_⟩
            rw [h4]
            exact (max_eq_right hle).symm
          · left
            rw [h4]
            exact max_eq_left hle
        · exact Or.inr ⟨x, List.mem_cons_of_mem _ hx, hxm, hxe⟩
    · have hstep : matchStep label acc e = acc := by
        rw [matchStep, if_neg (fun h => hm ((match_test_iff label e.1).mp h))]
      rw [hstep] at h1 h2 h3 h4 ⊢
      refine ⟨?_, h2, ?_, ?_⟩
      · rw [h1]
        constructor
        · rintro (h | ⟨x, hx, hxm⟩)
          · exact Or.inl h
          · exact Or.inr ⟨x, List.mem_cons_of_mem _ hx, hxm⟩
        · rintro (h | ⟨x, hx, hxm⟩)
          · exact Or.inl h
          · rcases List.mem_cons.mp hx with rfl | hx
            · exact absurd hxm hm
            · exact Or.inr ⟨x, hx, hxm⟩
      · intro x hx hxm
        rcases List.mem_cons.mp hx with rfl | hx
        · exact absurd hxm hm
        · exact h3 x hx hxm
      · rcases h4 with h4 | ⟨x, hx, hxm, hxe⟩
        · exact Or.inl h4
        · exact Or.inr ⟨x, List.mem_cons_of_mem _ hx, hxm, hxe⟩

/-- A key occurs in the labels `label :: rest` when it occurs in `label` or in `rest`. -/
theorem keyOccurs_cons (label : String) (rest : List String) (key : String) :
    keyOccurs (label :: rest) key ↔ key.data <:+: label.data ∨ keyOccurs rest key := by
  simp [keyOccurs]

/-- A key occurs in no label of the empty list. -/
theorem not_keyOccurs_nil (key : String) : ¬ keyOccurs [] key := by
  simp [keyOccurs]

/-- State of the pair `(baseRating, foundLabel)` after the two nested loops have run over
`labels`, started from `acc`. -/
theorem foldl_labels_spec (table : List (String × Nat)) (labels : List String)
    (acc : Nat × Bool) :
    ((labels.foldl (fun acc label => table.foldl (matchStep label) acc) acc).2 = true ↔
        acc.2 = true ∨ ∃ e ∈ table, keyOccurs labels e.1) ∧
    acc.1 ≤ (labels.foldl (fun acc label => table.foldl (matchStep label) acc) acc).1 ∧
    (∀ e ∈ table, keyOccurs labels e.1 →
        e.2 ≤ (labels.foldl (fun acc label => table.foldl (matchStep label) acc) acc).1) ∧
    ((labels.foldl (fun acc label => table.foldl (matchStep label) acc) acc).1 = acc.1 ∨
        ∃ e ∈ table, keyOccurs labels e.1 ∧
          e.2 = (labels.foldl (fun acc label => table.foldl (matchStep label) acc) acc).1) := by
  induction labels generalizing acc with
  | nil => simp [not_keyOccurs_nil]
  | cons label rest ih =>
    rw [List.foldl_cons]
    obtain ⟨i1, i2, i3, i4⟩ := foldl_matchStep_spec label table acc
    obtain ⟨h1, h2, h3, h4⟩ := ih (table.foldl (matchStep label) acc)
    refine ⟨?_, le_trans i2 h2, ?_, ?_⟩
    · rw [h1, i1]
      constructor
      · rintro ((h | ⟨e, he, hm⟩) | ⟨e, he, hm⟩)
        · exact Or.inl h
        · exact Or.inr ⟨e, he, (keyOccurs_cons _ _ _).mpr (Or.inl hm)⟩
        · exact Or.inr ⟨e, he, (keyOccurs_cons _ _ _).mpr (Or.inr hm)⟩
      · rintro (h | ⟨e, he, hm⟩)
        · exact Or.inl (Or.inl h)
        · rcases (keyOccurs_cons _ _ _).mp hm with hm | hm
          · exact Or.inl (Or.inr ⟨e, he, hm⟩)
          · exact Or.inr ⟨e, he, hm⟩
    · intro e he hm
      rcases (keyOccurs_cons _ _ _).mp hm with hm | hm
      · exact le_trans (i3 e he hm) h2
      · exact h3 e he hm
    · rcases h4 with h4 | ⟨e, he, hm, hv⟩
      · rcases i4 with i4 | ⟨e, he, hm, hv⟩
        · exact Or.inl (h4.trans i4)
        · exact Or.inr ⟨e, he, (keyOccurs_cons _ _ _).mpr (Or.inl hm), hv.trans h4.symm⟩
      · exact Or.inr ⟨e, he, (keyOccurs_cons _ _ _).mpr (Or.inr hm), hv⟩

/-- Result of the label scan: `foundLabel` tells whether some key of the table occurs in some
label, and `baseRating` is then the largest score of such a key. -/
theorem scanLabels_spec (table : List (String × Nat)) (labels : List String) :
    ((scanLabels table labels).2 = true ↔ ∃ e ∈ table, keyOccurs labels e.1) ∧
    (∀ e ∈ table, keyOccurs labels e.1 → e.2 ≤ (scanLabels table labels).1) ∧
    ((∃ e ∈ table, keyOccurs labels e.1) →
        ∃ e ∈ table, keyOccurs labels e.1 ∧ e.2 = (scanLabels table labels).1) := by
  obtain ⟨h1, -, h3, h4⟩ := foldl_labels_spec table labels (0, false)
  refine ⟨?_, h3, ?_⟩
  · simpa [scanLabels] using h1
  · rintro ⟨e, he, hm⟩
    rcases h4 with h4 | h4
    · refine ⟨e, he, hm, ?_⟩
      have hle := h3 e he hm
      rw [h4] at hle
      have h0 : e.2 = 0 := Nat.le_zero.mp hle
      rw [h0]
      exact h4.symm
    · exact h4

/-- The label scan depends only on the set of entries of the table and on which keys occur in
the labels. -/
theorem scanLabels_congr (table table' : List (String × Nat)) (labels labels' : List String)
    (htable : ∀ e, e ∈ table ↔ e ∈ table')
    (hlabels : ∀ key, keyOccurs labels key ↔ keyOccurs labels' key) :
    scanLabels table labels = scanLabels table' labels' := by
  obtain ⟨f, b, a⟩ := scanLabels_spec table labels
  obtain ⟨f', b', a'⟩ := scanLabels_spec table' labels'
  have hex : (∃ e ∈ table, keyOccurs labels e.1) ↔ (∃ e ∈ table', keyOccurs labels' e.1) := by
    constructor
    · rintro ⟨e, he, hm⟩
      exact ⟨e, (htable e).mp he, (hlabels _).mp hm⟩
    · rintro ⟨e, he, hm⟩
      exact ⟨e, (htable e).mpr he, (hlabels _).mpr hm⟩
  have hfound : (scanLabels table labels).2 = (scanLabels table' labels').2 := by
    rw [Bool.eq_iff_iff, f, f', hex]
  have hbase : (scanLabels table labels).1 = (scanLabels table' labels').1 := by
    by_cases h : ∃ e ∈ table, keyOccurs labels e.1
    · obtain ⟨e, he, hm, hv⟩ := a h
      obtain ⟨e', he', hm', hv'⟩ := a' (hex.mp h)
      apply le_antisymm
      · rw [← hv]
        exact b' e ((htable e).mp he) ((hlabels _).mp hm)
      · rw [← hv']
        exact b e' ((htable e').mpr he') ((hlabels _).mpr hm')
    · obtain ⟨-, -, -, c⟩ := foldl_labels_spec table labels (0, false)
      obtain ⟨-, -, -, c'⟩ := foldl_labels_spec table' labels' (0, false)
      have z : (scanLabels table labels).1 = 0 := by
        rcases c with c | ⟨e, he, hm, -⟩
        · exact c
        · exact absurd ⟨e, he, hm⟩ h
      have z' : (scanLabels table' labels').1 = 0 := by
        rcases c' with c' | ⟨e, he, hm, -⟩
        · exact c'
        · exact absurd ⟨e, he, hm⟩ (fun hh => h (hex.mpr hh))
      rw [z, z']
  exact Prod.ext hbase hfound

/-- The difficulty is the base rating chosen by the scan plus the three bonuses. -/
theorem calculateTaskDifficultyWith_eq (table : List (String × Nat)) (prData : PRData) :
    calculateTaskDifficultyWith table prData =
      (if (scanLabels table (prData.labels.map labelName)).2 = true
        then (scanLabels table (prData.labels.map labelName)).1 else 1200) +
      (if prData.additions + prData.deletions > 1000 then 100
        else if 500 < prData.additions + prData.deletions ∧
          prData.additions + prData.deletions ≤ 1000 then 50 else 0) +
      (if prData.changed_files > 20 then 50
        else if 10 < prData.changed_files ∧ prData.changed_files ≤ 20 then 25 else 0) +
      (if prData.review_comments > 10 then 30 else 0) := by
  unfold calculateTaskDifficultyWith
  dsimp only
  generalize scanLabels table (prData.labels.map labelName) = scanned
  obtain ⟨base, found⟩ := scanned
  cases found <;> simp only [Bool.not_false, Bool.not_true, if_true, Bool.false_eq_true,
    if_false] <;> split_ifs <;> omega

/-- The lower-cased names of string labels. -/
theorem map_labelName_str (names : List String) :
    (names.map Label.str).map labelName = names.map toLowerCase := by
  rw [List.map_map]
  rfl

/-- C6: for a pull request with string labels the difficulty is `B + S + F + C`, where `B` is
the largest score of a key of the table that is a substring of a lower-cased label (1200 when
there is none), `S` is 100 above 1000 changed lines and 50 above 500, `F` is 50 above 20 files
and 25 above 10, and `C` is 30 above 10 review comments; the record with labels feature and
architecture, 1200 additions, 400 deletions, 25 files and 15 comments gives
1500 + 100 + 50 + 30. -/
theorem calculateTaskDifficulty_formula :
    (∀ (prData : PRData) (names : List String), prData.labels = names.map Label.str →
      ∃ B : Nat,
        ((¬ ∃ e ∈ TASK_DIFFICULTY, keyOccurs (names.map toLowerCase) e.1) → B = 1200) ∧
        ((∃ e ∈ TASK_DIFFICULTY, keyOccurs (names.map toLowerCase) e.1) →
          (∃ e ∈ TASK_DIFFICULTY, keyOccurs (names.map toLowerCase) e.1 ∧ e.2 = B) ∧
          ∀ e ∈ TASK_DIFFICULTY, keyOccurs (names.map toLowerCase) e.1 → e.2 ≤ B) ∧
        calculateTaskDifficulty prData =
          B +
          (if prData.additions + prData.deletions > 1000 then 100
            else if 500 < prData.additions + prData.deletions ∧
              prData.additions + prData.deletions ≤ 1000 then 50 else 0) +
          (if prData.changed_files > 20 then 50
            else if 10 < prData.changed_files ∧ prData.changed_files ≤ 20 then 25 else 0) +
          (if prData.review_comments > 10 then 30 else 0)) ∧
    calculateTaskDifficulty complexFeature = 1500 + 100 + 50 + 30 := by
  refine ⟨?_, by decide⟩
  intro prData names hlabels
  obtain ⟨hfound, hle, hattained⟩ := scanLabels_spec TASK_DIFFICULTY (names.map toLowerCase)
  refine ⟨if (scanLabels TASK_DIFFICULTY (names.map toLowerCase)).2 = true
      then (scanLabels TASK_DIFFICULTY (names.map toLowerCase)).1 else 1200, ?_, ?_, ?_⟩
  · intro hnone
    rw [if_neg (fun h => hnone (hfound.mp h))]
  · intro hsome
    rw [if_pos (hfound.mpr hsome)]
    exact ⟨hattained hsome, hle⟩
  · rw [calculateTaskDifficulty, calculateTaskDifficultyWith_eq, hlabels, map_labelName_str]

/-- Witness of C6: the single label `Hotfix-Urgent` contains the key `hotfix` once lower-cased,
and the difficulty of such a record without bonus is a score of the table. -/
theorem calculateTaskDifficulty_formula_witness :
    ∃ B : Nat,
      (∃ e ∈ TASK_DIFFICULTY, keyOccurs (["Hotfix-Urgent"].map toLowerCase) e.1 ∧ e.2 = B) ∧
      calculateTaskDifficulty { emptyPR with labels := [Label.str "Hotfix-Urgent"] } =
        B + 0 + 0 + 0 := by
  obtain ⟨B, -, h, hB⟩ := calculateTaskDifficulty_formula.1
    { emptyPR with labels := [Label.str "Hotfix-Urgent"] } ["Hotfix-Urgent"] rfl
  have hocc : ∃ e ∈ TASK_DIFFICULTY, keyOccurs (["Hotfix-Urgent"].map toLowerCase) e.1 :=
    ⟨("hotfix", 1400), by decide, "hotfix-urgent", by decide, ⟨[], "-urgent".data, by decide⟩⟩
  exact ⟨B, (h hocc).1, hB⟩

/-- C8: the difficulty does not depend on the order of the labels, on their repetition, or on
the order of the entries of the table. -/
theorem calculateTaskDifficulty_order_independent (table table' : List (String × Nat))
    (prData : PRData) (labels' : List Label) (htable : table.Perm table')
    (h₁ : ∀ l ∈ prData.labels, l ∈ labels') (h₂ : ∀ l ∈ labels', l ∈ prData.labels) :
    calculateTaskDifficultyWith table' { prData with labels := labels' } =
      calculateTaskDifficultyWith table prData ∧
    calculateTaskDifficulty { prData with labels := labels' } =
      calculateTaskDifficulty prData := by
  have hocc : ∀ key, keyOccurs (prData.labels.map labelName) key ↔
      keyOccurs (labels'.map labelName) key := by
    intro key
    simp only [keyOccurs, List.mem_map]
    constructor
    · rintro ⟨_, ⟨l, hl, rfl⟩, hk⟩
      exact ⟨_, ⟨l, h₁ l hl, rfl⟩, hk⟩
    · rintro ⟨_, ⟨l, hl, rfl⟩, hk⟩
      exact ⟨_, ⟨l, h₂ l hl, rfl⟩, hk⟩
  constructor
  · rw [calculateTaskDifficultyWith_eq, calculateTaskDifficultyWith_eq table]
    rw [scanLabels_congr table table' _ _ (fun e => htable.mem_iff) hocc]
  · rw [calculateTaskDifficulty, calculateTaskDifficulty, calculateTaskDifficultyWith_eq,
      calculateTaskDifficultyWith_eq TASK_DIFFICULTY prData]
    rw [scanLabels_congr TASK_DIFFICULTY TASK_DIFFICULTY _ _ (fun e => Iff.rfl) hocc]

/-- Witness of C8: the record `complexFeature` with its labels swapped and one repeated, scored
with the table reversed, keeps the difficulty 1680. -/
theorem calculateTaskDifficulty_order_independent_witness :
    calculateTaskDifficultyWith TASK_DIFFICULTY.reverse
      { complexFeature with
        labels := [Label.str "architecture", Label.str "feature", Label.str "architecture"] } =
      calculateTaskDifficultyWith TASK_DIFFICULTY complexFeature :=
  (calculateTaskDifficulty_order_independent TASK_DIFFICULTY TASK_DIFFICULTY.reverse
    complexFeature [Label.str "architecture", Label.str "feature", Label.str "architecture"]
    (List.reverse_perm TASK_DIFFICULTY).symm (by decide) (by decide)).1

/-- A record that triggers no bonus has the base rating of its label scan as difficulty. -/
theorem calculateTaskDifficulty_of_scan (prData : PRData) (labels : List Label) (base : Nat)
    (hlabels : prData.labels = labels)
    (hscan : scanLabels TASK_DIFFICULTY (labels.map labelName) = (base, true))
    (hsize : prData.additions + prData.deletions ≤ 500) (hfiles : prData.changed_files ≤ 10)
    (hcomments : prData.review_comments ≤ 10) :
    calculateTaskDifficulty prData = base := by
  rw [calculateTaskDifficulty, calculateTaskDifficultyWith_eq, hlabels, hscan]
  simp only [if_true]
  split_ifs <;> omega

/-- A record without label match that triggers no bonus has the default difficulty 1200. -/
theorem calculateTaskDifficulty_of_no_match (prData : PRData) (labels : List Label)
    (hlabels : prData.labels = labels)
    (hscan : scanLabels TASK_DIFFICULTY (labels.map labelName) = (0, false))
    (hsize : prData.additions + prData.deletions ≤ 500) (hfiles : prData.changed_files ≤ 10)
    (hcomments : prData.review_comments ≤ 10) :
    calculateTaskDifficulty prData = 1200 := by
  rw [calculateTaskDifficulty, calculateTaskDifficultyWith_eq, hlabels, hscan]
  simp only [Bool.false_eq_true, if_false]
  split_ifs <;> omega

/-- C7: `config.js` configures the scores 1050, 1450, 1350 and 1250 for the labels test,
security, performance and ui-ux, and a pull request whose only label is one of them and that
triggers no bonus gets the default difficulty 1200 instead, because the table of
`elo-calculator.js` lacks these keys; for the nine keys that both tables hold, and for ci-cd,
the difficulty is the configured score (1000 for the bug record of the tests, 1100 for the
documentation record). -/
theorem calculateTaskDifficulty_config_keys :
    (("security", 1450) ∈ CONFIG_TASK_DIFFICULTY ∧
      calculateTaskDifficulty { emptyPR with labels := [Label.str "security"] } = 1200) ∧
    (("test", 1050) ∈ CONFIG_TASK_DIFFICULTY ∧
      calculateTaskDifficulty { emptyPR with labels := [Label.str "test"] } = 1200) ∧
    (("performance", 1350) ∈ CONFIG_TASK_DIFFICULTY ∧
      calculateTaskDifficulty { emptyPR with labels := [Label.str "performance"] } = 1200) ∧
    (("ui-ux", 1250) ∈ CONFIG_TASK_DIFFICULTY ∧
      calculateTaskDifficulty { emptyPR with labels := [Label.str "ui-ux"] } = 1200) ∧
    (∀ e ∈ CONFIG_TASK_DIFFICULTY, (e ∈ TASK_DIFFICULTY ∨ e.1 = "ci-cd") →
      ∀ prData : PRData, prData.labels = [Label.str e.1] →
        prData.additions + prData.deletions ≤ 500 → prData.changed_files ≤ 10 →
        prData.review_comments ≤ 10 → calculateTaskDifficulty prData = e.2) ∧
    (∀ e ∈ TASK_DIFFICULTY, e ∈ CONFIG_TASK_DIFFICULTY) ∧
    calculateTaskDifficulty simpleBug = 1000 ∧
    calculateTaskDifficulty documentation = 1100 := by
  refine ⟨⟨by decide, by decide⟩, ⟨by decide, by decide⟩, ⟨by decide, by decide⟩,
    ⟨by decide, by decide⟩, ?_, by decide, by decide, by decide⟩
  intro e he hcommon prData hlabels hsize hfiles hcomments
  simp only [CONFIG_TASK_DIFFICULTY, List.mem_cons, List.mem_singleton, List.not_mem_nil,
    or_false] at he
  rcases he with rfl | rfl | rfl | rfl | rfl | rfl | rfl | rfl | rfl | rfl | rfl | rfl | rfl | rfl
  case inr.inr.inr.inr.inr.inr.inr.inr.inr.inl =>
    exact absurd hcommon (by decide)
  case inr.inr.inr.inr.inr.inr.inr.inr.inr.inr.inl =>
    exact calculateTaskDifficulty_of_no_match prData _ hlabels (by decide) hsize hfiles hcomments
  case inr.inr.inr.inr.inr.inr.inr.inr.inr.inr.inr.inl =>
    exact absurd hcommon (by decide)
  case inr.inr.inr.inr.inr.inr.inr.inr.inr.inr.inr.inr.inl =>
    exact absurd hcommon (by decide)
  case inr.inr.inr.inr.inr.inr.inr.inr.inr.inr.inr.inr.inr =>
    exact absurd hcommon (by decide)
  all_goals
    exact calculateTaskDifficulty_of_scan prData _ _ hlabels (by decide) hsize hfiles hcomments

/-! ### The quality multiplier -/

/-- A penalty per unit that is guarded by `n > 0` is the penalty itself: it vanishes at 0. -/
theorem guarded_sub (n : Nat) (m c : ℚ) :
    (if n > 0 then m - c * (n : ℚ) else m) = m - c * (n : ℚ) := by
  split_ifs with h
  · rfl
  · have hn : n = 0 := by omega
    rw [hn]
    simp

/-- A bonus per unit that is guarded by `n > 0` is the bonus itself: it vanishes at 0. -/
theorem guarded_add (n : Nat) (m c : ℚ) :
    (if n > 0 then m + c * (n : ℚ) else m) = m + c * (n : ℚ) := by
  split_ifs with h
  · rfl
  · have hn : n = 0 := by omega
    rw [hn]
    simp

/-- C11: the quality multiplier is the clamp to `[0.5, 1.5]` of 1, plus 0.15 for an approval
without change request, plus 0.10 for two approvals, minus 0.10 per change request, plus 0.05
per linked issue, plus 0.05 for at most 3 commits or minus 0.05 for more than 10, plus 0.05
when comments and additions are positive and the comment ratio lies strictly between 0.5 and 3;
the record with 2 approvals, no change request, 2 linked issues, 3 commits, 5 comments and 200
additions gives 1.45. -/
theorem calculateQualityMultiplier_formula :
    (∀ prData : PRData, calculateQualityMultiplier prData =
      max 0.5 (min 1.5
        (1 + (if prData.approved_reviews > 0 ∧ prData.changes_requested = 0 then 0.15 else 0)
          + (if prData.approved_reviews ≥ 2 then 0.10 else 0)
          - 0.10 * (prData.changes_requested : ℚ)
          + 0.05 * (prData.linked_issues : ℚ)
          + (if prData.commits ≤ 3 then 0.05 else if prData.commits > 10 then -0.05 else 0)
          + (if prData.review_comments > 0 ∧ prData.additions > 0 ∧
                0.5 < (prData.review_comments : ℚ) / ((prData.additions : ℚ) / 100) ∧
                (prData.review_comments : ℚ) / ((prData.additions : ℚ) / 100) < 3
              then 0.05 else 0)))) ∧
    calculateQualityMultiplier highQuality = 1.45 := by
  constructor
  · intro prData
    unfold calculateQualityMultiplier
    dsimp only
    rw [guarded_sub, guarded_add]
    congr 2
    split_ifs <;> first | ring1 | (exfalso; simp only [gt_iff_lt, ge_iff_le] at *; tauto)
  · norm_num [calculateQualityMultiplier, highQuality, emptyPR]

/-! ### The store -/

/-- Reading a key that has just been written gives the written record. -/
theorem getContributor_setContributor_self (contributors : List (String × Contributor))
    (author : String) (data : Contributor) :
    getContributor (setContributor contributors author data) author = some data := by
  induction contributors with
  | nil => simp [setContributor, getContributor]
  | cons entry rest ih =>
    obtain ⟨name, old⟩ := entry
    by_cases h : name = author
    · simp [setContributor, getContributor, h]
    · simp [setContributor, getContributor, h, ih]

/-- Writing a key leaves what is read under any other key as it was. -/
theorem getContributor_setContributor_ne (contributors : List (String × Contributor))
    (author other : String) (data : Contributor) (hne : other ≠ author) :
    getContributor (setContributor contributors author data) other =
      getContributor contributors other := by
  induction contributors with
  | nil =>
    have h : ¬ author = other := fun h => hne h.symm
    simp [setContributor, getContributor, h]
  | cons entry rest ih =>
    obtain ⟨name, old⟩ := entry
    by_cases h : name = author
    · have h' : ¬ name = other := fun h' => hne (h'.symm.trans h)
      rw [setContributor, if_pos h, getContributor, if_neg h', getContributor, if_neg h']
    · rw [setContributor, if_neg h]
      by_cases h' : name = other
      · rw [getContributor, if_pos h', getContributor, if_pos h']
      · rw [getContributor, if_neg h', getContributor, if_neg h', ih]

/-- After the initialisation the author has a record: the one it had, or the default one. -/
theorem getContributor_initContributor_self (contributors : List (String × Contributor))
    (author : String) :
    getContributor (initContributor contributors author) author =
      some ((getContributor contributors author).getD newContributor) := by
  unfold initContributor
  cases h : getContributor contributors author with
  | none => simp [getContributor_setContributor_self]
  | some data => simp [h]

/-- The initialisation leaves the records of the other contributors as they were. -/
theorem getContributor_initContributor_ne (contributors : List (String × Contributor))
    (author other : String) (hne : other ≠ author) :
    getContributor (initContributor contributors author) other =
      getContributor contributors other := by
  unfold initContributor
  cases h : getContributor contributors author with
  | none => simp [getContributor_setContributor_ne _ _ _ _ hne]
  | some data => simp

/-- The default record of the specification is the record `updateLeaderboard` creates. -/
theorem recordBefore_eq (leaderboard : Leaderboard) (author : String) :
    recordBefore leaderboard author =
      (getContributor leaderboard.contributors author).getD newContributor := by
  unfold recordBefore newContributor STARTING_ELO
  norm_num

/-- The record of the author in the saved store is the record it had before, or the default
one, mutated by `recordMerge` with the rating change of the event. -/
theorem getContributor_updateLeaderboard_author (context : Context) (now : Int)
    (leaderboard : Leaderboard) (prData : PRData) :
    getContributor (updateLeaderboard context now leaderboard prData).leaderboard.contributors
        prData.author =
      some (recordMerge context prData
        (finalEloChange ((recordBefore leaderboard prData.author).elo : ℝ)
          (recordBefore leaderboard prData.author).prs prData)
        (calculateTaskDifficulty prData) (recordBefore leaderboard prData.author)) := by
  simp only [updateLeaderboard, getContributor_setContributor_self,
    getContributor_initContributor_self, Option.getD_some, recordBefore_eq]

/-- The rating change that an update returns is the one computed from the record before. -/
theorem finalEloChange_updateLeaderboard (context : Context) (now : Int)
    (leaderboard : Leaderboard) (prData : PRData) :
    (updateLeaderboard context now leaderboard prData).finalEloChange =
      finalEloChange ((recordBefore leaderboard prData.author).elo : ℝ)
        (recordBefore leaderboard prData.author).prs prData := by
  simp only [updateLeaderboard, getContributor_initContributor_self, Option.getD_some,
    recordBefore_eq]

/-- An update leaves the records of the contributors other than the author as they were. -/
theorem getContributor_updateLeaderboard_other (context : Context) (now : Int)
    (leaderboard : Leaderboard) (prData : PRData) (other : String)
    (hne : other ≠ prData.author) :
    getContributor (updateLeaderboard context now leaderboard prData).leaderboard.contributors
        other = getContributor leaderboard.contributors other := by
  simp only [updateLeaderboard, getContributor_setContributor_ne _ _ _ _ hne,
    getContributor_initContributor_ne _ _ _ hne]

/-- Processing a first event and then the others. -/
theorem processEvents_cons (leaderboard : Leaderboard) (event : MergeEvent)
    (rest : List MergeEvent) :
    processEvents leaderboard (event :: rest) =
      processEvents
        (updateLeaderboard event.context event.now leaderboard event.prData).leaderboard rest :=
  rfl

/-- An update keeps the histories within ten entries. -/
theorem historyBounded_updateLeaderboard (context : Context) (now : Int)
    (leaderboard : Leaderboard) (prData : PRData) (h : historyBounded leaderboard) :
    historyBounded (updateLeaderboard context now leaderboard prData).leaderboard := by
  intro name data hdata
  by_cases hname : name = prData.author
  · rw [hname, getContributor_updateLeaderboard_author] at hdata
    rw [← Option.some.inj hdata]
    simp only [recordMerge, Option.getD_some, List.length_take]
    exact Nat.min_le_left _ _
  · rw [getContributor_updateLeaderboard_other _ _ _ _ _ hname] at hdata
    exact h name data hdata

/-- After events that are all of one author, the record of that author has gained one pull
request per event and the sum of the applied rating changes, and it exists as soon as there is
an event. -/
theorem recordBefore_processEvents (author : String) (events : List MergeEvent)
    (leaderboard : Leaderboard) (hauthor : ∀ event ∈ events, event.prData.author = author) :
    (recordBefore (processEvents leaderboard events) author).prs =
      (recordBefore leaderboard author).prs + events.length ∧
    (recordBefore (processEvents leaderboard events) author).elo =
      (recordBefore leaderboard author).elo +
        (((appliedChanges leaderboard events).sum : Int) : ℚ) ∧
    (events ≠ [] →
      getContributor (processEvents leaderboard events).contributors author =
        some (recordBefore (processEvents leaderboard events) author)) := by
  induction events generalizing leaderboard with
  | nil =>
    refine ⟨rfl, ?_, fun h => absurd rfl h⟩
    simp [processEvents, appliedChanges]
  | cons event rest ih =>
    have ha : event.prData.author = author := hauthor event (List.mem_cons_self _ _)
    have hrest : ∀ e ∈ rest, e.prData.author = author :=
      fun e he => hauthor e (List.mem_cons_of_mem _ he)
    obtain ⟨h1, h2, h3⟩ :=
      ih (updateLeaderboard event.context event.now leaderboard event.prData).leaderboard hrest
    have hstep := getContributor_updateLeaderboard_author event.context event.now leaderboard
      event.prData
    rw [ha] at hstep
    have hrec : recordBefore
        (updateLeaderboard event.context event.now leaderboard event.prData).leaderboard author =
        recordMerge event.context event.prData
          (finalEloChange ((recordBefore leaderboard author).elo : ℝ)
            (recordBefore leaderboard author).prs event.prData)
          (calculateTaskDifficulty event.prData) (recordBefore leaderboard author) := by
      rw [recordBefore, hstep, Option.getD_some]
    have hchange :
        (updateLeaderboard event.context event.now leaderboard event.prData).finalEloChange =
        finalEloChange ((recordBefore leaderboard author).elo : ℝ)
          (recordBefore leaderboard author).prs event.prData := by
      rw [finalEloChange_updateLeaderboard, ha]
    rw [processEvents_cons]
    refine ⟨?_, ?_, ?_⟩
    · rw [h1, hrec]
      simp only [recordMerge, List.length_cons]
      omega
    · rw [h2, hrec]
      simp only [recordMerge, appliedChanges, List.sum_cons, hchange]
      push_cast
      ring
    · intro _
      by_cases hnil : rest = []
      · subst hnil
        simp only [processEvents, List.foldl_nil]
        rw [hstep, hrec]
      · exact h3 hnil

/-- For an author handled by `updateLeaderboard`: a store that does not contain `author`,
after `N ≥ 1` events all of `author`, holds for `author` a record with `prs = N` and a rating
of 1200 plus the sum of the `N` rating changes that the updates applied. -/
theorem processEvents_new_author (leaderboard : Leaderboard) (author : String)
    (events : List MergeEvent)
    (habsent : getContributor leaderboard.contributors author = none)
    (hauthor : ∀ event ∈ events, event.prData.author = author) (hne : events ≠ []) :
    ∃ data : Contributor,
      getContributor (processEvents leaderboard events).contributors author = some data ∧
      data.prs = events.length ∧
      data.elo = 1200 + (((appliedChanges leaderboard events).sum : Int) : ℚ) ∧
      (appliedChanges leaderboard events).length = events.length := by
  obtain ⟨h1, h2, h3⟩ := recordBefore_processEvents author events leaderboard hauthor
  have hstart : recordBefore leaderboard author =
      { elo := 1200, prs := 0, totalDifficulty := 0, recentPRs := some [] } := by
    rw [recordBefore, habsent]
    rfl
  rw [hstart] at h1 h2
  refine ⟨_, h3 hne, ?_, h2, ?_⟩
  · rw [h1]
    simp
  · clear h1 h2 h3 hstart habsent hauthor hne
    induction events generalizing leaderboard with
    | nil => rfl
    | cons event rest ih =>
      simp only [appliedChanges, List.length_cons, ih]

/-- A record that is read under a key is an entry of the store under that key. -/
theorem mem_of_getContributor (contributors : List (String × Contributor)) (author : String)
    (data : Contributor) (h : getContributor contributors author = some data) :
    (author, data) ∈ contributors := by
  induction contributors with
  | nil => simp [getContributor] at h
  | cons entry rest ih =>
    obtain ⟨name, old⟩ := entry
    by_cases hname : name = author
    · rw [getContributor, if_pos hname] at h
      rw [hname, Option.some.inj h]
      exact List.mem_cons_self _ _
    · rw [getContributor, if_neg hname] at h
      exact List.mem_cons_of_mem _ (ih h)

/-- The rank that an update returns is computed on the saved store with the new rating of the
author. -/
theorem rank_updateLeaderboard (context : Context) (now : Int) (leaderboard : Leaderboard)
    (prData : PRData) :
    (updateLeaderboard context now leaderboard prData).rank =
      rankOf (updateLeaderboard context now leaderboard prData).leaderboard.contributors
        (recordMerge context prData
          (finalEloChange ((recordBefore leaderboard prData.author).elo : ℝ)
            (recordBefore leaderboard prData.author).prs prData)
          (calculateTaskDifficulty prData) (recordBefore leaderboard prData.author)).elo := by
  simp only [updateLeaderboard, getContributor_initContributor_self, Option.getD_some,
    recordBefore_eq]

/-- The contributors with a rating above `elo` and those with a rating of at most `elo` make
up the store. -/
theorem length_filter_elo_split (contributors : List (String × Contributor)) (elo : ℚ) :
    (contributors.filter (fun entry => decide (entry.2.elo > elo))).length +
      (contributors.filter (fun entry => decide (entry.2.elo ≤ elo))).length =
      contributors.length := by
  induction contributors with
  | nil => rfl
  | cons entry rest ih =>
    by_cases hgt : entry.2.elo > elo
    · have hle : ¬ entry.2.elo ≤ elo := not_le.mpr hgt
      simp only [List.filter_cons, hgt, hle, decide_True, decide_False, if_true,
        List.length_cons, Bool.false_eq_true, if_false]
      omega
    · have hle : entry.2.elo ≤ elo := not_lt.mp hgt
      simp only [List.filter_cons, hgt, hle, decide_True, decide_False, if_true,
        List.length_cons, Bool.false_eq_true, if_false]
      omega

/-- For an author handled by `updateLeaderboard`, the rank reported is one plus the number of
contributors of the updated store whose rating is strictly greater than the new rating of the
author; it lies between 1 and the number of contributors, and the contributors whose rating is
at most that of the author, ties included, are not counted. -/
theorem updateLeaderboard_rank (context : Context) (now : Int) (leaderboard : Leaderboard)
    (prData : PRData) :
    ∃ updated : Contributor,
      getContributor (updateLeaderboard context now leaderboard prData).leaderboard.contributors
        prData.author = some updated ∧
      (updateLeaderboard context now leaderboard prData).rank =
        1 + ((updateLeaderboard context now leaderboard prData).leaderboard.contributors.filter
          (fun entry => decide (entry.2.elo > updated.elo))).length ∧
      1 ≤ (updateLeaderboard context now leaderboard prData).rank ∧
      (updateLeaderboard context now leaderboard prData).rank ≤
        (updateLeaderboard context now leaderboard prData).leaderboard.contributors.length ∧
      (updateLeaderboard context now leaderboard prData).rank +
        ((updateLeaderboard context now leaderboard prData).leaderboard.contributors.filter
          (fun entry => decide (entry.2.elo ≤ updated.elo))).length =
        (updateLeaderboard context now leaderboard prData).leaderboard.contributors.length + 1 := by
  have hget := getContributor_updateLeaderboard_author context now leaderboard prData
  have hmem := mem_of_getContributor _ _ _ hget
  have hrank := rank_updateLeaderboard context now leaderboard prData
  generalize (updateLeaderboard context now leaderboard prData).leaderboard.contributors = cs
    at hget hmem hrank ⊢
  generalize recordMerge context prData
    (finalEloChange ((recordBefore leaderboard prData.author).elo : ℝ)
      (recordBefore leaderboard prData.author).prs prData)
    (calculateTaskDifficulty prData) (recordBefore leaderboard prData.author) = updated
    at hget hmem hrank ⊢
  have hsplit := length_filter_elo_split cs updated.elo
  have htie : 1 ≤ (cs.filter (fun entry => decide (entry.2.elo ≤ updated.elo))).length := by
    apply List.length_pos_of_mem
    exact List.mem_filter.mpr ⟨hmem, by simp⟩
  refine ⟨updated, hget, ?_, ?_, ?_, ?_⟩
  · rw [hrank, rankOf]
    omega
  · rw [hrank, rankOf]
    omega
  · rw [hrank, rankOf]
    omega
  · rw [hrank, rankOf]
    omega

/-- Writing a record changes the sum of `prs` by the difference with the record replaced. -/
theorem sumPrs_setContributor (contributors : List (String × Contributor)) (author : String)
    (data : Contributor) :
    sumPrs (setContributor contributors author data) +
        ((getContributor contributors author).elim 0 (fun old => old.prs)) =
      sumPrs contributors + data.prs := by
  induction contributors with
  | nil => simp [setContributor, getContributor, sumPrs]
  | cons entry rest ih =>
    obtain ⟨name, old⟩ := entry
    by_cases h : name = author
    · simp only [setContributor, getContributor, if_pos h, sumPrs, List.map_cons, List.sum_cons,
        Option.elim_some]
      omega
    · simp only [setContributor, getContributor, if_neg h, sumPrs, List.map_cons,
        List.sum_cons] at ih ⊢
      omega

/-- An update adds one to the sum of `prs` and one to `totalPRs`. -/
theorem counts_updateLeaderboard (context : Context) (now : Int) (leaderboard : Leaderboard)
    (prData : PRData) :
    sumPrs (updateLeaderboard context now leaderboard prData).leaderboard.contributors =
      sumPrs leaderboard.contributors + 1 ∧
    (updateLeaderboard context now leaderboard prData).leaderboard.totalPRs =
      leaderboard.totalPRs + 1 := by
  refine ⟨?_, rfl⟩
  have hinit : sumPrs (initContributor leaderboard.contributors prData.author) =
      sumPrs leaderboard.contributors := by
    unfold initContributor
    cases h : getContributor leaderboard.contributors prData.author with
    | none =>
      have := sumPrs_setContributor leaderboard.contributors prData.author newContributor
      rw [h] at this
      simpa [newContributor] using this
    | some data => rfl
  have hset := sumPrs_setContributor (initContributor leaderboard.contributors prData.author)
    prData.author
    (recordMerge context prData
      (finalEloChange ((recordBefore leaderboard prData.author).elo : ℝ)
        (recordBefore leaderboard prData.author).prs prData)
      (calculateTaskDifficulty prData) (recordBefore leaderboard prData.author))
  rw [getContributor_initContributor_self, ← recordBefore_eq, hinit] at hset
  simp only [Option.elim_some, recordMerge] at hset
  simp only [updateLeaderboard, getContributor_initContributor_self, Option.getD_some,
    ← recordBefore_eq]
  simp only [recordMerge]
  omega

/-- Processing events adds their number to the sum of `prs` and to `totalPRs`. -/
theorem counts_processEvents (events : List MergeEvent) (leaderboard : Leaderboard) :
    sumPrs (processEvents leaderboard events).contributors =
      sumPrs leaderboard.contributors + events.length ∧
    (processEvents leaderboard events).totalPRs = leaderboard.totalPRs + events.length := by
  induction events generalizing leaderboard with
  | nil => exact ⟨rfl, rfl⟩
  | cons event rest ih =>
    obtain ⟨h1, h2⟩ :=
      ih (updateLeaderboard event.context event.now leaderboard event.prData).leaderboard
    obtain ⟨s1, s2⟩ := counts_updateLeaderboard event.context event.now leaderboard event.prData
    rw [processEvents_cons, h1, h2, s1, s2, List.length_cons]
    constructor <;> omega

/-! ### Size of the rating change -/

/-- The expected score lies strictly between 0 and 1. -/
theorem expectedScore_mem_Ioo (a b : ℝ) : 0 < expectedScore a b ∧ expectedScore a b < 1 := by
  unfold expectedScore
  have ht : 0 < (10 : ℝ) ^ ((b - a) / 400) := pow_term_pos _
  constructor
  · exact one_div_pos.mpr (by linarith)
  · rw [div_lt_one (by linarith)]
    linarith

/-- The K-factor is 16, 24 or 32. -/
theorem getKFactor_values (n : Nat) :
    getKFactor n = 32 ∨ getKFactor n = 24 ∨ getKFactor n = 16 := by
  unfold getKFactor
  split_ifs
  · exact Or.inl rfl
  · exact Or.inr (Or.inl rfl)
  · exact Or.inr (Or.inr rfl)

/-- The quality multiplier, as a real number, lies between 0.5 and 1.5. -/
theorem qualityMultiplier_cast_bounds (prData : PRData) :
    (0.5 : ℝ) ≤ (calculateQualityMultiplier prData : ℝ) ∧
    (calculateQualityMultiplier prData : ℝ) ≤ 1.5 := by
  have hlo : (1 / 2 : ℚ) ≤ calculateQualityMultiplier prData := by
    unfold calculateQualityMultiplier
    exact le_trans (by norm_num) (le_max_left _ _)
  have hhi : calculateQualityMultiplier prData ≤ (3 / 2 : ℚ) := by
    unfold calculateQualityMultiplier
    exact max_le (by norm_num) (le_trans (min_le_left _ _) (by norm_num))
  have hlo' : ((1 / 2 : ℚ) : ℝ) ≤ (calculateQualityMultiplier prData : ℝ) :=
    Rat.cast_le.mpr hlo
  have hhi' : (calculateQualityMultiplier prData : ℝ) ≤ ((3 / 2 : ℚ) : ℝ) :=
    Rat.cast_le.mpr hhi
  push_cast at hlo' hhi'
  constructor
  · linarith
  · linarith

/-- The time bonus is one of 0.9, 1.1, 1.05, 0.95 and 1.0. -/
theorem calculateTimeBonus_values (prData : PRData) :
    calculateTimeBonus prData = 0.9 ∨ calculateTimeBonus prData = 1.1 ∨
    calculateTimeBonus prData = 1.05 ∨ calculateTimeBonus prData = 0.95 ∨
    calculateTimeBonus prData = 1.0 := by
  unfold calculateTimeBonus
  dsimp only
  split_ifs <;> simp

/-- The time bonus, as a real number, lies between 0.9 and 1.1. -/
theorem timeBonus_cast_bounds (prData : PRData) :
    (0.9 : ℝ) ≤ (calculateTimeBonus prData : ℝ) ∧ (calculateTimeBonus prData : ℝ) ≤ 1.1 := by
  rcases calculateTimeBonus_values prData with h | h | h | h | h <;> rw [h] <;>
    constructor <;> norm_num

/-- The product that `Math.round` receives is positive and below 1.65 times the K-factor. -/
theorem change_product_bounds (elo : ℝ) (prs : Nat) (prData : PRData) :
    0 < (getKFactor prs : ℝ) * (1 - expectedScore elo (calculateTaskDifficulty prData : ℝ)) *
        (calculateQualityMultiplier prData : ℝ) * (calculateTimeBonus prData : ℝ) ∧
    (getKFactor prs : ℝ) * (1 - expectedScore elo (calculateTaskDifficulty prData : ℝ)) *
        (calculateQualityMultiplier prData : ℝ) * (calculateTimeBonus prData : ℝ) <
      1.65 * (getKFactor prs : ℝ) := by
  obtain ⟨he0, he1⟩ := expectedScore_mem_Ioo elo (calculateTaskDifficulty prData : ℝ)
  obtain ⟨hq0, hq1⟩ := qualityMultiplier_cast_bounds prData
  obtain ⟨ht0, ht1⟩ := timeBonus_cast_bounds prData
  have hk : (16 : ℝ) ≤ (getKFactor prs : ℝ) := by
    rcases getKFactor_values prs with h | h | h <;> rw [h] <;> norm_num
  have hbase0 : 0 < (getKFactor prs : ℝ) *
      (1 - expectedScore elo (calculateTaskDifficulty prData : ℝ)) :=
    mul_pos (by linarith) (by linarith)
  have hbase1 : (getKFactor prs : ℝ) *
      (1 - expectedScore elo (calculateTaskDifficulty prData : ℝ)) < (getKFactor prs : ℝ) := by
    nlinarith
  have hq : 0 < (calculateQualityMultiplier prData : ℝ) := by linarith
  have ht : 0 < (calculateTimeBonus prData : ℝ) := by linarith
  constructor
  · exact mul_pos (mul_pos hbase0 hq) ht
  · have h1 : (getKFactor prs : ℝ) *
        (1 - expectedScore elo (calculateTaskDifficulty prData : ℝ)) *
        (calculateQualityMultiplier prData : ℝ) < (getKFactor prs : ℝ) * 1.5 := by
      calc (getKFactor prs : ℝ) *
            (1 - expectedScore elo (calculateTaskDifficulty prData : ℝ)) *
            (calculateQualityMultiplier prData : ℝ)
          < (getKFactor prs : ℝ) * (calculateQualityMultiplier prData : ℝ) :=
            mul_lt_mul_of_pos_right hbase1 hq
        _ ≤ (getKFactor prs : ℝ) * 1.5 := mul_le_mul_of_nonneg_left hq1 (by linarith)
    calc (getKFactor prs : ℝ) *
          (1 - expectedScore elo (calculateTaskDifficulty prData : ℝ)) *
          (calculateQualityMultiplier prData : ℝ) * (calculateTimeBonus prData : ℝ)
        < (getKFactor prs : ℝ) * 1.5 * (calculateTimeBonus prData : ℝ) :=
          mul_lt_mul_of_pos_right h1 ht
      _ ≤ (getKFactor prs : ℝ) * 1.5 * 1.1 :=
          mul_le_mul_of_nonneg_left ht1 (by linarith)
      _ = 1.65 * (getKFactor prs : ℝ) := by ring

/-- The rating change is not negative, and it is at most an integer `bound` as soon as 1.65
times the K-factor is at most `bound + 1/2`. -/
theorem finalEloChange_range (elo : ℝ) (prs : Nat) (prData : PRData) :
    0 ≤ finalEloChange elo prs prData ∧
    ∀ bound : Int, 1.65 * (getKFactor prs : ℝ) ≤ (bound : ℝ) + 1 / 2 →
      finalEloChange elo prs prData ≤ bound := by
  obtain ⟨hpos, hlt⟩ := change_product_bounds elo prs prData
  have hdef : finalEloChange elo prs prData =
      round ((getKFactor prs : ℝ) *
        (1 - expectedScore elo (calculateTaskDifficulty prData : ℝ)) *
        (calculateQualityMultiplier prData : ℝ) * (calculateTimeBonus prData : ℝ)) := rfl
  rw [hdef, round_eq]
  constructor
  · rw [Int.floor_nonneg]
    linarith
  · intro bound hbound
    rw [← Int.lt_add_one_iff, Int.floor_lt]
    push_cast
    linarith

/-- The rating change of an update is not negative and is at most 53, 40 or 26 according to
the K-factor 32, 24 or 16 of the record before. -/
theorem finalEloChange_tiers (elo : ℝ) (prs : Nat) (prData : PRData) :
    0 ≤ finalEloChange elo prs prData ∧
    finalEloChange elo prs prData ≤ 53 ∧
    (getKFactor prs = 24 → finalEloChange elo prs prData ≤ 40) ∧
    (getKFactor prs = 16 → finalEloChange elo prs prData ≤ 26) := by
  obtain ⟨h0, hle⟩ := finalEloChange_range elo prs prData
  refine ⟨h0, ?_, ?_, ?_⟩
  · apply hle
    rcases getKFactor_values prs with h | h | h <;> rw [h] <;> norm_num
  · intro h
    apply hle
    rw [h]
    norm_num
  · intro h
    apply hle
    rw [h]
    norm_num

/-- The expected score of a rating against a difficulty 400 points above it is `1 / 11`. -/
theorem expectedScore_1200_1600 : expectedScore 1200 1600 = 1 / 11 := by
  unfold expectedScore
  have hexp : ((1600 : ℝ) - 1200) / 400 = 1 := by norm_num
  rw [hexp, Real.rpow_one]
  norm_num

/-- The rating change of the record `criticalPR` for a new contributor is 48. -/
theorem finalEloChange_criticalPR : finalEloChange 1200 0 criticalPR = 48 := by
  have hd : calculateTaskDifficulty criticalPR = 1600 := by decide
  have hq : calculateQualityMultiplier criticalPR = 3 / 2 := by
    norm_num [calculateQualityMultiplier, criticalPR, emptyPR]
  have ht : calculateTimeBonus criticalPR = 11 / 10 := by
    rw [calculateTimeBonus_of_valid criticalPR 0 (12 * 60 * 60 * 1000) rfl rfl]
    norm_num
  have hk : getKFactor 0 = 32 := by decide
  have hval : ((getKFactor 0 : ℕ) : ℝ) *
      (1 - expectedScore 1200 ((calculateTaskDifficulty criticalPR : ℕ) : ℝ)) *
      ((calculateQualityMultiplier criticalPR : ℚ) : ℝ) *
      ((calculateTimeBonus criticalPR : ℚ) : ℝ) = ((48 : Int) : ℝ) := by
    rw [hd, hq, ht, hk]
    push_cast
    rw [expectedScore_1200_1600]
    norm_num
  have hdef : finalEloChange 1200 0 criticalPR =
      round (((getKFactor 0 : ℕ) : ℝ) *
        (1 - expectedScore 1200 ((calculateTaskDifficulty criticalPR : ℕ) : ℝ)) *
        ((calculateQualityMultiplier criticalPR : ℚ) : ℝ) *
        ((calculateTimeBonus criticalPR : ℚ) : ℝ)) := rfl
  rw [hdef, hval, round_intCast]

/-- C17, as the claim states it, fails: the first pull request of `ada`, `criticalPR`, is
processed with the K-factor 32 and changes the rating by 48. -/
theorem updateLeaderboard_change_above_kFactor :
    getKFactor (recordBefore (freshLeaderboard 0) criticalPR.author).prs = 32 ∧
    (updateLeaderboard { owner := "octo", repo := "repo" } 0 (freshLeaderboard 0)
      criticalPR).finalEloChange = 48 ∧
    ¬ |(updateLeaderboard { owner := "octo", repo := "repo" } 0 (freshLeaderboard 0)
        criticalPR).finalEloChange| ≤
      (getKFactor (recordBefore (freshLeaderboard 0) criticalPR.author).prs : Int) := by
  have hrec : recordBefore (freshLeaderboard 0) criticalPR.author =
      { elo := 1200, prs := 0, totalDifficulty := 0, recentPRs := some [] } := rfl
  have hchange : (updateLeaderboard { owner := "octo", repo := "repo" } 0 (freshLeaderboard 0)
      criticalPR).finalEloChange = 48 := by
    rw [finalEloChange_updateLeaderboard, hrec]
    have hcast : (((1200 : ℚ)) : ℝ) = 1200 := by norm_num
    simp only [hcast]
    exact finalEloChange_criticalPR
  refine ⟨by rw [hrec]; decide, hchange, ?_⟩
  rw [hchange, hrec]
  decide

/-- C17, amended: the K-factor bounds the change before the quality and time factors,
`0 < K * (1 - expected) < K`; the applied change lies between 0 and 1.65 times the K-factor
rounded, that is at most 53, 40 or 26 for the K-factor 32, 24 or 16 of the count before the
event. -/
theorem updateLeaderboard_change_bounds (context : Context) (now : Int)
    (leaderboard : Leaderboard) (prData : PRData) :
    0 < (getKFactor (recordBefore leaderboard prData.author).prs : ℝ) *
        (1 - expectedScore ((recordBefore leaderboard prData.author).elo : ℝ)
          (calculateTaskDifficulty prData : ℝ)) ∧
    (getKFactor (recordBefore leaderboard prData.author).prs : ℝ) *
        (1 - expectedScore ((recordBefore leaderboard prData.author).elo : ℝ)
          (calculateTaskDifficulty prData : ℝ)) <
      (getKFactor (recordBefore leaderboard prData.author).prs : ℝ) ∧
    0 ≤ (updateLeaderboard context now leaderboard prData).finalEloChange ∧
    (getKFactor (recordBefore leaderboard prData.author).prs = 32 →
      (updateLeaderboard context now leaderboard prData).finalEloChange ≤ 53) ∧
    (getKFactor (recordBefore leaderboard prData.author).prs = 24 →
      (updateLeaderboard context now leaderboard prData).finalEloChange ≤ 40) ∧
    (getKFactor (recordBefore leaderboard prData.author).prs = 16 →
      (updateLeaderboard context now leaderboard prData).finalEloChange ≤ 26) := by
  obtain ⟨he0, he1⟩ := expectedScore_mem_Ioo ((recordBefore leaderboard prData.author).elo : ℝ)
    (calculateTaskDifficulty prData : ℝ)
  have hk : (16 : ℝ) ≤ (getKFactor (recordBefore leaderboard prData.author).prs : ℝ) := by
    rcases getKFactor_values (recordBefore leaderboard prData.author).prs with h | h | h <;>
      rw [h] <;> norm_num
  obtain ⟨h0, h53, h40, h26⟩ :=
    finalEloChange_tiers ((recordBefore leaderboard prData.author).elo : ℝ)
      (recordBefore leaderboard prData.author).prs prData
  rw [finalEloChange_updateLeaderboard]
  refine ⟨mul_pos (by linarith) (by linarith), by nlinarith, h0, fun _ => h53, h40, h26⟩

/-- Witness of the amended C17: the first pull request of `ada` has the K-factor 32 and a
change of at most 53. -/
theorem updateLeaderboard_change_bounds_witness :
    (updateLeaderboard { owner := "octo", repo := "repo" } 0 (freshLeaderboard 0)
      criticalPR).finalEloChange ≤ 53 :=
  (updateLeaderboard_change_bounds { owner := "octo", repo := "repo" } 0 (freshLeaderboard 0)
    criticalPR).2.2.2.1 (by decide)

/-- An update keeps every rating an integer that is at least 1200. -/
theorem ratingsFromStart_updateLeaderboard (context : Context) (now : Int)
    (leaderboard : Leaderboard) (prData : PRData) (h : ratingsFromStart leaderboard) :
    ratingsFromStart (updateLeaderboard context now leaderboard prData).leaderboard := by
  intro name data hdata
  by_cases hname : name = prData.author
  · rw [hname, getContributor_updateLeaderboard_author] at hdata
    rw [← Option.some.inj hdata]
    obtain ⟨h0, -⟩ := finalEloChange_range ((recordBefore leaderboard prData.author).elo : ℝ)
      (recordBefore leaderboard prData.author).prs prData
    have hbefore : ∃ n : Int, (recordBefore leaderboard prData.author).elo = (n : ℚ) ∧
        1200 ≤ n := by
      unfold recordBefore
      cases hget : getContributor leaderboard.contributors prData.author with
      | none => exact ⟨1200, by simp, le_refl _⟩
      | some old => exact h _ _ hget
    obtain ⟨n, hn, hle⟩ := hbefore
    refine ⟨n + finalEloChange ((recordBefore leaderboard prData.author).elo : ℝ)
      (recordBefore leaderboard prData.author).prs prData, ?_, by omega⟩
    simp only [recordMerge, hn]
    push_cast
    rfl
  · rw [getContributor_updateLeaderboard_other _ _ _ _ _ hname] at hdata
    exact h name data hdata

/-- C20: the applied rating change is an integer between 0 and 53, for every rating, every
count and every event; so an update never lowers the rating of a contributor, and every rating
of a store reached from the empty store is an integer that is at least 1200. -/
theorem finalEloChange_between_0_and_53 :
    (∀ (elo : ℝ) (prs : Nat) (prData : PRData),
      0 ≤ finalEloChange elo prs prData ∧ finalEloChange elo prs prData ≤ 53) ∧
    (∀ (context : Context) (now : Int) (leaderboard : Leaderboard) (prData : PRData),
      0 ≤ (updateLeaderboard context now leaderboard prData).finalEloChange ∧
      (updateLeaderboard context now leaderboard prData).finalEloChange ≤ 53) ∧
    (∀ (context : Context) (now : Int) (leaderboard : Leaderboard) (prData : PRData)
      (name : String) (data : Contributor),
      getContributor leaderboard.contributors name = some data →
        ∃ after : Contributor,
          getContributor
            (updateLeaderboard context now leaderboard prData).leaderboard.contributors name =
            some after ∧
          data.elo ≤ after.elo) ∧
    (∀ (now : Int) (events : List MergeEvent),
      ratingsFromStart (processEvents (freshLeaderboard now) events)) := by
  refine ⟨?_, ?_, ?_, ?_⟩
  · intro elo prs prData
    obtain ⟨h0, h53, -, -⟩ := finalEloChange_tiers elo prs prData
    exact ⟨h0, h53⟩
  · intro context now leaderboard prData
    rw [finalEloChange_updateLeaderboard]
    obtain ⟨h0, h53, -, -⟩ :=
      finalEloChange_tiers ((recordBefore leaderboard prData.author).elo : ℝ)
        (recordBefore leaderboard prData.author).prs prData
    exact ⟨h0, h53⟩
  · intro context now leaderboard prData name data hdata
    by_cases hname : name = prData.author
    · refine ⟨_, by rw [hname]; exact getContributor_updateLeaderboard_author _ _ _ _, ?_⟩
      obtain ⟨h0, -⟩ := finalEloChange_range ((recordBefore leaderboard prData.author).elo : ℝ)
        (recordBefore leaderboard prData.author).prs prData
      have hrec : recordBefore leaderboard prData.author = data := by
        rw [recordBefore, ← hname, hdata]
        rfl
      simp only [recordMerge, hrec]
      have hcast : (0 : ℚ) ≤ ((finalEloChange (data.elo : ℝ) data.prs prData : Int) : ℚ) := by
        rw [hrec] at h0
        exact_mod_cast h0
      linarith
    · exact ⟨data, by rw [getContributor_updateLeaderboard_other _ _ _ _ _ hname]; exact hdata,
        le_refl _⟩
  · intro now events
    have hfresh : ratingsFromStart (freshLeaderboard now) := by
      intro name data hdata
      simp [freshLeaderboard, getContributor] at hdata
    generalize freshLeaderboard now = leaderboard at hfresh
    induction events generalizing leaderboard with
    | nil => exact hfresh
    | cons event rest ih =>
      rw [processEvents_cons]
      exact ih _ (ratingsFromStart_updateLeaderboard _ _ _ _ hfresh)

/-- Witness of C20: after two events of `ada` on the empty store, the rating of `ada` is an
integer that is at least 1200. -/
theorem finalEloChange_between_0_and_53_witness :
    ratingsFromStart (processEvents (freshLeaderboard 0) [eventOf "ada", eventOf "ada"]) :=
  finalEloChange_between_0_and_53.2.2.2 0 [eventOf "ada", eventOf "ada"]

/-! ### The table -/

/-- The row at a position is built from the sorted entry at that position, with the index the
loop has reached. -/
theorem getElem?_tableRowsFrom (entries : List (String × Contributor)) (start i : Nat) :
    (tableRowsFrom start entries)[i]? = (entries[i]?).map (tableRow (start + i)) := by
  induction entries generalizing start i with
  | nil => simp [tableRowsFrom]
  | cons entry rest ih =>
    cases i with
    | zero => simp [tableRowsFrom]
    | succ j =>
      rw [tableRowsFrom, List.getElem?_cons_succ, List.getElem?_cons_succ, ih]
      have hidx : start + 1 + j = start + (j + 1) := by omega
      rw [hidx]

/-- The loop writes one row per entry. -/
theorem length_tableRowsFrom (entries : List (String × Contributor)) (start : Nat) :
    (tableRowsFrom start entries).length = entries.length := by
  induction entries generalizing start with
  | nil => rfl
  | cons entry rest ih => rw [tableRowsFrom, List.length_cons, List.length_cons, ih]

/-- The names in the rows are the names of the entries, in order. -/
theorem map_username_tableRowsFrom (entries : List (String × Contributor)) (start : Nat) :
    (tableRowsFrom start entries).map (fun row => row.username) =
      entries.map (fun entry => entry.1) := by
  induction entries generalizing start with
  | nil => rfl
  | cons entry rest ih =>
    rw [tableRowsFrom, List.map_cons, List.map_cons, ih]
    rfl

/-- The ratings in the rows are the rounded ratings of the entries, in order. -/
theorem map_elo_tableRowsFrom (entries : List (String × Contributor)) (start : Nat) :
    (tableRowsFrom start entries).map (fun row => row.elo) =
      entries.map (fun entry => mathRound entry.2.elo) := by
  induction entries generalizing start with
  | nil => rfl
  | cons entry rest ih =>
    rw [tableRowsFrom, List.map_cons, List.map_cons, ih]
    rfl

/-- The title at an index is the entry of the list at that index up to the eighth, and the
last entry after it. -/
theorem title_tableRow (index : Nat) (entry : String × Contributor) :
    (tableRow index entry).title =
      if index + 1 ≤ 8 then RANK_TITLES.getD index "" else "🌱 Contributor" := by
  have hlen : RANK_TITLES.length - 1 = 7 := rfl
  unfold tableRow
  simp only [hlen]
  split_ifs with h
  · rw [min_eq_left (by omega)]
  · rw [min_eq_right (by omega)]
    rfl

/-- C18: the table has one row per contributor; the rows follow the contributors sorted by
non-increasing rating, two contributors of which the first has a rating at least that of the
second (equal ratings in particular) keeping the order of the store; the row at the 1-based
position `p` shows the rank `p` and the `p`-th of the eight titles, the last title,
`Contributor`, from the ninth position on. -/
theorem tableRows_ranked (leaderboard : Leaderboard) :
    (tableRows leaderboard).length = leaderboard.contributors.length ∧
    ((tableRows leaderboard).map (fun row => row.username)).Perm
      (leaderboard.contributors.map (fun entry => entry.1)) ∧
    (sortByElo leaderboard.contributors).Perm leaderboard.contributors ∧
    (sortByElo leaderboard.contributors).Sorted (fun a b => a.2.elo ≥ b.2.elo) ∧
    ((tableRows leaderboard).map (fun row => row.elo)).Sorted (fun a b => a ≥ b) ∧
    (∀ a b : String × Contributor, a.2.elo ≥ b.2.elo →
      List.Sublist [a, b] leaderboard.contributors →
      List.Sublist [a, b] (sortByElo leaderboard.contributors)) ∧
    (∀ (i : Nat) (entry : String × Contributor),
      (sortByElo leaderboard.contributors)[i]? = some entry →
        (tableRows leaderboard)[i]? = some (tableRow i entry)) ∧
    (∀ (i : Nat) (row : Row), (tableRows leaderboard)[i]? = some row →
      row.rank = i + 1 ∧
      row.title = if i + 1 ≤ 8 then RANK_TITLES.getD i "" else "🌱 Contributor") ∧
    RANK_TITLES.length = 8 ∧ RANK_TITLES.getLast? = some "🌱 Contributor" := by
  have hsorted : (sortByElo leaderboard.contributors).Sorted eloOrder :=
    List.sorted_insertionSort eloOrder leaderboard.contributors
  have hperm : (sortByElo leaderboard.contributors).Perm leaderboard.contributors :=
    List.perm_insertionSort eloOrder leaderboard.contributors
  refine ⟨?_, ?_, hperm, hsorted, ?_, ?_, ?_, ?_, rfl, rfl⟩
  · rw [tableRows, length_tableRowsFrom]
    exact hperm.length_eq
  · rw [tableRows, map_username_tableRowsFrom]
    exact hperm.map _
  · rw [tableRows, map_elo_tableRowsFrom]
    refine List.Pairwise.map _ ?_ hsorted
    intro a b hab
    exact Int.floor_mono (add_le_add_right hab _)
  · intro a b hab hsub
    exact List.pair_sublist_insertionSort hab hsub
  · intro i entry hentry
    rw [tableRows, getElem?_tableRowsFrom, hentry, Option.map_some', Nat.zero_add]
  · intro i row hrow
    rw [tableRows, getElem?_tableRowsFrom] at hrow
    cases hentry : (sortByElo leaderboard.contributors)[i]? with
    | none =>
      rw [hentry] at hrow
      simp at hrow
    | some entry =>
      rw [hentry, Option.map_some', Nat.zero_add] at hrow
      rw [← Option.some.inj hrow]
      exact ⟨rfl, title_tableRow i entry⟩

/-! ### Saving and loading -/

/-- A natural number that has been written is read back. -/
theorem asNat_num_natCast (n : Nat) : (JsonValue.num (n : ℚ)).asNat = some n := by
  simp [JsonValue.asNat]

/-- An integer that has been written is read back. -/
theorem asInt_num_intCast (z : Int) : (JsonValue.num (z : ℚ)).asInt = some z := by
  simp [JsonValue.asInt]

/-- Values that are each read back from what was written for them are read back as a list. -/
theorem allSome_map_map {α β : Type} (write : α → β) (read : β → Option α)
    (h : ∀ a, read (write a) = some a) (l : List α) :
    allSome ((l.map write).map read) = some l := by
  induction l with
  | nil => rfl
  | cons a rest ih =>
    rw [List.map_cons, List.map_cons, h a, allSome, ih]
    rfl

/-- An entry of `recentPRs` that has been written is read back. -/
theorem recentPROfJson_toJson (pr : RecentPR) : recentPROfJson (recentPRToJson pr) = some pr := by
  obtain ⟨number, title, eloChange, difficulty, mergedAt, url⟩ := pr
  cases mergedAt with
  | none =>
    simp [recentPROfJson, recentPRToJson, JsonValue.prop, List.lookup, asNat_num_natCast,
      asInt_num_intCast, JsonValue.asStr, JsonValue.asDate]
  | some time =>
    simp [recentPROfJson, recentPRToJson, JsonValue.prop, List.lookup, asNat_num_natCast,
      asInt_num_intCast, JsonValue.asStr, JsonValue.asDate]

/-- The record of a contributor that has been written is read back. -/
theorem contributorOfJson_toJson (data : Contributor) :
    contributorOfJson (contributorToJson data) = some data := by
  obtain ⟨elo, prs, totalDifficulty, recentPRs⟩ := data
  cases recentPRs with
  | none =>
    simp [contributorOfJson, contributorToJson, JsonValue.prop, List.lookup, asNat_num_natCast,
      JsonValue.asNum]
  | some entries =>
    have hentries := allSome_map_map recentPRToJson recentPROfJson recentPROfJson_toJson entries
    rw [List.map_map] at hentries
    simp [contributorOfJson, contributorToJson, JsonValue.prop, List.lookup, asNat_num_natCast,
      JsonValue.asNum, hentries]

/-- The store that has been written is read back. -/
theorem leaderboardOfJson_toJson (leaderboard : Leaderboard) :
    leaderboardOfJson (leaderboardToJson leaderboard) = some leaderboard := by
  obtain ⟨contributors, lastUpdated, totalPRs⟩ := leaderboard
  have hentries := allSome_map_map
    (fun entry : String × Contributor => (entry.1, contributorToJson entry.2))
    (fun prop : String × JsonValue => (contributorOfJson prop.2).map (fun data => (prop.1, data)))
    (fun entry => by simp [contributorOfJson_toJson]) contributors
  rw [List.map_map] at hentries
  simp [leaderboardOfJson, leaderboardToJson, JsonValue.prop, List.lookup, asNat_num_natCast,
    JsonValue.asDate, hentries]

/-- C19: loading after saving a store gives the saved store: the same contributors with their
ratings, counts, total difficulties and histories, the same `totalPRs`, and the `lastUpdated`
that the save has written, whatever the files held before and whenever the load runs. -/
theorem loadLeaderboard_saveLeaderboard (files : Files) (leaderboard : Leaderboard)
    (saveTime loadTime : Int) :
    loadLeaderboard (saveLeaderboard files leaderboard saveTime) loadTime =
      some { leaderboard with lastUpdated := saveTime } ∧
    ∃ loaded : Leaderboard,
      loadLeaderboard (saveLeaderboard files leaderboard saveTime) loadTime = some loaded ∧
      loaded.contributors = leaderboard.contributors ∧
      loaded.totalPRs = leaderboard.totalPRs ∧
      loaded.lastUpdated = saveTime := by
  have hload : loadLeaderboard (saveLeaderboard files leaderboard saveTime) loadTime =
      some { leaderboard with lastUpdated := saveTime } := by
    simp only [loadLeaderboard, saveLeaderboard]
    exact leaderboardOfJson_toJson _
  exact ⟨hload, _, hload, rfl, rfl, rfl⟩

/-! ### What an update touches -/

/-- Writing the key `author` when no record is stored under it adds the record at the end. -/
theorem setContributor_of_absent (contributors : List (String × Contributor)) (author : String)
    (data : Contributor) (h : getContributor contributors author = none) :
    setContributor contributors author data = contributors ++ [(author, data)] := by
  induction contributors with
  | nil => rfl
  | cons entry rest ih =>
    obtain ⟨name, old⟩ := entry
    by_cases hname : name = author
    · rw [getContributor, if_pos hname] at h
      exact absurd h (by simp)
    · rw [getContributor, if_neg hname] at h
      rw [setContributor, if_neg hname, ih h]
      rfl

/-- Writing the key `author` right after it has been added at the end replaces the record that
was added. -/
theorem setContributor_append_of_absent (contributors : List (String × Contributor))
    (author : String) (first data : Contributor)
    (h : getContributor contributors author = none) :
    setContributor (contributors ++ [(author, first)]) author data =
      contributors ++ [(author, data)] := by
  induction contributors with
  | nil => simp [setContributor]
  | cons entry rest ih =>
    obtain ⟨name, old⟩ := entry
    by_cases hname : name = author
    · rw [getContributor, if_pos hname] at h
      exact absurd h (by simp)
    · rw [getContributor, if_neg hname] at h
      rw [List.cons_append, setContributor, if_neg hname, ih h]
      rfl

/-- An entry of the store after a write is the written one or an entry of the store before. -/
theorem mem_setContributor (contributors : List (String × Contributor)) (author : String)
    (data : Contributor) (entry : String × Contributor)
    (h : entry ∈ setContributor contributors author data) :
    entry = (author, data) ∨ entry ∈ contributors := by
  induction contributors with
  | nil =>
    simp only [setContributor, List.mem_singleton] at h
    exact Or.inl h
  | cons head rest ih =>
    obtain ⟨name, old⟩ := head
    by_cases hname : name = author
    · rw [setContributor, if_pos hname, List.mem_cons] at h
      rcases h with h | h
      · left
        rw [h, hname]
      · exact Or.inr (List.mem_cons_of_mem _ h)
    · rw [setContributor, if_neg hname, List.mem_cons] at h
      rcases h with h | h
      · right
        rw [h]
        exact List.mem_cons_self _ _
      · rcases ih h with h' | h'
        · exact Or.inl h'
        · exact Or.inr (List.mem_cons_of_mem _ h')

/-- The entries of the store after a write that are not under the written key are those of
the store before, in the same order. -/
theorem filter_ne_setContributor (contributors : List (String × Contributor)) (author : String)
    (data : Contributor) :
    (setContributor contributors author data).filter (fun entry => decide (entry.1 ≠ author)) =
      contributors.filter (fun entry => decide (entry.1 ≠ author)) := by
  induction contributors with
  | nil => simp [setContributor]
  | cons head rest ih =>
    obtain ⟨name, old⟩ := head
    by_cases hname : name = author
    · rw [setContributor, if_pos hname]
      simp [List.filter_cons, hname]
    · rw [setContributor, if_neg hname, List.filter_cons, List.filter_cons, ih]

/-- The keys of the store after a write: the keys before, followed by the written key when it
was absent. -/
theorem keys_setContributor (contributors : List (String × Contributor)) (author : String)
    (data : Contributor) :
    (setContributor contributors author data).map (fun entry => entry.1) =
      if (getContributor contributors author).isSome then
        contributors.map (fun entry => entry.1)
      else contributors.map (fun entry => entry.1) ++ [author] := by
  induction contributors with
  | nil => simp [setContributor, getContributor]
  | cons head rest ih =>
    obtain ⟨name, old⟩ := head
    by_cases hname : name = author
    · simp [setContributor, getContributor, hname]
    · simp only [setContributor, getContributor, if_neg hname, List.map_cons, ih]
      split_ifs <;> rfl

/-- The store of contributors that an update saves, from the store it has loaded. -/
theorem contributors_updateLeaderboard (context : Context) (now : Int)
    (leaderboard : Leaderboard) (prData : PRData) :
    (updateLeaderboard context now leaderboard prData).leaderboard.contributors =
      setContributor (initContributor leaderboard.contributors prData.author) prData.author
        (recordMerge context prData
          (finalEloChange ((recordBefore leaderboard prData.author).elo : ℝ)
            (recordBefore leaderboard prData.author).prs prData)
          (calculateTaskDifficulty prData) (recordBefore leaderboard prData.author)) := by
  simp only [updateLeaderboard, getContributor_initContributor_self, Option.getD_some,
    recordBefore_eq]

/-- An entry of the store after an update is the new record of the author or an entry of the
store before. -/
theorem mem_updateLeaderboard (context : Context) (now : Int) (leaderboard : Leaderboard)
    (prData : PRData) (entry : String × Contributor)
    (h : entry ∈ (updateLeaderboard context now leaderboard prData).leaderboard.contributors) :
    entry = (prData.author, recordMerge context prData
        (finalEloChange ((recordBefore leaderboard prData.author).elo : ℝ)
          (recordBefore leaderboard prData.author).prs prData)
        (calculateTaskDifficulty prData) (recordBefore leaderboard prData.author)) ∨
      entry ∈ leaderboard.contributors := by
  rw [contributors_updateLeaderboard] at h
  unfold initContributor at h
  cases hget : getContributor leaderboard.contributors prData.author with
  | none =>
    rw [hget] at h
    simp only at h
    rw [setContributor_of_absent _ _ _ hget, setContributor_append_of_absent _ _ _ _ hget,
      List.mem_append, List.mem_singleton] at h
    rcases h with h | h
    · exact Or.inr h
    · exact Or.inl h
  | some old =>
    rw [hget] at h
    exact mem_setContributor _ _ _ _ h

/-- An update keeps every record with at least one pull request. -/
theorem prsPositive_updateLeaderboard (context : Context) (now : Int)
    (leaderboard : Leaderboard) (prData : PRData) (h : prsPositive leaderboard) :
    prsPositive (updateLeaderboard context now leaderboard prData).leaderboard := by
  intro entry hentry
  rcases mem_updateLeaderboard context now leaderboard prData entry hentry with hnew | hold
  · rw [hnew]
    simp only [recordMerge]
    omega
  · exact h entry hold

/-- A row written by the loop is the row of one of the entries. -/
theorem mem_tableRowsFrom (entries : List (String × Contributor)) (start : Nat) (row : Row)
    (h : row ∈ tableRowsFrom start entries) :
    ∃ index, ∃ entry ∈ entries, row = tableRow index entry := by
  induction entries generalizing start with
  | nil => simp [tableRowsFrom] at h
  | cons head rest ih =>
    rw [tableRowsFrom, List.mem_cons] at h
    rcases h with h | h
    · exact ⟨start, head, List.mem_cons_self _ _, h⟩
    · obtain ⟨index, entry, hentry, hrow⟩ := ih (start + 1) h
      exact ⟨index, entry, List.mem_cons_of_mem _ hentry, hrow⟩

/-- C21: in a store reached from the fresh empty store by processing events every record has
`prs ≥ 1`, so the division `totalDifficulty / prs` of every row of the table is a division by
a positive count and the average is a number; the division has no guard, and a record with
`prs = 0` would get no finite average. -/
theorem processEvents_prs_positive :
    (∀ (now : Int) (events : List MergeEvent),
      ∀ entry ∈ (processEvents (freshLeaderboard now) events).contributors, 1 ≤ entry.2.prs) ∧
    (∀ (now : Int) (events : List MergeEvent) (name : String) (data : Contributor),
      getContributor (processEvents (freshLeaderboard now) events).contributors name =
        some data → 1 ≤ data.prs) ∧
    (∀ (now : Int) (events : List MergeEvent),
      ∀ row ∈ tableRows (processEvents (freshLeaderboard now) events),
        row.prs ≠ 0 ∧ ∃ average : Int, row.avgDifficulty = some average) ∧
    (∀ (index : Nat) (entry : String × Contributor),
      (entry.2.prs ≠ 0 → (tableRow index entry).avgDifficulty =
        some (mathRound ((entry.2.totalDifficulty : ℚ) / (entry.2.prs : ℚ)))) ∧
      (entry.2.prs = 0 → (tableRow index entry).avgDifficulty = none)) := by
  have hreach : ∀ (now : Int) (events : List MergeEvent),
      prsPositive (processEvents (freshLeaderboard now) events) := by
    intro now events
    have hfresh : prsPositive (freshLeaderboard now) := by
      intro entry hentry
      simp [freshLeaderboard] at hentry
    generalize freshLeaderboard now = leaderboard at hfresh
    induction events generalizing leaderboard with
    | nil => exact hfresh
    | cons event rest ih =>
      rw [processEvents_cons]
      exact ih _ (prsPositive_updateLeaderboard _ _ _ _ hfresh)
  refine ⟨hreach, ?_, ?_, ?_⟩
  · intro now events name data hdata
    exact hreach now events (name, data) (mem_of_getContributor _ _ _ hdata)
  · intro now events row hrow
    obtain ⟨index, entry, hentry, hrow⟩ := mem_tableRowsFrom _ _ _ hrow
    have hmem : entry ∈ (processEvents (freshLeaderboard now) events).contributors :=
      (List.perm_insertionSort eloOrder _).mem_iff.mp hentry
    have hpos : 1 ≤ entry.2.prs := hreach now events entry hmem
    have hne : ¬ entry.2.prs = 0 := by omega
    rw [hrow]
    refine ⟨hne, mathRound ((entry.2.totalDifficulty : ℚ) / (entry.2.prs : ℚ)), ?_⟩
    simp only [tableRow, if_neg hne]
  · intro index entry
    constructor
    · intro hne
      simp only [tableRow, if_neg hne]
    · intro hzero
      simp only [tableRow, if_pos hzero]

/-- C22: processing an event of `author` leaves the record of every other contributor as it
was (rating, count, total difficulty and history), adds and removes no other contributor and
keeps their order, and creates the record of `author`, after the others, only when the store had
none; besides that record it changes the counter `totalPRs`, which grows by one, and the stamp
`lastUpdated` that the save writes. -/
theorem updateLeaderboard_frame (context : Context) (now : Int) (leaderboard : Leaderboard)
    (prData : PRData) :
    (∀ other : String, other ≠ prData.author →
      getContributor (updateLeaderboard context now leaderboard prData).leaderboard.contributors
        other = getContributor leaderboard.contributors other) ∧
    (updateLeaderboard context now leaderboard prData).leaderboard.contributors.filter
        (fun entry => decide (entry.1 ≠ prData.author)) =
      leaderboard.contributors.filter (fun entry => decide (entry.1 ≠ prData.author)) ∧
    (updateLeaderboard context now leaderboard prData).leaderboard.contributors.map
        (fun entry => entry.1) =
      (if (getContributor leaderboard.contributors prData.author).isSome then
        leaderboard.contributors.map (fun entry => entry.1)
      else leaderboard.contributors.map (fun entry => entry.1) ++ [prData.author]) ∧
    (updateLeaderboard context now leaderboard prData).leaderboard.totalPRs =
      leaderboard.totalPRs + 1 ∧
    (updateLeaderboard context now leaderboard prData).leaderboard.lastUpdated = now := by
  refine ⟨?_, ?_, ?_, rfl, rfl⟩
  · intro other hne
    simp only [updateLeaderboard, getContributor_setContributor_ne _ _ _ _ hne,
      getContributor_initContributor_ne _ _ _ hne]
  · rw [contributors_updateLeaderboard, filter_ne_setContributor]
    unfold initContributor
    cases hget : getContributor leaderboard.contributors prData.author with
    | none => exact filter_ne_setContributor _ _ _
    | some old => rfl
  · rw [contributors_updateLeaderboard, keys_setContributor,
      getContributor_initContributor_self, Option.isSome_some, if_pos rfl]
    unfold initContributor
    cases hget : getContributor leaderboard.contributors prData.author with
    | none =>
      simp only [Option.isSome_none, Bool.false_eq_true, if_false]
      rw [keys_setContributor, hget]
      rfl
    | some old => rfl

/-- Witness of C22: an event of `ada` on the store that holds `bob` leaves the record of `bob`
as it was. -/
theorem updateLeaderboard_frame_witness :
    getContributor
      (updateLeaderboard (eventOf "ada").context 0 storeOfBob
        (eventOf "ada").prData).leaderboard.contributors "bob" =
      getContributor storeOfBob.contributors "bob" :=
  (updateLeaderboard_frame (eventOf "ada").context 0 storeOfBob (eventOf "ada").prData).1 "bob"
    (by decide)

/-! ### The expected score in doubles -/

/-- The exponent of the leading bit of a positive rational. -/
theorem log_two_eq (q : ℚ) (e : ℤ) (hq : 0 < q) (h1 : (2 : ℚ) ^ e ≤ q)
    (h2 : q < (2 : ℚ) ^ (e + 1)) : Int.log 2 q = e := by
  have ha : e ≤ Int.log 2 q :=
    (Int.zpow_le_iff_le_log (by norm_num) hq).mp (by exact_mod_cast h1)
  have hb : Int.log 2 q < e + 1 :=
    (Int.lt_zpow_iff_log_lt (by norm_num) hq).mp (by exact_mod_cast h2)
  omega

/-- The double nearest to a positive rational whose leading bit has the exponent `e`. -/
theorem toDouble_of_pos (q : ℚ) (e n : ℤ) (hq : 0 < q) (h1 : (2 : ℚ) ^ e ≤ q)
    (h2 : q < (2 : ℚ) ^ (e + 1)) (hn : roundHalfEven (q / 2 ^ (e - 52)) = n) :
    toDouble q = (n : ℚ) * 2 ^ (e - 52) := by
  rw [toDouble, if_neg (ne_of_gt hq), if_pos hq, log_two_eq q e hq h1 h2, hn]

/-- The double nearest to a negative rational. -/
theorem toDouble_of_neg (q : ℚ) (e n : ℤ) (hq : 0 < q) (h1 : (2 : ℚ) ^ e ≤ q)
    (h2 : q < (2 : ℚ) ^ (e + 1)) (hn : roundHalfEven (q / 2 ^ (e - 52)) = n) :
    toDouble (-q) = -((n : ℚ) * 2 ^ (e - 52)) := by
  have hneg : ¬ (0 : ℚ) < -q := by linarith
  have hne : -q ≠ 0 := by linarith
  rw [toDouble, if_neg hne, if_neg hneg, neg_neg, log_two_eq q e hq h1 h2, hn]

/-- A rational less than one half above an integer rounds to that integer. -/
theorem roundHalfEven_of_lt (x : ℚ) (n : ℤ) (h1 : (n : ℚ) ≤ x) (h2 : x - n < 1 / 2) :
    roundHalfEven x = n := by
  have hfloor : ⌊x⌋ = n := by
    rw [Int.floor_eq_iff]
    constructor
    · exact h1
    · linarith
  rw [roundHalfEven, hfloor, if_pos h2]

/-- A rational less than one half below an integer rounds to that integer. -/
theorem roundHalfEven_of_gt (x : ℚ) (n : ℤ) (h1 : x < n) (h2 : 1 / 2 < x - (n - 1)) :
    roundHalfEven x = n := by
  have hfloor : ⌊x⌋ = n - 1 := by
    rw [Int.floor_eq_iff]
    push_cast
    constructor
    · linarith
    · linarith
  have h3 : ¬ x - ((n - 1 : ℤ) : ℚ) < 1 / 2 := by
    push_cast
    linarith
  have h4 : 1 / 2 < x - ((n - 1 : ℤ) : ℚ) := by
    push_cast
    linarith
  rw [roundHalfEven, hfloor, if_neg h3, if_pos h4]
  omega

/-- The difference `1200 - 2400` is a double. -/
theorem double_diff_2400_1200 :
    toDouble ((1200 : ℚ) - 2400) =
      -(((5277655813324800 : ℤ) : ℚ) * 2 ^ ((10 : ℤ) - 52)) := by
  have hneg : (1200 : ℚ) - 2400 = -(1200 : ℚ) := by norm_num
  rw [hneg]
  exact toDouble_of_neg _ (10) (5277655813324800) (by norm_num) (by norm_num) (by norm_num)
    (roundHalfEven_of_lt _ _ (by norm_num) (by norm_num))

/-- The quotient `(1200 - 2400) / 400` is the double `-3`. -/
theorem double_exponent_2400_1200 :
    toDouble ((-(((5277655813324800 : ℤ) : ℚ) * 2 ^ ((10 : ℤ) - 52))) / 400) =
      -(((6755399441055744 : ℤ) : ℚ) * 2 ^ ((1 : ℤ) - 52)) := by
  have hneg : (-(((5277655813324800 : ℤ) : ℚ) * 2 ^ ((10 : ℤ) - 52))) / 400 = -(3 : ℚ) := by norm_num
  rw [hneg]
  exact toDouble_of_neg _ (1) (6755399441055744) (by norm_num) (by norm_num) (by norm_num)
    (roundHalfEven_of_lt _ _ (by norm_num) (by norm_num))

/-- The double nearest to `10 ^ -3`. -/
theorem double_power_2400_1200 :
    toDouble ((10 : ℚ) ^ (-3 : ℤ)) =
      ((4611686018427388 : ℤ) : ℚ) * 2 ^ ((-10 : ℤ) - 52) :=
  toDouble_of_pos _ (-10) (4611686018427388) (by norm_num) (by norm_num) (by norm_num)
    (roundHalfEven_of_gt _ _ (by norm_num) (by norm_num))

/-- The double sum `1 + Math.pow(10, -3)`. -/
theorem double_denominator_2400_1200 :
    toDouble (1 + ((4611686018427388 : ℤ) : ℚ) * 2 ^ ((-10 : ℤ) - 52)) =
      ((4508103226997866 : ℤ) : ℚ) * 2 ^ ((0 : ℤ) - 52) :=
  toDouble_of_pos _ (0) (4508103226997866) (by norm_num) (by norm_num) (by norm_num)
    (roundHalfEven_of_lt _ _ (by norm_num) (by norm_num))

/-- The double quotient `1 / (1 + Math.pow(10, -3))`. -/
theorem double_quotient_2400_1200 :
    toDouble (1 / (((4508103226997866 : ℤ) : ℚ) * 2 ^ ((0 : ℤ) - 52))) =
      ((8998201053687306 : ℤ) : ℚ) * 2 ^ ((-1 : ℤ) - 52) :=
  toDouble_of_pos _ (-1) (8998201053687306) (by norm_num) (by norm_num) (by norm_num)
    (roundHalfEven_of_gt _ _ (by norm_num) (by norm_num))

/-- The difference `2400 - 1200` is a double. -/
theorem double_diff_1200_2400 :
    toDouble ((2400 : ℚ) - 1200) =
      ((5277655813324800 : ℤ) : ℚ) * 2 ^ ((10 : ℤ) - 52) :=
  toDouble_of_pos _ (10) (5277655813324800) (by norm_num) (by norm_num) (by norm_num)
    (roundHalfEven_of_lt _ _ (by norm_num) (by norm_num))

/-- The quotient `(2400 - 1200) / 400` is the double `3`. -/
theorem double_exponent_1200_2400 :
    toDouble ((((5277655813324800 : ℤ) : ℚ) * 2 ^ ((10 : ℤ) - 52)) / 400) =
      ((6755399441055744 : ℤ) : ℚ) * 2 ^ ((1 : ℤ) - 52) :=
  toDouble_of_pos _ (1) (6755399441055744) (by norm_num) (by norm_num) (by norm_num)
    (roundHalfEven_of_lt _ _ (by norm_num) (by norm_num))

/-- The double nearest to `10 ^ 3`. -/
theorem double_power_1200_2400 :
    toDouble ((10 : ℚ) ^ (3 : ℤ)) =
      ((8796093022208000 : ℤ) : ℚ) * 2 ^ ((9 : ℤ) - 52) :=
  toDouble_of_pos _ (9) (8796093022208000) (by norm_num) (by norm_num) (by norm_num)
    (roundHalfEven_of_lt _ _ (by norm_num) (by norm_num))

/-- The double sum `1 + Math.pow(10, 3)`. -/
theorem double_denominator_1200_2400 :
    toDouble (1 + ((8796093022208000 : ℤ) : ℚ) * 2 ^ ((9 : ℤ) - 52)) =
      ((8804889115230208 : ℤ) : ℚ) * 2 ^ ((9 : ℤ) - 52) :=
  toDouble_of_pos _ (9) (8804889115230208) (by norm_num) (by norm_num) (by norm_num)
    (roundHalfEven_of_lt _ _ (by norm_num) (by norm_num))

/-- The double quotient `1 / (1 + Math.pow(10, 3))`. -/
theorem double_quotient_1200_2400 :
    toDouble (1 / (((8804889115230208 : ℤ) : ℚ) * 2 ^ ((9 : ℤ) - 52))) =
      ((4607078939487900 : ℤ) : ℚ) * 2 ^ ((-10 : ℤ) - 52) :=
  toDouble_of_pos _ (-10) (4607078939487900) (by norm_num) (by norm_num) (by norm_num)
    (roundHalfEven_of_lt _ _ (by norm_num) (by norm_num))

/-- The difference `0 - 20000` is a double. -/
theorem double_diff_20000_0 :
    toDouble ((0 : ℚ) - 20000) =
      -(((5497558138880000 : ℤ) : ℚ) * 2 ^ ((14 : ℤ) - 52)) := by
  have hneg : (0 : ℚ) - 20000 = -(20000 : ℚ) := by norm_num
  rw [hneg]
  exact toDouble_of_neg _ (14) (5497558138880000) (by norm_num) (by norm_num) (by norm_num)
    (roundHalfEven_of_lt _ _ (by norm_num) (by norm_num))

/-- The quotient `(0 - 20000) / 400` is the double `-50`. -/
theorem double_exponent_20000_0 :
    toDouble ((-(((5497558138880000 : ℤ) : ℚ) * 2 ^ ((14 : ℤ) - 52))) / 400) =
      -(((7036874417766400 : ℤ) : ℚ) * 2 ^ ((5 : ℤ) - 52)) := by
  have hneg : (-(((5497558138880000 : ℤ) : ℚ) * 2 ^ ((14 : ℤ) - 52))) / 400 = -(50 : ℚ) := by norm_num
  rw [hneg]
  exact toDouble_of_neg _ (5) (7036874417766400) (by norm_num) (by norm_num) (by norm_num)
    (roundHalfEven_of_lt _ _ (by norm_num) (by norm_num))

/-- The double nearest to `10 ^ -50`. -/
theorem double_power_20000_0 :
    toDouble ((10 : ℚ) ^ (-50 : ℤ)) =
      ((8424983333484575 : ℤ) : ℚ) * 2 ^ ((-167 : ℤ) - 52) :=
  toDouble_of_pos _ (-167) (8424983333484575) (by norm_num) (by norm_num) (by norm_num)
    (roundHalfEven_of_gt _ _ (by norm_num) (by norm_num))

/-- The double sum `1 + Math.pow(10, -50)`. -/
theorem double_denominator_20000_0 :
    toDouble (1 + ((8424983333484575 : ℤ) : ℚ) * 2 ^ ((-167 : ℤ) - 52)) =
      ((4503599627370496 : ℤ) : ℚ) * 2 ^ ((0 : ℤ) - 52) :=
  toDouble_of_pos _ (0) (4503599627370496) (by norm_num) (by norm_num) (by norm_num)
    (roundHalfEven_of_lt _ _ (by norm_num) (by norm_num))

/-- The double quotient `1 / (1 + Math.pow(10, -50))`. -/
theorem double_quotient_20000_0 :
    toDouble (1 / (((4503599627370496 : ℤ) : ℚ) * 2 ^ ((0 : ℤ) - 52))) =
      ((4503599627370496 : ℤ) : ℚ) * 2 ^ ((0 : ℤ) - 52) :=
  toDouble_of_pos _ (0) (4503599627370496) (by norm_num) (by norm_num) (by norm_num)
    (roundHalfEven_of_lt _ _ (by norm_num) (by norm_num))

/-- The difference `0 - 10000` is a double. -/
theorem double_diff_10000_0 :
    toDouble ((0 : ℚ) - 10000) =
      -(((5497558138880000 : ℤ) : ℚ) * 2 ^ ((13 : ℤ) - 52)) := by
  have hneg : (0 : ℚ) - 10000 = -(10000 : ℚ) := by norm_num
  rw [hneg]
  exact toDouble_of_neg _ (13) (5497558138880000) (by norm_num) (by norm_num) (by norm_num)
    (roundHalfEven_of_lt _ _ (by norm_num) (by norm_num))

/-- The quotient `(0 - 10000) / 400` is the double `-25`. -/
theorem double_exponent_10000_0 :
    toDouble ((-(((5497558138880000 : ℤ) : ℚ) * 2 ^ ((13 : ℤ) - 52))) / 400) =
      -(((7036874417766400 : ℤ) : ℚ) * 2 ^ ((4 : ℤ) - 52)) := by
  have hneg : (-(((5497558138880000 : ℤ) : ℚ) * 2 ^ ((13 : ℤ) - 52))) / 400 = -(25 : ℚ) := by norm_num
  rw [hneg]
  exact toDouble_of_neg _ (4) (7036874417766400) (by norm_num) (by norm_num) (by norm_num)
    (roundHalfEven_of_lt _ _ (by norm_num) (by norm_num))

/-- The double nearest to `10 ^ -25`. -/
theorem double_power_10000_0 :
    toDouble ((10 : ℚ) ^ (-25 : ℤ)) =
      ((8711228593176025 : ℤ) : ℚ) * 2 ^ ((-84 : ℤ) - 52) :=
  toDouble_of_pos _ (-84) (8711228593176025) (by norm_num) (by norm_num) (by norm_num)
    (roundHalfEven_of_gt _ _ (by norm_num) (by norm_num))

/-- The double sum `1 + Math.pow(10, -25)`. -/
theorem double_denominator_10000_0 :
    toDouble (1 + ((8711228593176025 : ℤ) : ℚ) * 2 ^ ((-84 : ℤ) - 52)) =
      ((4503599627370496 : ℤ) : ℚ) * 2 ^ ((0 : ℤ) - 52) :=
  toDouble_of_pos _ (0) (4503599627370496) (by norm_num) (by norm_num) (by norm_num)
    (roundHalfEven_of_lt _ _ (by norm_num) (by norm_num))

/-- The double quotient `1 / (1 + Math.pow(10, -25))`. -/
theorem double_quotient_10000_0 :
    toDouble (1 / (((4503599627370496 : ℤ) : ℚ) * 2 ^ ((0 : ℤ) - 52))) =
      ((4503599627370496 : ℤ) : ℚ) * 2 ^ ((0 : ℤ) - 52) :=
  toDouble_of_pos _ (0) (4503599627370496) (by norm_num) (by norm_num) (by norm_num)
    (roundHalfEven_of_lt _ _ (by norm_num) (by norm_num))

/-- The double sum of the two expected scores of the ratings 2400 and 1200. -/
theorem double_sum_swap :
    toDouble (((8998201053687306 : ℤ) : ℚ) * 2 ^ ((-1 : ℤ) - 52) + ((4607078939487900 : ℤ) : ℚ) * 2 ^ ((-10 : ℤ) - 52)) =
      ((4503599627370497 : ℤ) : ℚ) * 2 ^ ((0 : ℤ) - 52) :=
  toDouble_of_pos _ (0) (4503599627370497) (by norm_num) (by norm_num) (by norm_num)
    (roundHalfEven_of_gt _ _ (by norm_num) (by norm_num))

/-- The double `expectedScore(2400, 1200)`, which prints as 0.9990009990009991. -/
theorem expectedScoreDouble_2400_1200 :
    expectedScoreDouble 2400 1200 = some (((8998201053687306 : ℤ) : ℚ) * 2 ^ ((-1 : ℤ) - 52)) := by
  unfold expectedScoreDouble
  rw [double_diff_2400_1200, double_exponent_2400_1200]
  have hx : -(((6755399441055744 : ℤ) : ℚ) * 2 ^ ((1 : ℤ) - 52)) = ((-3 : ℤ) : ℚ) := by norm_num
  have hp : pow10Double (((-3 : ℤ) : ℚ)) = some (toDouble ((10 : ℚ) ^ (-3 : ℤ))) := by
    simp [pow10Double]
  rw [hx, hp, Option.map_some', double_power_2400_1200, double_denominator_2400_1200,
    double_quotient_2400_1200]

/-- The double `expectedScore(1200, 2400)`, which prints as 0.000999000999000999. -/
theorem expectedScoreDouble_1200_2400 :
    expectedScoreDouble 1200 2400 = some (((4607078939487900 : ℤ) : ℚ) * 2 ^ ((-10 : ℤ) - 52)) := by
  unfold expectedScoreDouble
  rw [double_diff_1200_2400, double_exponent_1200_2400]
  have hx : ((6755399441055744 : ℤ) : ℚ) * 2 ^ ((1 : ℤ) - 52) = ((3 : ℤ) : ℚ) := by norm_num
  have hp : pow10Double (((3 : ℤ) : ℚ)) = some (toDouble ((10 : ℚ) ^ (3 : ℤ))) := by
    simp [pow10Double]
  rw [hx, hp, Option.map_some', double_power_1200_2400, double_denominator_1200_2400,
    double_quotient_1200_2400]

/-- C2, as the claim states it, fails: in the doubles the code computes with,
`expectedScore(2400, 1200) + expectedScore(1200, 2400)` is `1 + 2 ^ (-52)`, which prints as
1.0000000000000002, and not 1. -/
theorem expectedScoreDouble_swap_sum_ne_one :
    expectedScoreDouble 2400 1200 = some (((8998201053687306 : ℤ) : ℚ) * 2 ^ ((-1 : ℤ) - 52)) ∧
    expectedScoreDouble 1200 2400 = some (((4607078939487900 : ℤ) : ℚ) * 2 ^ ((-10 : ℤ) - 52)) ∧
    toDouble (((8998201053687306 : ℤ) : ℚ) * 2 ^ ((-1 : ℤ) - 52) + ((4607078939487900 : ℤ) : ℚ) * 2 ^ ((-10 : ℤ) - 52)) = 1 + 1 / 2 ^ 52 ∧
    toDouble (((8998201053687306 : ℤ) : ℚ) * 2 ^ ((-1 : ℤ) - 52) + ((4607078939487900 : ℤ) : ℚ) * 2 ^ ((-10 : ℤ) - 52)) ≠ 1 := by
  refine ⟨expectedScoreDouble_2400_1200, expectedScoreDouble_1200_2400, ?_, ?_⟩
  · rw [double_sum_swap]
    norm_num
  · rw [double_sum_swap]
    norm_num

/-- C4, as the claim states it, fails: in the doubles the code computes with,
`expectedScore(20000, 0)` and `expectedScore(10000, 0)` are both exactly 1, although the first
rating difference is the greater. -/
theorem expectedScoreDouble_saturates :
    (20000 : ℚ) - 0 > 10000 - 0 ∧
    expectedScoreDouble 20000 0 = some 1 ∧
    expectedScoreDouble 10000 0 = some 1 ∧
    ¬ (1 : ℚ) > 1 := by
  refine ⟨by norm_num, ?_, ?_, by norm_num⟩
  · have h : expectedScoreDouble 20000 0 = some (((4503599627370496 : ℤ) : ℚ) * 2 ^ ((0 : ℤ) - 52)) := by
      unfold expectedScoreDouble
      rw [double_diff_20000_0, double_exponent_20000_0]
      have hx : -(((7036874417766400 : ℤ) : ℚ) * 2 ^ ((5 : ℤ) - 52)) = ((-50 : ℤ) : ℚ) := by norm_num
      have hp : pow10Double (((-50 : ℤ) : ℚ)) = some (toDouble ((10 : ℚ) ^ (-50 : ℤ))) := by
        simp [pow10Double]
      rw [hx, hp, Option.map_some', double_power_20000_0, double_denominator_20000_0,
        double_quotient_20000_0]

    rw [h]
    norm_num
  · have h : expectedScoreDouble 10000 0 = some (((4503599627370496 : ℤ) : ℚ) * 2 ^ ((0 : ℤ) - 52)) := by
      unfold expectedScoreDouble
      rw [double_diff_10000_0, double_exponent_10000_0]
      have hx : -(((7036874417766400 : ℤ) : ℚ) * 2 ^ ((4 : ℤ) - 52)) = ((-25 : ℤ) : ℚ) := by norm_num
      have hp : pow10Double (((-25 : ℤ) : ℚ)) = some (toDouble ((10 : ℚ) ^ (-25 : ℤ))) := by
        simp [pow10Double]
      rw [hx, hp, Option.map_some', double_power_10000_0, double_denominator_10000_0,
        double_quotient_10000_0]

    rw [h]
    norm_num

/-- Rounding to the nearest integer moves a rational by at most one half. -/
theorem roundHalfEven_sub_le (x : ℚ) :
    -(1 / 2) ≤ (roundHalfEven x : ℚ) - x ∧ (roundHalfEven x : ℚ) - x ≤ 1 / 2 := by
  have h1 : (⌊x⌋ : ℚ) ≤ x := Int.floor_le x
  have h2 : x < (⌊x⌋ : ℚ) + 1 := Int.lt_floor_add_one x
  unfold roundHalfEven
  split_ifs with ha hb hc
  · constructor <;> linarith
  · push_cast
    constructor <;> linarith
  · constructor <;> linarith
  · push_cast
    constructor <;> linarith

/-- Rounding to the nearest integer leaves an integer as it is. -/
theorem roundHalfEven_intCast (n : ℤ) : roundHalfEven (n : ℚ) = n := by
  unfold roundHalfEven
  rw [Int.floor_intCast, sub_self, if_pos (by norm_num)]

/-- Rounding to the nearest integer is monotone. -/
theorem roundHalfEven_mono (x y : ℚ) (h : x ≤ y) : roundHalfEven x ≤ roundHalfEven y := by
  by_contra hlt
  have hlt2 : roundHalfEven y + 1 ≤ roundHalfEven x := by omega
  have hq : ((roundHalfEven y : ℤ) : ℚ) + 1 ≤ (roundHalfEven x : ℚ) := by exact_mod_cast hlt2
  obtain ⟨-, hx⟩ := roundHalfEven_sub_le x
  obtain ⟨hy, -⟩ := roundHalfEven_sub_le y
  have heq : x = y := by linarith
  subst heq
  omega

/-- The scale of the last bit of a positive rational, and the rational in units of it. -/
theorem scaled_bounds (q : ℚ) (hq : 0 < q) :
    0 < (2 : ℚ) ^ (Int.log 2 q - 52) ∧
    (2 : ℚ) ^ (Int.log 2 q - 52) * 2 ^ 52 ≤ q ∧
    q < (2 : ℚ) ^ (Int.log 2 q - 52) * 2 ^ 53 := by
  have h1 : ((2 : ℕ) : ℚ) ^ Int.log 2 q ≤ q := Int.zpow_log_le_self (by norm_num) hq
  have h2 : q < ((2 : ℕ) : ℚ) ^ (Int.log 2 q + 1) := Int.lt_zpow_succ_log_self (by norm_num) q
  push_cast at h1 h2
  have hs : 0 < (2 : ℚ) ^ (Int.log 2 q - 52) := zpow_pos (by norm_num) _
  have e1 : (2 : ℚ) ^ (Int.log 2 q - 52) * 2 ^ 52 = (2 : ℚ) ^ Int.log 2 q := by
    rw [zpow_sub₀ (by norm_num)]
    norm_num
  have e2 : (2 : ℚ) ^ (Int.log 2 q - 52) * 2 ^ 53 = (2 : ℚ) ^ (Int.log 2 q + 1) := by
    rw [zpow_sub₀ (by norm_num), zpow_add₀ (by norm_num)]
    norm_num
    ring
  rw [e1, e2]
  exact ⟨hs, h1, h2⟩

/-- The double nearest to a positive rational differs from it by at most the fraction `2 ^ (-53)`
of it. -/
theorem toDouble_sub_le (q : ℚ) (hq : 0 < q) :
    -(q / 2 ^ 53) ≤ toDouble q - q ∧ toDouble q - q ≤ q / 2 ^ 53 := by
  obtain ⟨hs, hlo, -⟩ := scaled_bounds q hq
  obtain ⟨r1, r2⟩ := roundHalfEven_sub_le (q / 2 ^ (Int.log 2 q - 52))
  rw [toDouble, if_neg (ne_of_gt hq), if_pos hq]
  generalize (2 : ℚ) ^ (Int.log 2 q - 52) = s at hs hlo r1 r2 ⊢
  generalize (roundHalfEven (q / s) : ℚ) = n at r1 r2 ⊢
  have hdiv : q / s * s = q := div_mul_cancel₀ q (ne_of_gt hs)
  have k1 : -(s / 2) ≤ n * s - q := by nlinarith
  have k2 : n * s - q ≤ s / 2 := by nlinarith
  have k3 : s / 2 ≤ q / 2 ^ 53 := by
    rw [le_div_iff₀ (by norm_num)]
    linarith
  constructor <;> linarith

/-- Rounding to a double commutes with the change of sign. -/
theorem toDouble_neg (q : ℚ) : toDouble (-q) = -toDouble q := by
  rcases lt_trichotomy q 0 with h | h | h
  · have h1 : ¬ (0 : ℚ) < q := by linarith
    rw [toDouble, if_neg (by linarith), if_pos (by linarith), toDouble, if_neg (ne_of_lt h),
      if_neg h1, neg_neg]
  · subst h
    simp [toDouble]
  · have h1 : ¬ (0 : ℚ) < -q := by linarith
    rw [toDouble, if_neg (by linarith), if_neg h1, neg_neg, toDouble, if_neg (ne_of_gt h),
      if_pos h]

/-- The double nearest to a positive rational is positive. -/
theorem toDouble_pos (q : ℚ) (hq : 0 < q) : 0 < toDouble q := by
  obtain ⟨h1, -⟩ := toDouble_sub_le q hq
  have h2 : q / 2 ^ 53 < q := by
    rw [div_lt_iff₀ (by norm_num)]
    nlinarith
  linarith

/-- The double nearest to a positive rational lies within the factors `1 - 2 ^ (-53)` and
`1 + 2 ^ (-53)` of it. -/
theorem toDouble_factor (q : ℚ) (hq : 0 < q) :
    q * (1 - 1 / 2 ^ 53) ≤ toDouble q ∧ toDouble q ≤ q * (1 + 1 / 2 ^ 53) := by
  obtain ⟨h1, h2⟩ := toDouble_sub_le q hq
  constructor
  · have : q * (1 - 1 / 2 ^ 53) = q - q / 2 ^ 53 := by ring
    linarith
  · have : q * (1 + 1 / 2 ^ 53) = q + q / 2 ^ 53 := by ring
    linarith

/-- The three roundings of `1 / (1 + x)`: the double result lies within the factors
`(1 - u) / (1 + u) ^ 2` and `(1 + u) / (1 - u) ^ 2` of the exact value, where `u = 2 ^ (-53)`. -/
theorem double_score_bounds (x : ℚ) (hx : 0 < x) :
    (1 - 1 / 2 ^ 53) / ((1 + 1 / 2 ^ 53) ^ 2 * (1 + x)) ≤
      toDouble (1 / toDouble (1 + toDouble x)) ∧
    toDouble (1 / toDouble (1 + toDouble x)) ≤
      (1 + 1 / 2 ^ 53) / ((1 - 1 / 2 ^ 53) ^ 2 * (1 + x)) := by
  have hu0 : (0 : ℚ) < 1 / 2 ^ 53 := by norm_num
  have hu1 : (1 : ℚ) / 2 ^ 53 < 1 := by norm_num
  have hP := toDouble_pos x hx
  obtain ⟨p1, p2⟩ := toDouble_factor x hx
  have hS := toDouble_pos (1 + toDouble x) (by linarith)
  obtain ⟨s1, s2⟩ := toDouble_factor (1 + toDouble x) (by linarith)
  have hR : 0 < 1 / toDouble (1 + toDouble x) := one_div_pos.mpr hS
  obtain ⟨r1, r2⟩ := toDouble_factor (1 / toDouble (1 + toDouble x)) hR
  generalize toDouble (1 / toDouble (1 + toDouble x)) = E at r1 r2 ⊢
  generalize toDouble (1 + toDouble x) = S at hS s1 s2 hR r1 r2
  generalize toDouble x = P at hP p1 p2 s1 s2
  generalize (1 : ℚ) / 2 ^ 53 = u at hu0 hu1 p1 p2 s1 s2 r1 r2 ⊢
  have hSlo : (1 - u) ^ 2 * (1 + x) ≤ S := by nlinarith
  have hShi : S ≤ (1 + u) ^ 2 * (1 + x) := by nlinarith
  have hlo : 0 < (1 - u) ^ 2 * (1 + x) := mul_pos (pow_pos (by linarith) 2) (by linarith)
  have hhi : 0 < (1 + u) ^ 2 * (1 + x) := by positivity
  constructor
  · have h1 : (1 - u) / ((1 + u) ^ 2 * (1 + x)) ≤ (1 - u) / S :=
      div_le_div_of_nonneg_left (by linarith) hS hShi
    have h2 : (1 - u) / S = 1 / S * (1 - u) := by ring
    linarith
  · have h1 : (1 + u) / S ≤ (1 + u) / ((1 - u) ^ 2 * (1 + x)) :=
      div_le_div_of_nonneg_left (by linarith) hlo hSlo
    have h2 : (1 + u) / S = 1 / S * (1 + u) := by ring
    linarith

/-- The exact values `1 / (1 + x)` and `1 / (1 + 1 / x)` sum to one. -/
theorem inv_add_inv_swap (x : ℚ) (hx : 0 < x) : 1 / (1 + x) + 1 / (1 + x⁻¹) = 1 := by
  field_simp
  ring

/-- The double sum of the double results for `x` and `1 / x` is within `2 ^ (-50)` of one. -/
theorem double_sum_bounds (x : ℚ) (hx : 0 < x) :
    1 - 1 / 2 ^ 50 ≤
      toDouble (toDouble (1 / toDouble (1 + toDouble x)) +
        toDouble (1 / toDouble (1 + toDouble x⁻¹))) ∧
    toDouble (toDouble (1 / toDouble (1 + toDouble x)) +
        toDouble (1 / toDouble (1 + toDouble x⁻¹))) ≤ 1 + 1 / 2 ^ 50 := by
  have hx2 : 0 < x⁻¹ := inv_pos.mpr hx
  obtain ⟨a1, a2⟩ := double_score_bounds x hx
  obtain ⟨b1, b2⟩ := double_score_bounds x⁻¹ hx2
  have hsum := inv_add_inv_swap x hx
  have key : ∀ c d : ℚ, c / (d * (1 + x)) + c / (d * (1 + x⁻¹)) = c / d := by
    intro c d
    have e : ∀ y : ℚ, c / (d * y) = c / d * (1 / y) := by
      intro y
      rw [div_mul_div_comm, mul_one]
    rw [e, e, ← mul_add, hsum, mul_one]
  have s1 : (1 - 1 / 2 ^ 53) / (1 + 1 / 2 ^ 53) ^ 2 ≤
      toDouble (1 / toDouble (1 + toDouble x)) + toDouble (1 / toDouble (1 + toDouble x⁻¹)) :=
    le_trans (le_of_eq (key _ _).symm) (add_le_add a1 b1)
  have s2 : toDouble (1 / toDouble (1 + toDouble x)) + toDouble (1 / toDouble (1 + toDouble x⁻¹)) ≤
      (1 + 1 / 2 ^ 53) / (1 - 1 / 2 ^ 53) ^ 2 :=
    le_trans (add_le_add a2 b2) (le_of_eq (key _ _))
  have hpos : 0 < toDouble (1 / toDouble (1 + toDouble x)) +
      toDouble (1 / toDouble (1 + toDouble x⁻¹)) := by
    have c1 : (0 : ℚ) < (1 - 1 / 2 ^ 53) / (1 + 1 / 2 ^ 53) ^ 2 := by norm_num
    linarith
  obtain ⟨t1, t2⟩ := toDouble_factor _ hpos
  generalize toDouble (toDouble (1 / toDouble (1 + toDouble x)) +
    toDouble (1 / toDouble (1 + toDouble x⁻¹))) = T at t1 t2 ⊢
  generalize toDouble (1 / toDouble (1 + toDouble x)) +
    toDouble (1 / toDouble (1 + toDouble x⁻¹)) = s at s1 s2 hpos t1 t2
  have c1 : (1 : ℚ) - 1 / 2 ^ 50 ≤
      (1 - 1 / 2 ^ 53) / (1 + 1 / 2 ^ 53) ^ 2 * (1 - 1 / 2 ^ 53) := by norm_num
  have c2 : (1 + 1 / 2 ^ 53) / (1 - 1 / 2 ^ 53) ^ 2 * (1 + 1 / 2 ^ 53) ≤
      (1 : ℚ) + 1 / 2 ^ 50 := by norm_num
  have m1 : (1 - 1 / 2 ^ 53) / (1 + 1 / 2 ^ 53) ^ 2 * (1 - 1 / 2 ^ 53) ≤
      s * (1 - 1 / 2 ^ 53) := mul_le_mul_of_nonneg_right s1 (by norm_num)
  have m2 : s * (1 + 1 / 2 ^ 53) ≤
      (1 + 1 / 2 ^ 53) / (1 - 1 / 2 ^ 53) ^ 2 * (1 + 1 / 2 ^ 53) :=
    mul_le_mul_of_nonneg_right s2 (by norm_num)
  constructor <;> linarith

/-- The value of `expectedScoreDouble`, when it has one: the exponent is an integer `n` and the
result is the rounded `1 / (1 + 10 ^ n)`. -/
theorem expectedScoreDouble_eq_some (a b e : ℚ) (h : expectedScoreDouble a b = some e) :
    ∃ n : ℤ, toDouble (toDouble (b - a) / 400) = (n : ℚ) ∧
      e = toDouble (1 / toDouble (1 + toDouble ((10 : ℚ) ^ n))) := by
  unfold expectedScoreDouble pow10Double at h
  by_cases hden : (toDouble (toDouble (b - a) / 400)).den = 1 ∧
      (toDouble (toDouble (b - a) / 400)).num.natAbs ≤ 307
  · rw [if_pos hden, Option.map_some', Option.some.injEq] at h
    exact ⟨_, (Rat.coe_int_num_of_den_eq_one hden.1).symm, h.symm⟩
  · rw [if_neg hden] at h
    exact absurd h (by simp)

/-- The exponents of `expectedScoreDouble a b` and `expectedScoreDouble b a` are opposite. -/
theorem double_exponent_swap (a b : ℚ) :
    toDouble (toDouble (a - b) / 400) = -toDouble (toDouble (b - a) / 400) := by
  rw [← neg_sub b a, toDouble_neg, neg_div, toDouble_neg]

/-- In doubles the two expected scores of a pair of ratings sum to one within `2 ^ (-50)`. -/
theorem expectedScoreDouble_add_swap (a b e1 e2 : ℚ) (h1 : expectedScoreDouble a b = some e1)
    (h2 : expectedScoreDouble b a = some e2) :
    1 - 1 / 2 ^ 50 ≤ toDouble (e1 + e2) ∧ toDouble (e1 + e2) ≤ 1 + 1 / 2 ^ 50 := by
  obtain ⟨n, hn, rfl⟩ := expectedScoreDouble_eq_some a b e1 h1
  obtain ⟨m, hm, rfl⟩ := expectedScoreDouble_eq_some b a e2 h2
  have hmn : m = -n := by
    rw [double_exponent_swap, hn] at hm
    exact_mod_cast hm.symm
  subst hmn
  have hinv : (10 : ℚ) ^ (-n) = ((10 : ℚ) ^ n)⁻¹ := zpow_neg _ _
  rw [hinv]
  exact double_sum_bounds ((10 : ℚ) ^ n) (zpow_pos (by norm_num) n)

/-- The double nearest to a positive rational lies in the binade of the rational. -/
theorem toDouble_binade (q : ℚ) (hq : 0 < q) :
    (2 : ℚ) ^ (Int.log 2 q - 52) * 2 ^ 52 ≤ toDouble q ∧
    toDouble q ≤ (2 : ℚ) ^ (Int.log 2 q - 52) * 2 ^ 53 := by
  obtain ⟨hs, hlo, hhi⟩ := scaled_bounds q hq
  rw [toDouble, if_neg (ne_of_gt hq), if_pos hq]
  have h1 : ((2 ^ 52 : ℤ) : ℚ) ≤ q / 2 ^ (Int.log 2 q - 52) := by
    rw [le_div_iff₀ hs]
    push_cast
    linarith
  have h2 : q / 2 ^ (Int.log 2 q - 52) ≤ ((2 ^ 53 : ℤ) : ℚ) := by
    rw [div_le_iff₀ hs]
    push_cast
    linarith
  have r1 := roundHalfEven_mono _ _ h1
  have r2 := roundHalfEven_mono _ _ h2
  rw [roundHalfEven_intCast] at r1 r2
  have c1 : ((2 ^ 52 : ℤ) : ℚ) ≤ (roundHalfEven (q / 2 ^ (Int.log 2 q - 52)) : ℚ) :=
    Int.cast_le.mpr r1
  have c2 : (roundHalfEven (q / 2 ^ (Int.log 2 q - 52)) : ℚ) ≤ ((2 ^ 53 : ℤ) : ℚ) :=
    Int.cast_le.mpr r2
  push_cast at c1 c2
  constructor <;> nlinarith

/-- Rounding to a double is monotone on the positive rationals. -/
theorem toDouble_mono_pos (q r : ℚ) (hq : 0 < q) (h : q ≤ r) : toDouble q ≤ toDouble r := by
  have hr : 0 < r := lt_of_lt_of_le hq h
  have he : Int.log 2 q ≤ Int.log 2 r := Int.log_mono_right hq h
  rcases eq_or_lt_of_le he with heq | hlt
  · obtain ⟨hs, -, -⟩ := scaled_bounds r hr
    rw [toDouble, if_neg (ne_of_gt hq), if_pos hq, toDouble, if_neg (ne_of_gt hr), if_pos hr,
      heq]
    exact mul_le_mul_of_nonneg_right
      (Int.cast_le.mpr (roundHalfEven_mono _ _ (div_le_div_of_nonneg_right h (le_of_lt hs))))
      (le_of_lt hs)
  · obtain ⟨-, b1⟩ := toDouble_binade q hq
    obtain ⟨b2, -⟩ := toDouble_binade r hr
    have hstep : (2 : ℚ) ^ (Int.log 2 q - 52) * 2 ^ 53 ≤ (2 : ℚ) ^ (Int.log 2 r - 52) * 2 ^ 52 := by
      have e1 : (2 : ℚ) ^ (Int.log 2 q - 52) * 2 ^ 53 = (2 : ℚ) ^ (Int.log 2 q + 1) := by
        rw [zpow_sub₀ (by norm_num), zpow_add₀ (by norm_num)]
        norm_num
        ring
      have e2 : (2 : ℚ) ^ (Int.log 2 r - 52) * 2 ^ 52 = (2 : ℚ) ^ Int.log 2 r := by
        rw [zpow_sub₀ (by norm_num)]
        norm_num
      rw [e1, e2]
      exact zpow_le_zpow_right₀ (by norm_num) (by omega)
    linarith

/-- Rounding to a double is monotone. -/
theorem toDouble_mono (q r : ℚ) (h : q ≤ r) : toDouble q ≤ toDouble r := by
  rcases lt_trichotomy q 0 with hq | hq | hq
  · rcases lt_trichotomy r 0 with hr | hr | hr
    · have h1 := toDouble_mono_pos (-r) (-q) (by linarith) (by linarith)
      rw [toDouble_neg, toDouble_neg] at h1
      linarith
    · subst hr
      have h1 := toDouble_pos (-q) (by linarith)
      rw [toDouble_neg] at h1
      have h2 : toDouble 0 = 0 := by simp [toDouble]
      linarith
    · have h1 := toDouble_pos (-q) (by linarith)
      rw [toDouble_neg] at h1
      have h2 := toDouble_pos r hr
      linarith
  · subst hq
    have h2 : toDouble 0 = 0 := by simp [toDouble]
    rcases eq_or_lt_of_le h with hr | hr
    · rw [← hr]
    · have := toDouble_pos r hr
      linarith
  · exact toDouble_mono_pos q r hq h

/-- In doubles the expected score does not decrease when the rating difference grows. -/
theorem expectedScoreDouble_mono (a b c d e1 e2 : ℚ) (h1 : expectedScoreDouble a b = some e1)
    (h2 : expectedScoreDouble c d = some e2) (h : c - d ≤ a - b) : e2 ≤ e1 := by
  obtain ⟨n, hn, rfl⟩ := expectedScoreDouble_eq_some a b e1 h1
  obtain ⟨m, hm, rfl⟩ := expectedScoreDouble_eq_some c d e2 h2
  have hexp : toDouble (toDouble (b - a) / 400) ≤ toDouble (toDouble (d - c) / 400) :=
    toDouble_mono _ _ (div_le_div_of_nonneg_right (toDouble_mono _ _ (by linarith)) (by norm_num))
  rw [hn, hm] at hexp
  have hnm : n ≤ m := by exact_mod_cast hexp
  have hpow : (10 : ℚ) ^ n ≤ (10 : ℚ) ^ m := zpow_le_zpow_right₀ (by norm_num) hnm
  have hP := toDouble_mono _ _ hpow
  have hPn := toDouble_pos _ (zpow_pos (by norm_num : (0 : ℚ) < 10) n)
  have hS := toDouble_mono (1 + toDouble ((10 : ℚ) ^ n)) (1 + toDouble ((10 : ℚ) ^ m))
    (by linarith)
  have hSn := toDouble_pos (1 + toDouble ((10 : ℚ) ^ n)) (by linarith)
  exact toDouble_mono _ _ (one_div_le_one_div_of_le hSn hS)

/-- The doubles 1, 2 and one half. -/
theorem toDouble_one_two_half : toDouble 1 = 1 ∧ toDouble 2 = 2 ∧ toDouble (1 / 2) = 1 / 2 := by
  refine ⟨?_, ?_, ?_⟩
  · rw [toDouble_of_pos 1 0 (2 ^ 52) (by norm_num) (by norm_num) (by norm_num)
      (roundHalfEven_of_lt _ _ (by norm_num) (by norm_num))]
    norm_num
  · rw [toDouble_of_pos 2 1 (2 ^ 52) (by norm_num) (by norm_num) (by norm_num)
      (roundHalfEven_of_lt _ _ (by norm_num) (by norm_num))]
    norm_num
  · rw [toDouble_of_pos (1 / 2) (-1) (2 ^ 52) (by norm_num) (by norm_num) (by norm_num)
      (roundHalfEven_of_lt _ _ (by norm_num) (by norm_num))]
    norm_num

/-- In doubles the expected score of equal ratings is exactly one half. -/
theorem expectedScoreDouble_self (r : ℚ) : expectedScoreDouble r r = some (1 / 2) := by
  obtain ⟨h1, h2, h3⟩ := toDouble_one_two_half
  have h0 : toDouble 0 = 0 := by simp [toDouble]
  have hp : pow10Double 0 = some (toDouble 1) := by simp [pow10Double]
  rw [expectedScoreDouble, sub_self, h0, zero_div, h0, hp, Option.map_some', h1]
  norm_num
  rw [h2]
  norm_num
  exact h3

/-- C2, amended: for all ratings `a` and `b` the exact values of the formula sum to one,
`expectedScore a b + expectedScore b a = 1`. The doubles that the code computes sum to one only
up to rounding: wherever the exponent `(b - a) / 400` is an integer, the double sum of the two
double results lies within `2 ^ (-50)` of one, and for equal ratings both results are exactly
one half and their sum exactly one. -/
theorem expectedScore_add_swap_rounded :
    (∀ a b : ℝ, expectedScore a b + expectedScore b a = 1) ∧
    (∀ a b e1 e2 : ℚ, expectedScoreDouble a b = some e1 → expectedScoreDouble b a = some e2 →
      |toDouble (e1 + e2) - 1| ≤ 1 / 2 ^ 50) ∧
    (∀ r : ℚ, expectedScoreDouble r r = some (1 / 2) ∧ toDouble (1 / 2 + 1 / 2) = 1) := by
  refine ⟨expectedScore_add_swap, ?_, ?_⟩
  · intro a b e1 e2 h1 h2
    obtain ⟨hlo, hhi⟩ := expectedScoreDouble_add_swap a b e1 e2 h1 h2
    rw [abs_le]
    constructor <;> linarith
  · intro r
    refine ⟨expectedScoreDouble_self r, ?_⟩
    have h : (1 : ℚ) / 2 + 1 / 2 = 1 := by norm_num
    rw [h]
    exact toDouble_one_two_half.1

/-- Witness of the amended C2 at the ratings 2400 and 1200, where the double sum is
`1 + 2 ^ (-52)`. -/
theorem expectedScore_add_swap_rounded_witness :
    |toDouble (((8998201053687306 : ℤ) : ℚ) * 2 ^ ((-1 : ℤ) - 52) +
      ((4607078939487900 : ℤ) : ℚ) * 2 ^ ((-10 : ℤ) - 52)) - 1| ≤ 1 / 2 ^ 50 :=
  expectedScore_add_swap_rounded.2.1 2400 1200 _ _ expectedScoreDouble_2400_1200
    expectedScoreDouble_1200_2400

/-- C4, amended: the exact value of the formula is strictly increasing in the rating
difference, above 0.5 for a higher rating and below 0.5 for a lower one, within `[0.7, 0.8]` at
1400 against 1200 and within `[0.2, 0.3]` at 1000 against 1200. The doubles that the code
computes are non-decreasing in the rating difference wherever the exponent `(b - a) / 400` is an
integer, not strictly increasing: they are at least one half when `a ≥ b` and at most one half
when `a ≤ b`. -/
theorem expectedScore_mono_diff :
    (∀ a b a' b' : ℝ, a - b > a' - b' → expectedScore a b > expectedScore a' b') ∧
    (∀ a b : ℝ, a > b → expectedScore a b > 0.5) ∧
    (∀ a b : ℝ, a < b → expectedScore a b < 0.5) ∧
    (0.7 ≤ expectedScore 1400 1200 ∧ expectedScore 1400 1200 ≤ 0.8) ∧
    (0.2 ≤ expectedScore 1000 1200 ∧ expectedScore 1000 1200 ≤ 0.3) ∧
    (∀ a b a' b' e e' : ℚ, expectedScoreDouble a b = some e →
      expectedScoreDouble a' b' = some e' → a - b ≥ a' - b' → e ≥ e') ∧
    (∀ a b e : ℚ, expectedScoreDouble a b = some e → a ≥ b → e ≥ 1 / 2) ∧
    (∀ a b e : ℚ, expectedScoreDouble a b = some e → a ≤ b → e ≤ 1 / 2) := by
  obtain ⟨h1, h2, h3, h4, h5⟩ := expectedScore_strictMono_diff
  refine ⟨h1, h2, h3, h4, h5, ?_, ?_, ?_⟩
  · intro a b a' b' e e' he he' h
    exact expectedScoreDouble_mono a b a' b' e e' he he' h
  · intro a b e he h
    exact expectedScoreDouble_mono a b b b e (1 / 2) he (expectedScoreDouble_self b)
      (by linarith)
  · intro a b e he h
    exact expectedScoreDouble_mono b b a b (1 / 2) e (expectedScoreDouble_self b) he
      (by linarith)

/-- Witness of the amended C4: in doubles the expected score of 2400 against 1200 is at least
that of 1200 against 2400. -/
theorem expectedScore_mono_diff_witness :
    ((8998201053687306 : ℤ) : ℚ) * 2 ^ ((-1 : ℤ) - 52) ≥
      ((4607078939487900 : ℤ) : ℚ) * 2 ^ ((-10 : ℤ) - 52) :=
  expectedScore_mono_diff.2.2.2.2.2.1 2400 1200 1200 2400 _ _ expectedScoreDouble_2400_1200
    expectedScoreDouble_1200_2400 (by norm_num)

/-! ### Raw timestamps -/

/-- The rating change depends on the two dates only through the time bonus. -/
theorem finalEloChange_congr_timeBonus (elo : ℝ) (prs : Nat) (prData : PRData)
    (created merged : Option Int)
    (h : calculateTimeBonus prData =
      calculateTimeBonus { prData with created_at := created, merged_at := merged }) :
    finalEloChange elo prs prData =
      finalEloChange elo prs { prData with created_at := created, merged_at := merged } := by
  simp only [finalEloChange, h]
  rfl

/-- C10, amended: when `created_at` or `merged_at` is absent or is a string that is not a
timestamp, nothing fails: the time bonus is the neutral factor 1.0 and the rating change is the
one the same pull request gets when it is merged 100 hours after its creation, a neutral
delay. A `null` field is the epoch and not an invalid date: with `created_at` null and a valid
`merged_at` the bonus is the step value of the hours from the epoch to `merged_at`, 0.95 when
these exceed 168; with `merged_at` null and `created_at` valid and at or after the epoch it is
0.9, as it is when both are null. -/
theorem calculateTimeBonus_raw_dates (prData : PRData) (created merged : RawDate)
    (hcreated : prData.created_at = created.timeValue)
    (hmerged : prData.merged_at = merged.timeValue) :
    ((created = RawDate.undefined ∨ created = RawDate.text none ∨
        merged = RawDate.undefined ∨ merged = RawDate.text none) →
      calculateTimeBonus prData = 1.0 ∧
      ∀ (elo : ℝ) (prs : Nat), finalEloChange elo prs prData =
        finalEloChange elo prs
          { prData with created_at := some 0, merged_at := some (100 * 60 * 60 * 1000) }) ∧
    (∀ mergedAt : Int, created = RawDate.null → merged.timeValue = some mergedAt →
      calculateTimeBonus prData = calculateTimeBonus (mergedAfter mergedAt) ∧
      (168 * (1000 * 60 * 60) < mergedAt → calculateTimeBonus prData = 0.95)) ∧
    (∀ createdAt : Int, merged = RawDate.null → created.timeValue = some createdAt →
      0 ≤ createdAt → calculateTimeBonus prData = 0.9) ∧
    (created = RawDate.null → merged = RawDate.null → calculateTimeBonus prData = 0.9) := by
  have hnull : ∀ createdAt : Int, merged = RawDate.null → created.timeValue = some createdAt →
      0 ≤ createdAt → calculateTimeBonus prData = 0.9 := by
    intro createdAt hm hc hnonneg
    have h1 : prData.created_at = some createdAt := by rw [hcreated, hc]
    have h2 : prData.merged_at = some 0 := by rw [hmerged, hm]; rfl
    rw [calculateTimeBonus_of_valid prData createdAt 0 h1 h2]
    have hq : ((0 - createdAt : Int) : ℚ) ≤ 0 := by
      exact_mod_cast (by omega : (0 : Int) - createdAt ≤ 0)
    have hh : ((0 - createdAt : Int) : ℚ) / 3600000 < 2 := by
      rw [div_lt_iff₀ (by norm_num)]
      linarith
    rw [if_pos hh]
  refine ⟨?_, ?_, hnull, ?_⟩
  · intro h
    have hinvalid : prData.created_at = none ∨ prData.merged_at = none := by
      rcases h with h | h | h | h
      · exact Or.inl (by rw [hcreated, h]; rfl)
      · exact Or.inl (by rw [hcreated, h]; rfl)
      · exact Or.inr (by rw [hmerged, h]; rfl)
      · exact Or.inr (by rw [hmerged, h]; rfl)
    have hone := calculateTimeBonus_of_invalid prData hinvalid
    have hneutral : calculateTimeBonus
        { prData with created_at := some 0, merged_at := some (100 * 60 * 60 * 1000) } = 1 := by
      rw [calculateTimeBonus_of_valid _ 0 (100 * 60 * 60 * 1000) rfl rfl]
      norm_num
    constructor
    · rw [hone]
      norm_num
    · intro elo prs
      exact finalEloChange_congr_timeBonus elo prs prData _ _ (by rw [hone, hneutral])
  · intro mergedAt hc hm
    have h1 : prData.created_at = some 0 := by rw [hcreated, hc]; rfl
    have h2 : prData.merged_at = some mergedAt := by rw [hmerged, hm]
    have hsame : calculateTimeBonus prData = calculateTimeBonus (mergedAfter mergedAt) := by
      rw [calculateTimeBonus_of_valid prData 0 mergedAt h1 h2,
        calculateTimeBonus_of_valid (mergedAfter mergedAt) 0 mergedAt rfl rfl]
    refine ⟨hsame, ?_⟩
    intro hlate
    rw [calculateTimeBonus_of_valid prData 0 mergedAt h1 h2]
    have hq : (168 : ℚ) * (1000 * 60 * 60) < ((mergedAt - 0 : Int) : ℚ) := by
      exact_mod_cast (by omega : (168 : Int) * (1000 * 60 * 60) < mergedAt - 0)
    have hh : (168 : ℚ) < ((mergedAt - 0 : Int) : ℚ) / 3600000 := by
      rw [lt_div_iff₀ (by norm_num)]
      linarith
    rw [if_neg (by linarith), if_neg (by linarith), if_neg (by linarith), if_pos hh]
  · intro hc hm
    exact hnull 0 hm (by rw [hc]; rfl) (le_refl 0)

/-- Witness of the amended C10: a record without `created_at`, merged at the epoch, has the
time bonus 1.0. -/
theorem calculateTimeBonus_raw_dates_witness :
    calculateTimeBonus { emptyPR with created_at := none } = 1.0 :=
  ((calculateTimeBonus_raw_dates { emptyPR with created_at := none } RawDate.undefined
    (RawDate.text (some 0)) rfl rfl).1 (Or.inl rfl)).1

/-! ### Authors named like an inherited property -/

/-- The run for an author whose read finds an inherited value. -/
theorem updateLeaderboardRun_of_inherited (context : Context) (now : Int)
    (leaderboard : Leaderboard) (prData : PRData)
    (h : readsInherited leaderboard.contributors prData.author = true) :
    updateLeaderboardRun context now leaderboard prData =
      { leaderboard :=
          { contributors := leaderboard.contributors, lastUpdated := now,
            totalPRs := leaderboard.totalPRs + 1 }
        finalEloChange := none
        rank := (leaderboard.contributors.filter (fun _ => false)).length + 1 } := by
  rw [updateLeaderboardRun, if_pos h]

/-- The run for any other author is `updateLeaderboard`. -/
theorem updateLeaderboardRun_of_regular (context : Context) (now : Int)
    (leaderboard : Leaderboard) (prData : PRData)
    (h : readsInherited leaderboard.contributors prData.author = false) :
    updateLeaderboardRun context now leaderboard prData =
      { leaderboard := (updateLeaderboard context now leaderboard prData).leaderboard
        finalEloChange := some (updateLeaderboard context now leaderboard prData).finalEloChange
        rank := (updateLeaderboard context now leaderboard prData).rank } := by
  rw [updateLeaderboardRun, if_neg (by rw [h]; exact Bool.false_ne_true)]

/-- A name that no object inherits is never read as an inherited value. -/
theorem readsInherited_of_not_mem (contributors : List (String × Contributor)) (author : String)
    (h : author ∉ INHERITED_PROPERTIES) : readsInherited contributors author = false := by
  have hcontains : INHERITED_PROPERTIES.contains author = false := by
    rw [← Bool.not_eq_true]
    intro hmem
    exact h (List.elem_iff.mp hmem)
  rw [readsInherited, hcontains, Bool.and_false]

/-- Events whose authors have names that no object inherits run as `processEvents`. -/
theorem processEventsRun_eq_processEvents (events : List MergeEvent) (leaderboard : Leaderboard)
    (h : ∀ event ∈ events, event.prData.author ∉ INHERITED_PROPERTIES) :
    processEventsRun leaderboard events = processEvents leaderboard events := by
  induction events generalizing leaderboard with
  | nil => rfl
  | cons event rest ih =>
    have hstep : (updateLeaderboardRun event.context event.now leaderboard
        event.prData).leaderboard =
        (updateLeaderboard event.context event.now leaderboard event.prData).leaderboard := by
      rw [updateLeaderboardRun_of_regular _ _ _ _
        (readsInherited_of_not_mem _ _ (h event (List.mem_cons_self _ _)))]
    have hrest := ih (updateLeaderboard event.context event.now leaderboard
      event.prData).leaderboard (fun e he => h e (List.mem_cons_of_mem _ he))
    rw [processEvents_cons, ← hrest]
    simp only [processEventsRun, List.foldl_cons, hstep]

/-- Events of an author whose read finds an inherited value leave the contributors of the store
as they were and add their number to `totalPRs`. -/
theorem processEventsRun_of_inherited (author : String) (events : List MergeEvent)
    (leaderboard : Leaderboard)
    (hread : readsInherited leaderboard.contributors author = true)
    (hauthor : ∀ event ∈ events, event.prData.author = author) :
    (processEventsRun leaderboard events).contributors = leaderboard.contributors ∧
    (processEventsRun leaderboard events).totalPRs = leaderboard.totalPRs + events.length := by
  induction events generalizing leaderboard with
  | nil => exact ⟨rfl, rfl⟩
  | cons event rest ih =>
    have ha : event.prData.author = author := hauthor event (List.mem_cons_self _ _)
    have hrun := updateLeaderboardRun_of_inherited event.context event.now leaderboard
      event.prData (by rw [ha]; exact hread)
    obtain ⟨h1, h2⟩ := ih
      (updateLeaderboardRun event.context event.now leaderboard event.prData).leaderboard
      (by rw [hrun]; exact hread) (fun e he => hauthor e (List.mem_cons_of_mem _ he))
    have hfold : processEventsRun leaderboard (event :: rest) =
        processEventsRun
          (updateLeaderboardRun event.context event.now leaderboard event.prData).leaderboard
          rest := rfl
    rw [hfold, h1, h2, hrun, List.length_cons]
    exact ⟨rfl, by dsimp only; omega⟩

/-- C12: the code contradicts its comment `Initialize contributor if new`. For the author
`constructor`, new to the empty store, the read `contributors[author]` finds the inherited
function, no record is created, the rating change is `NaN` and the saved store holds no record
of the author; so it is for every author whose read finds an inherited value. For every other
author the run leaves the record with the rating of the record before (or of the default
record) plus the applied change, one pull request more and the task difficulty added. -/
theorem updateLeaderboardRun_inherited_author :
    (getContributor (freshLeaderboard 0).contributors "constructor" = none ∧
      (updateLeaderboardRun (eventOf "constructor").context 0 (freshLeaderboard 0)
        (eventOf "constructor").prData).finalEloChange = none ∧
      getContributor
        (updateLeaderboardRun (eventOf "constructor").context 0 (freshLeaderboard 0)
          (eventOf "constructor").prData).leaderboard.contributors "constructor" = none) ∧
    (∀ (context : Context) (now : Int) (leaderboard : Leaderboard) (prData : PRData),
      readsInherited leaderboard.contributors prData.author = true →
        (updateLeaderboardRun context now leaderboard prData).finalEloChange = none ∧
        (updateLeaderboardRun context now leaderboard prData).leaderboard.contributors =
          leaderboard.contributors ∧
        getContributor
          (updateLeaderboardRun context now leaderboard prData).leaderboard.contributors
          prData.author = none) ∧
    (∀ (context : Context) (now : Int) (leaderboard : Leaderboard) (prData : PRData),
      readsInherited leaderboard.contributors prData.author = false →
        ∃ (change : Int) (updated : Contributor),
          (updateLeaderboardRun context now leaderboard prData).finalEloChange = some change ∧
          getContributor
            (updateLeaderboardRun context now leaderboard prData).leaderboard.contributors
            prData.author = some updated ∧
          updated.elo = (recordBefore leaderboard prData.author).elo + (change : ℚ) ∧
          updated.prs = (recordBefore leaderboard prData.author).prs + 1 ∧
          updated.totalDifficulty =
            (recordBefore leaderboard prData.author).totalDifficulty +
              calculateTaskDifficulty prData) := by
  have hinherited : ∀ (context : Context) (now : Int) (leaderboard : Leaderboard)
      (prData : PRData), readsInherited leaderboard.contributors prData.author = true →
        (updateLeaderboardRun context now leaderboard prData).finalEloChange = none ∧
        (updateLeaderboardRun context now leaderboard prData).leaderboard.contributors =
          leaderboard.contributors ∧
        getContributor
          (updateLeaderboardRun context now leaderboard prData).leaderboard.contributors
          prData.author = none := by
    intro context now leaderboard prData h
    rw [updateLeaderboardRun_of_inherited context now leaderboard prData h]
    refine ⟨rfl, rfl, ?_⟩
    have hnone : (getContributor leaderboard.contributors prData.author).isNone = true := by
      rw [readsInherited, Bool.and_eq_true] at h
      exact h.1
    exact Option.isNone_iff_eq_none.mp hnone
  refine ⟨?_, hinherited, ?_⟩
  · obtain ⟨h1, -, h3⟩ := hinherited (eventOf "constructor").context 0 (freshLeaderboard 0)
      (eventOf "constructor").prData (by decide)
    exact ⟨rfl, h1, h3⟩
  · intro context now leaderboard prData h
    rw [updateLeaderboardRun_of_regular context now leaderboard prData h]
    refine ⟨_, _, rfl, getContributor_updateLeaderboard_author context now leaderboard prData,
      ?_, rfl, rfl⟩
    rw [finalEloChange_updateLeaderboard]
    rfl

/-- A run keeps the histories within ten entries, whoever the author is. -/
theorem historyBounded_updateLeaderboardRun (context : Context) (now : Int)
    (leaderboard : Leaderboard) (prData : PRData) (h : historyBounded leaderboard) :
    historyBounded (updateLeaderboardRun context now leaderboard prData).leaderboard := by
  cases hread : readsInherited leaderboard.contributors prData.author with
  | true =>
    rw [updateLeaderboardRun_of_inherited context now leaderboard prData hread]
    exact h
  | false =>
    rw [updateLeaderboardRun_of_regular context now leaderboard prData hread]
    exact historyBounded_updateLeaderboard context now leaderboard prData h

/-- Running a first event and then the others. -/
theorem processEventsRun_cons (leaderboard : Leaderboard) (event : MergeEvent)
    (rest : List MergeEvent) :
    processEventsRun leaderboard (event :: rest) =
      processEventsRun
        (updateLeaderboardRun event.context event.now leaderboard event.prData).leaderboard
        rest :=
  rfl

/-- C13: the code contradicts its comment `Initialize contributor if new`: the test
`!leaderboard.contributors[author]` is false for a name that every object inherits. For the
author `constructor` on the empty store no record is created, so the saved store holds no
history of the author at all, and the entry of the event is lost. For every
other author the history after the run is the first ten elements of the entry of the event,
made of the number, the title, the rating change, the task difficulty, the merge time and the
address of the pull request, put in front of the previous history; on a store where `ada` has
ten entries numbered 10 down to 1, the eleventh pull request leaves the entries 11 down to 2.
No stored history exceeds ten entries after any sequence of events. -/
theorem updateLeaderboardRun_history :
    (getContributor
        (updateLeaderboardRun (eventOf "constructor").context 0 (freshLeaderboard 0)
          (eventOf "constructor").prData).leaderboard.contributors "constructor" = none ∧
      (updateLeaderboardRun (eventOf "constructor").context 0 (freshLeaderboard 0)
          (eventOf "constructor").prData).leaderboard.contributors = []) ∧
    (∀ (context : Context) (now : Int) (leaderboard : Leaderboard) (prData : PRData),
      readsInherited leaderboard.contributors prData.author = false →
        ∃ (change : Int) (updated : Contributor),
          (updateLeaderboardRun context now leaderboard prData).finalEloChange = some change ∧
          getContributor
            (updateLeaderboardRun context now leaderboard prData).leaderboard.contributors
            prData.author = some updated ∧
          updated.recentPRs = some
            ((({ number := prData.number
                 title := prData.title
                 eloChange := change
                 difficulty := calculateTaskDifficulty prData
                 mergedAt := prData.merged_at
                 url := "https://github.com/" ++ context.owner ++ "/" ++ context.repo ++
                   "/pull/" ++ toString prData.number } : RecentPR) ::
              (recordBefore leaderboard prData.author).recentPRs.getD []).take 10) ∧
          (updated.recentPRs.getD []).length ≤ 10 ∧
          (updated.recentPRs.getD []).head? = some
            { number := prData.number
              title := prData.title
              eloChange := change
              difficulty := calculateTaskDifficulty prData
              mergedAt := prData.merged_at
              url := "https://github.com/" ++ context.owner ++ "/" ++ context.repo ++
                "/pull/" ++ toString prData.number } ∧
          (updated.recentPRs.getD []).tail =
            ((recordBefore leaderboard prData.author).recentPRs.getD []).take 9) ∧
    (∃ (change : Int) (updated : Contributor),
      (updateLeaderboardRun eleventhOfAda.context 0 storeOfAda
        eleventhOfAda.prData).finalEloChange = some change ∧
      getContributor
        (updateLeaderboardRun eleventhOfAda.context 0 storeOfAda
          eleventhOfAda.prData).leaderboard.contributors "ada" = some updated ∧
      updated.recentPRs = some
        (({ number := 11, title := "eleventh", eloChange := change, difficulty := 1200,
            mergedAt := some 0, url := "https://github.com/octo/repo/pull/11" } : RecentPR) ::
          tenEntries.take 9) ∧
      (updated.recentPRs.getD []).length = 10 ∧
      (updated.recentPRs.getD []).map (fun entry => entry.number) =
        [11, 10, 9, 8, 7, 6, 5, 4, 3, 2] ∧
      tenEntries.map (fun entry => entry.number) = [10, 9, 8, 7, 6, 5, 4, 3, 2, 1]) ∧
    (∀ now : Int, historyBounded (freshLeaderboard now)) ∧
    (∀ (leaderboard : Leaderboard) (events : List MergeEvent),
      historyBounded leaderboard → historyBounded (processEventsRun leaderboard events)) := by
  have hregular : ∀ (context : Context) (now : Int) (leaderboard : Leaderboard)
      (prData : PRData), readsInherited leaderboard.contributors prData.author = false →
        ∃ (change : Int) (updated : Contributor),
          (updateLeaderboardRun context now leaderboard prData).finalEloChange = some change ∧
          getContributor
            (updateLeaderboardRun context now leaderboard prData).leaderboard.contributors
            prData.author = some updated ∧
          updated.recentPRs = some
            ((({ number := prData.number
                 title := prData.title
                 eloChange := change
                 difficulty := calculateTaskDifficulty prData
                 mergedAt := prData.merged_at
                 url := "https://github.com/" ++ context.owner ++ "/" ++ context.repo ++
                   "/pull/" ++ toString prData.number } : RecentPR) ::
              (recordBefore leaderboard prData.author).recentPRs.getD []).take 10) ∧
          (updated.recentPRs.getD []).length ≤ 10 ∧
          (updated.recentPRs.getD []).head? = some
            { number := prData.number
              title := prData.title
              eloChange := change
              difficulty := calculateTaskDifficulty prData
              mergedAt := prData.merged_at
              url := "https://github.com/" ++ context.owner ++ "/" ++ context.repo ++
                "/pull/" ++ toString prData.number } ∧
          (updated.recentPRs.getD []).tail =
            ((recordBefore leaderboard prData.author).recentPRs.getD []).take 9 := by
    intro context now leaderboard prData h
    rw [updateLeaderboardRun_of_regular context now leaderboard prData h]
    refine ⟨_, _, rfl, getContributor_updateLeaderboard_author context now leaderboard prData,
      ?_, ?_, ?_, ?_⟩
    · rw [finalEloChange_updateLeaderboard]
      rfl
    · simp only [recordMerge, Option.getD_some, List.length_take]
      exact Nat.min_le_left _ _
    · rw [finalEloChange_updateLeaderboard]
      simp [recordMerge, historyEntry]
    · simp [recordMerge]
  refine ⟨?_, hregular, ?_, ?_, ?_⟩
  · rw [updateLeaderboardRun_of_inherited _ _ _ _ (by decide)]
    exact ⟨rfl, rfl⟩
  · obtain ⟨change, updated, hchange, hget, hrecent, -, -, -⟩ :=
      hregular eleventhOfAda.context 0 storeOfAda eleventhOfAda.prData (by decide)
    have hrecent2 : updated.recentPRs = some
        (({ number := 11, title := "eleventh", eloChange := change, difficulty := 1200,
            mergedAt := some 0, url := "https://github.com/octo/repo/pull/11" } : RecentPR) ::
          tenEntries.take 9) := by
      rw [hrecent]
      have hd : calculateTaskDifficulty eleventhOfAda.prData = 1200 := by decide
      have hurl : "https://github.com/" ++ eleventhOfAda.context.owner ++ "/" ++
          eleventhOfAda.context.repo ++ "/pull/" ++ toString eleventhOfAda.prData.number =
          "https://github.com/octo/repo/pull/11" := by decide
      rw [hd, hurl]
      rfl
    refine ⟨change, updated, hchange, hget, hrecent2, ?_, ?_, ?_⟩
    · rw [hrecent2]
      rfl
    · rw [hrecent2]
      rfl
    · rfl
  · intro now name data hdata
    simp [freshLeaderboard, getContributor] at hdata
  · intro leaderboard events
    induction events generalizing leaderboard with
    | nil =>
      intro h
      exact h
    | cons event rest ih =>
      intro h
      rw [processEventsRun_cons]
      exact ih _ (historyBounded_updateLeaderboardRun _ _ _ _ h)

/-- C14: the code contradicts its comment `Initialize contributor if new`: the test
`!leaderboard.contributors[author]` is false for a name that every object inherits. After two
events of the author `constructor`, absent from the empty store, the store holds no record of
the author, where the claim has a record with `prs = 2`; so it is after any events of an
author whose read finds an inherited value. For an author whose name no object inherits and
who is absent from the store, `N ≥ 1` events of the author leave a record with `prs = N` and
the rating 1200 plus the sum of the `N` rating changes that the runs applied. -/
theorem processEventsRun_inherited_author :
    (getContributor (freshLeaderboard 0).contributors "constructor" = none ∧
      getContributor
        (processEventsRun (freshLeaderboard 0)
          [eventOf "constructor", eventOf "constructor"]).contributors "constructor" = none ∧
      (processEventsRun (freshLeaderboard 0)
          [eventOf "constructor", eventOf "constructor"]).contributors = []) ∧
    (∀ (leaderboard : Leaderboard) (author : String) (events : List MergeEvent),
      readsInherited leaderboard.contributors author = true →
      (∀ event ∈ events, event.prData.author = author) →
        (processEventsRun leaderboard events).contributors = leaderboard.contributors ∧
        getContributor (processEventsRun leaderboard events).contributors author = none) ∧
    (∀ (leaderboard : Leaderboard) (author : String) (events : List MergeEvent),
      author ∉ INHERITED_PROPERTIES →
      getContributor leaderboard.contributors author = none →
      (∀ event ∈ events, event.prData.author = author) → events ≠ [] →
        ∃ data : Contributor,
          getContributor (processEventsRun leaderboard events).contributors author =
            some data ∧
          data.prs = events.length ∧
          data.elo = 1200 + (((appliedChanges leaderboard events).sum : Int) : ℚ) ∧
          (appliedChanges leaderboard events).length = events.length) := by
  have hinherited : ∀ (leaderboard : Leaderboard) (author : String) (events : List MergeEvent),
      readsInherited leaderboard.contributors author = true →
      (∀ event ∈ events, event.prData.author = author) →
        (processEventsRun leaderboard events).contributors = leaderboard.contributors ∧
        getContributor (processEventsRun leaderboard events).contributors author = none := by
    intro leaderboard author events hread hauthor
    obtain ⟨hcontributors, -⟩ :=
      processEventsRun_of_inherited author events leaderboard hread hauthor
    refine ⟨hcontributors, ?_⟩
    rw [hcontributors]
    have hnone : (getContributor leaderboard.contributors author).isNone = true := by
      rw [readsInherited, Bool.and_eq_true] at hread
      exact hread.1
    exact Option.isNone_iff_eq_none.mp hnone
  refine ⟨?_, hinherited, ?_⟩
  · obtain ⟨h1, h2⟩ := hinherited (freshLeaderboard 0) "constructor"
      [eventOf "constructor", eventOf "constructor"] (by decide) (by
        intro event hevent
        simp only [List.mem_cons, List.mem_singleton, List.not_mem_nil, or_false, or_self]
          at hevent
        rw [hevent]
        rfl)
    exact ⟨rfl, h2, h1⟩
  · intro leaderboard author events hname habsent hauthor hne
    have hregular : ∀ event ∈ events, event.prData.author ∉ INHERITED_PROPERTIES := by
      intro event hevent
      rw [hauthor event hevent]
      exact hname
    rw [processEventsRun_eq_processEvents events leaderboard hregular]
    exact processEvents_new_author leaderboard author events habsent hauthor hne

/-- C15: the code contradicts its comment `Initialize contributor if new`: the test
`!leaderboard.contributors[author]` is false for a name that every object inherits. For the
author `constructor` on the empty store the run reports the rank 1 while the saved store holds
no contributor, so `rank ≤ number of contributors` fails and the author has no updated rating;
so it is for every author whose read finds an inherited value. For every other author the rank
reported is one plus the number of contributors of the updated store whose rating is strictly
greater than the new rating of the author, it lies between 1 and the number of contributors,
and the contributors whose rating is at most that of the author, ties included, are not
counted. -/
theorem updateLeaderboardRun_rank :
    ((updateLeaderboardRun (eventOf "constructor").context 0 (freshLeaderboard 0)
        (eventOf "constructor").prData).rank = 1 ∧
      (updateLeaderboardRun (eventOf "constructor").context 0 (freshLeaderboard 0)
        (eventOf "constructor").prData).leaderboard.contributors.length = 0 ∧
      ¬ (updateLeaderboardRun (eventOf "constructor").context 0 (freshLeaderboard 0)
          (eventOf "constructor").prData).rank ≤
        (updateLeaderboardRun (eventOf "constructor").context 0 (freshLeaderboard 0)
          (eventOf "constructor").prData).leaderboard.contributors.length) ∧
    (∀ (context : Context) (now : Int) (leaderboard : Leaderboard) (prData : PRData),
      readsInherited leaderboard.contributors prData.author = true →
        (updateLeaderboardRun context now leaderboard prData).rank = 1 ∧
        getContributor
          (updateLeaderboardRun context now leaderboard prData).leaderboard.contributors
          prData.author = none) ∧
    (∀ (context : Context) (now : Int) (leaderboard : Leaderboard) (prData : PRData),
      readsInherited leaderboard.contributors prData.author = false →
        ∃ updated : Contributor,
          getContributor
            (updateLeaderboardRun context now leaderboard prData).leaderboard.contributors
            prData.author = some updated ∧
          (updateLeaderboardRun context now leaderboard prData).rank =
            1 + ((updateLeaderboardRun context now leaderboard
              prData).leaderboard.contributors.filter
                (fun entry => decide (entry.2.elo > updated.elo))).length ∧
          1 ≤ (updateLeaderboardRun context now leaderboard prData).rank ∧
          (updateLeaderboardRun context now leaderboard prData).rank ≤
            (updateLeaderboardRun context now leaderboard
              prData).leaderboard.contributors.length ∧
          (updateLeaderboardRun context now leaderboard prData).rank +
            ((updateLeaderboardRun context now leaderboard
              prData).leaderboard.contributors.filter
                (fun entry => decide (entry.2.elo ≤ updated.elo))).length =
            (updateLeaderboardRun context now leaderboard
              prData).leaderboard.contributors.length + 1) := by
  have hinherited : ∀ (context : Context) (now : Int) (leaderboard : Leaderboard)
      (prData : PRData), readsInherited leaderboard.contributors prData.author = true →
        (updateLeaderboardRun context now leaderboard prData).rank = 1 ∧
        getContributor
          (updateLeaderboardRun context now leaderboard prData).leaderboard.contributors
          prData.author = none := by
    intro context now leaderboard prData h
    rw [updateLeaderboardRun_of_inherited context now leaderboard prData h]
    refine ⟨?_, ?_⟩
    · simp
    · have hnone : (getContributor leaderboard.contributors prData.author).isNone = true := by
        rw [readsInherited, Bool.and_eq_true] at h
        exact h.1
      exact Option.isNone_iff_eq_none.mp hnone
  refine ⟨?_, hinherited, ?_⟩
  · obtain ⟨hrank, -⟩ := hinherited (eventOf "constructor").context 0 (freshLeaderboard 0)
      (eventOf "constructor").prData (by decide)
    have hlength : (updateLeaderboardRun (eventOf "constructor").context 0 (freshLeaderboard 0)
        (eventOf "constructor").prData).leaderboard.contributors.length = 0 := by
      rw [updateLeaderboardRun_of_inherited _ _ _ _ (by decide)]
      rfl
    refine ⟨hrank, hlength, ?_⟩
    rw [hrank, hlength]
    decide
  · intro context now leaderboard prData h
    rw [updateLeaderboardRun_of_regular context now leaderboard prData h]
    exact updateLeaderboard_rank context now leaderboard prData

/-- A run keeps the store free of keys that every object inherits, and on such a store it
adds one to `totalPRs` and, unless the name of the author is inherited, one to the sum of
`prs`. -/
theorem counts_updateLeaderboardRun (context : Context) (now : Int) (leaderboard : Leaderboard)
    (prData : PRData) (h : noInheritedKey leaderboard) :
    noInheritedKey (updateLeaderboardRun context now leaderboard prData).leaderboard ∧
    (updateLeaderboardRun context now leaderboard prData).leaderboard.totalPRs =
      leaderboard.totalPRs + 1 ∧
    sumPrs (updateLeaderboardRun context now leaderboard prData).leaderboard.contributors =
      sumPrs leaderboard.contributors +
        (if INHERITED_PROPERTIES.contains prData.author then 0 else 1) := by
  by_cases hname : prData.author ∈ INHERITED_PROPERTIES
  · have hcontains : INHERITED_PROPERTIES.contains prData.author = true :=
      List.elem_iff.mpr hname
    have hread : readsInherited leaderboard.contributors prData.author = true := by
      rw [readsInherited, h _ hname, hcontains]
      rfl
    rw [updateLeaderboardRun_of_inherited context now leaderboard prData hread, hcontains]
    exact ⟨h, rfl, rfl⟩
  · have hcontains : INHERITED_PROPERTIES.contains prData.author = false := by
      rw [← Bool.not_eq_true]
      intro hmem
      exact hname (List.elem_iff.mp hmem)
    rw [updateLeaderboardRun_of_regular context now leaderboard prData
      (readsInherited_of_not_mem _ _ hname), hcontains]
    obtain ⟨s1, s2⟩ := counts_updateLeaderboard context now leaderboard prData
    refine ⟨?_, s2, ?_⟩
    · intro name hmem
      have hne : name ≠ prData.author := fun heq => hname (heq ▸ hmem)
      exact (getContributor_updateLeaderboard_other context now leaderboard prData name
        hne).trans (h name hmem)
    · rw [s1]
      rfl

/-- Running events on a store free of inherited keys adds their number to `totalPRs` and the
number of those whose author has no inherited name to the sum of `prs`. -/
theorem counts_processEventsRun (events : List MergeEvent) (leaderboard : Leaderboard)
    (h : noInheritedKey leaderboard) :
    (processEventsRun leaderboard events).totalPRs = leaderboard.totalPRs + events.length ∧
    sumPrs (processEventsRun leaderboard events).contributors =
      sumPrs leaderboard.contributors + (regularEvents events).length := by
  induction events generalizing leaderboard with
  | nil => exact ⟨rfl, rfl⟩
  | cons event rest ih =>
    obtain ⟨hkeys, s1, s2⟩ :=
      counts_updateLeaderboardRun event.context event.now leaderboard event.prData h
    obtain ⟨h1, h2⟩ := ih _ hkeys
    rw [processEventsRun_cons, h1, h2, s1, s2, List.length_cons]
    refine ⟨by omega, ?_⟩
    unfold regularEvents
    rw [List.filter_cons]
    cases INHERITED_PROPERTIES.contains event.prData.author with
    | true => simp
    | false =>
      simp only [Bool.not_false, if_true, List.length_cons, Bool.false_eq_true, if_false]
      omega

/-- C16: the code contradicts its comment `Initialize contributor if new`: the test
`!leaderboard.contributors[author]` is false for a name that every object inherits. One event
of the author `constructor` from the fresh empty store leaves `totalPRs = 1` and no
contributor, so the sum of `prs` is 0 and differs from `totalPRs`. From the fresh store,
`totalPRs` is always the number of events run, the sum of `prs` is the number of the events
whose author has no inherited name, and the two are equal when no author has such a name. -/
theorem processEventsRun_totalPRs :
    ((processEventsRun (freshLeaderboard 0) [eventOf "constructor"]).totalPRs = 1 ∧
      (processEventsRun (freshLeaderboard 0) [eventOf "constructor"]).contributors = [] ∧
      sumPrs (processEventsRun (freshLeaderboard 0) [eventOf "constructor"]).contributors = 0 ∧
      (processEventsRun (freshLeaderboard 0) [eventOf "constructor"]).totalPRs ≠
        sumPrs (processEventsRun (freshLeaderboard 0) [eventOf "constructor"]).contributors) ∧
    (∀ now : Int, (freshLeaderboard now).contributors = [] ∧
      (freshLeaderboard now).totalPRs = 0) ∧
    (∀ (now : Int) (events : List MergeEvent),
      (processEventsRun (freshLeaderboard now) events).totalPRs = events.length ∧
      sumPrs (processEventsRun (freshLeaderboard now) events).contributors =
        (regularEvents events).length) ∧
    (∀ (now : Int) (events : List MergeEvent),
      (∀ event ∈ events, event.prData.author ∉ INHERITED_PROPERTIES) →
        (processEventsRun (freshLeaderboard now) events).totalPRs =
          sumPrs (processEventsRun (freshLeaderboard now) events).contributors ∧
        (processEventsRun (freshLeaderboard now) events).totalPRs = events.length) := by
  have hfresh : ∀ now : Int, noInheritedKey (freshLeaderboard now) := fun _ _ _ => rfl
  have hcounts : ∀ (now : Int) (events : List MergeEvent),
      (processEventsRun (freshLeaderboard now) events).totalPRs = events.length ∧
      sumPrs (processEventsRun (freshLeaderboard now) events).contributors =
        (regularEvents events).length := by
    intro now events
    obtain ⟨h1, h2⟩ := counts_processEventsRun events (freshLeaderboard now) (hfresh now)
    rw [h1, h2]
    simp [freshLeaderboard, sumPrs]
  refine ⟨?_, fun now => ⟨rfl, rfl⟩, hcounts, ?_⟩
  · obtain ⟨h1, h2⟩ := hcounts 0 [eventOf "constructor"]
    obtain ⟨h3, -⟩ := processEventsRun_of_inherited "constructor" [eventOf "constructor"]
      (freshLeaderboard 0) (by decide) (by
        intro event hevent
        rw [List.mem_singleton.mp hevent]
        rfl)
    have hregular : (regularEvents [eventOf "constructor"]).length = 0 := by decide
    rw [hregular] at h2
    refine ⟨h1, h3, h2, ?_⟩
    rw [h1, h2]
    decide
  · intro now events hnames
    obtain ⟨h1, h2⟩ := hcounts now events
    have hall : regularEvents events = events := by
      unfold regularEvents
      rw [List.filter_eq_self]
      intro event hevent
      have hcontains : INHERITED_PROPERTIES.contains event.prData.author = false := by
        rw [← Bool.not_eq_true]
        intro hmem
        exact hnames event hevent (List.elem_iff.mp hmem)
      rw [hcontains]
      rfl
    rw [hall] at h2
    exact ⟨by rw [h1, h2], h1⟩

end EloCalculator
